import Mathlib

/-!
EAIO `MemoryStream` (StreamMemory.cpp): shallow embedding and verified properties.

The embedding follows `src/StreamMemory.cpp` function by function.

* `size_type` is an unsigned machine integer of `w` bits and `off_type` the signed
  integer of the same width (their typedefs live in `EAIO/internal/Config.h`, which is
  not part of the sources, so the width `w` is a parameter).  Values are natural
  numbers, every arithmetic result is reduced `% 2 ^ w`.
* Raw memory and `SharedPointer` objects live in an explicit `Heap`; pointers are
  indices, `none` is `NULL`.  A freed block / deleted object is `none` in its slot.
* Undefined behaviour (dereferencing a null or dangling pointer, `memcpy` outside a
  live block, an out-of-range float-to-integer conversion) makes an operation return
  `none`.
* A `float` is an IEEE-754 binary32 number, represented by the rational it denotes.
  Every `float` operation (a conversion from an integer, a product, a sum) rounds its
  exact result to binary32, to nearest with ties to even; a result too large for
  binary32 is an infinity, which no later conversion to an integer can take, so the
  operation returns `none`.  Each operation is rounded on its own: no excess
  precision, no fused multiply-add.
* `EASTL_ASSERT` is a debug-only check: it does not change the state, so it is not
  part of the transition functions; the asserted conditions appear as predicates.
* The allocator is an external collaborator.  Its answers during one call are given by
  an `Allocator` record; allocator identity (`mpAllocator`, `getAllocator()`), the
  diagnostic name `mpName` and the stream's own `mnRefCount` do not influence any
  modelled behaviour and are left out.
-/

namespace eaio

/-- One byte of raw memory. -/
abbrev Byte := UInt8

/-- Answers of the external allocator during one operation. -/
structure Allocator where
  /-- Says whether `allocate(n)` returns a non-null block. -/
  canAllocate : Nat → Bool
  /-- Indeterminate initial content of a freshly allocated block, by offset. -/
  garbage : Nat → Byte
  /-- Says whether `new (pAllocator, name) SharedPointer(...)` returns an object. -/
  canNew : Bool

/-- The class `eaio::SharedPointer`: data pointer, reference count, owning flag. -/
structure SharedPointer where
  mpData : Option Nat
  mnRefCount : Int
  mbFreeData : Bool
deriving DecidableEq, Repr

/-- Raw memory blocks and `SharedPointer` objects, addressed by index. -/
structure Heap where
  blocks : List (Option (List Byte))
  objects : List (Option SharedPointer)
deriving DecidableEq, Repr

/-- Scalar state of `eaio::MemoryStream`.  `mnResizeMax` is left uninitialised by
every constructor, hence the `Option`. -/
structure MemoryStream where
  mpSharedPointer : Option Nat
  mnSize : Nat
  mnCapacity : Nat
  mnPosition : Nat
  mbResizeEnabled : Bool
  mfResizeFactor : ℚ
  mnResizeIncrement : Int
  mnResizeMax : Option Int
deriving DecidableEq, Repr

/-- The enumeration `PositionType`. -/
inductive PositionType where
  | kPositionTypeBegin
  | kPositionTypeCurrent
  | kPositionTypeEnd
deriving DecidableEq, Repr

/-- The enumeration `Options`. -/
inductive Options where
  | kOptionNone
  | kOptionResizeEnabled
  | kOptionResizeFactor
  | kOptionResizeIncrement
  | kOptionResizeMaximum
deriving DecidableEq, Repr

/-! ## Machine arithmetic -/

/-- Conversion `(size_type)x` of a signed value: reduction modulo `2 ^ w`. -/
def toSize (w : Nat) (x : Int) : Nat := (x % (2 ^ w : Int)).toNat

/-- Conversion `(off_type)x` of an unsigned value: two's complement reading. -/
def toOff (w : Nat) (x : Nat) : Int :=
  if 2 * (x % 2 ^ w) < 2 ^ w then ((x % 2 ^ w : Nat) : Int) else ((x % 2 ^ w : Nat) : Int) - 2 ^ w

/-- Truncation toward zero of a rational, as a float-to-integer conversion does. -/
def truncate (x : ℚ) : Int := if 0 ≤ x then Rat.floor x else -Rat.floor (-x)

/-- Conversion `(size_type)f` of a float: defined only when the truncated value is
representable. -/
def floatToSize (w : Nat) (x : ℚ) : Option Nat :=
  if 0 ≤ truncate x ∧ truncate x < 2 ^ w then some (truncate x).toNat else none

/-- Conversion `(int)f` of a float to a 32-bit `int`: defined only when the truncated
value is representable. -/
def floatToInt (x : ℚ) : Option Int :=
  if -(2 ^ 31 : Int) ≤ truncate x ∧ truncate x < 2 ^ 31 then some (truncate x) else none

/-! ## Binary32 arithmetic -/

/-- The power `2 ^ e` of an integer exponent, as a rational. -/
def pow2 (e : Int) : ℚ := ((2 ^ e.toNat : Nat) : ℚ) / ((2 ^ (-e).toNat : Nat) : ℚ)

/-- Number of binary digits of `n`, computed with `fuel` halving steps. -/
def bitLength : Nat → Nat → Nat
  | 0, _ => 0
  | fuel + 1, n => if n = 0 then 0 else bitLength fuel (n / 2) + 1

/-- Binary exponent of a nonzero rational: the `e` with `2 ^ e ≤ |x| < 2 ^ (e + 1)`.
The difference of the bit lengths of numerator and denominator is `e` or `e + 1`. -/
def binade (x : ℚ) : Int :=
  if pow2 ((bitLength x.num.natAbs x.num.natAbs : Int) - (bitLength x.den x.den : Int)) ≤ |x|
  then (bitLength x.num.natAbs x.num.natAbs : Int) - (bitLength x.den x.den : Int)
  else (bitLength x.num.natAbs x.num.natAbs : Int) - (bitLength x.den x.den : Int) - 1

/-- Rounding of a rational to the nearest integer, ties to the even one. -/
def roundHalfEven (x : ℚ) : Int :=
  if x - (Rat.floor x : ℚ) < 1 / 2 then Rat.floor x
  else if 1 / 2 < x - (Rat.floor x : ℚ) then Rat.floor x + 1
  else if Rat.floor x % 2 = 0 then Rat.floor x else Rat.floor x + 1

/-- The spacing of binary32 numbers around `x`: 24 significant bits, and the spacing
`2 ^ (-149)` of the subnormal numbers below the smallest normal exponent `-126`. -/
def floatQuantum (x : ℚ) : ℚ := pow2 (max (binade x) (-126) - 23)

/-- Rounding of an exact result to binary32 (to nearest, ties to even); `none` when the
rounded magnitude reaches `2 ^ 128`, where binary32 has only an infinity. -/
def roundFloat (x : ℚ) : Option ℚ :=
  if x = 0 then some 0
  else if |(roundHalfEven (x / floatQuantum x) : ℚ) * floatQuantum x| < pow2 128
  then some ((roundHalfEven (x / floatQuantum x) : ℚ) * floatQuantum x)
  else none

/-- Conversion `(float)n` of an integer value. -/
def intToFloat (n : Int) : Option ℚ := roundFloat (n : ℚ)

/-- The product `x * y` of two floats. -/
def floatMul (x y : ℚ) : Option ℚ := roundFloat (x * y)

/-- The sum `x + y` of two floats. -/
def floatAdd (x y : ℚ) : Option ℚ := roundFloat (x + y)

/-! ## Heap primitives -/

namespace Heap

/-- Content of the live block at address `p`. -/
def block (h : Heap) (p : Nat) : Option (List Byte) := h.blocks.getD p none

/-- The live `SharedPointer` object at address `p`. -/
def object (h : Heap) (p : Nat) : Option SharedPointer := h.objects.getD p none

/-- Overwrite the slot of block `p`. -/
def setBlock (h : Heap) (p : Nat) (v : Option (List Byte)) : Heap :=
  { h with blocks := h.blocks.set p v }

/-- Overwrite the slot of object `p`. -/
def setObject (h : Heap) (p : Nat) (v : Option SharedPointer) : Heap :=
  { h with objects := h.objects.set p v }

/-- The call `pAllocator->allocate(n, 0)`: a fresh block of `n` indeterminate bytes,
or `NULL`. -/
def allocate (h : Heap) (a : Allocator) (n : Nat) : Option Nat × Heap :=
  if a.canAllocate n then
    (some h.blocks.length, { h with blocks := h.blocks ++ [some ((List.range n).map a.garbage)] })
  else (none, h)

/-- The call `pAllocator->deallocate(p, 0)`.  Freeing `NULL` does nothing, freeing an
address that is not a live block is undefined. -/
def deallocate (h : Heap) (p : Option Nat) : Option Heap :=
  match p with
  | none => some h
  | some q =>
    match h.block q with
    | none => none
    | some _ => some (h.setBlock q none)

/-- Placement of a newly constructed `SharedPointer` object; returns its address. -/
def newObject (h : Heap) (sp : SharedPointer) : Nat × Heap :=
  (h.objects.length, { h with objects := h.objects ++ [some sp] })

/-- The call `memcpy(dst + off, src, n)` from caller memory `src` into a heap block. -/
def memcpyIn (h : Heap) (dst : Option Nat) (off : Nat) (src : List Byte) (n : Nat) :
    Option Heap :=
  if n = 0 then some h
  else
    match dst with
    | none => none
    | some q =>
      match h.block q with
      | none => none
      | some d =>
        if off + n ≤ d.length ∧ n ≤ src.length then
          some (h.setBlock q (some (d.take off ++ src.take n ++ d.drop (off + n))))
        else none

/-- The call `memcpy(dst, src + off, n)` from a heap block into caller memory; returns
the bytes stored at `dst`. -/
def memcpyOut (h : Heap) (src : Option Nat) (off : Nat) (n : Nat) : Option (List Byte) :=
  if n = 0 then some []
  else
    match src with
    | none => none
    | some q =>
      match h.block q with
      | none => none
      | some d => if off + n ≤ d.length then some ((d.drop off).take n) else none

/-- The call `memcpy(dst, src, n)` between two heap blocks. -/
def memcpyBlock (h : Heap) (dst src : Option Nat) (n : Nat) : Option Heap :=
  match h.memcpyOut src 0 n with
  | none => none
  | some bytes => h.memcpyIn dst 0 bytes n

end Heap

/-! ## SharedPointer -/

namespace SharedPointer

/-- Modelled from the spec: `SharedPointer::addRef` is declared inline in
`EAIO/StreamMemory.h`, which is not part of the sources; the spec says it
"increments the reference count; no preconditions".  Returns the new count. -/
def addRef (h : Heap) (p : Nat) : Option (Int × Heap) :=
  match h.object p with
  | none => none
  | some sp =>
    some (sp.mnRefCount + 1, h.setObject p (some { sp with mnRefCount := sp.mnRefCount + 1 }))

/-- Modelled from the spec: `SharedPointer::getPointer` is declared inline in
`EAIO/StreamMemory.h`, which is not part of the sources; the spec says the accessor
"exposes the raw pointer".  The outer `none` is a dangling `this`. -/
def getPointer (h : Heap) (p : Nat) : Option (Option Nat) :=
  match h.object p with
  | none => none
  | some sp => some sp.mpData

/-- The method `SharedPointer::release` (lines 80-88). -/
def release (h : Heap) (p : Nat) : Option (Int × Heap) :=
  match h.object p with
  | none => none
  | some sp =>
    if sp.mnRefCount > 1 then
      some (sp.mnRefCount - 1, h.setObject p (some { sp with mnRefCount := sp.mnRefCount - 1 }))
    else
      match (if sp.mbFreeData then h.deallocate sp.mpData else some h) with
      | none => none
      | some h1 => some (0, h1.setObject p none)

end SharedPointer

/-! ## MemoryStream -/

namespace MemoryStream

/-- The constructor `MemoryStream(SharedPointer*, size_type, const char*)` with a null
pointer (lines 97-112): the newly constructed empty stream. -/
def empty : MemoryStream :=
  { mpSharedPointer := none, mnSize := 0, mnCapacity := 0, mnPosition := 0,
    mbResizeEnabled := false, mfResizeFactor := 3 / 2, mnResizeIncrement := 0,
    mnResizeMax := none }

/-- The statement `if(p) p->addRef();` (lines 146-147, 277-278). -/
def addRefIfBound (h : Heap) (p : Option Nat) : Option Heap :=
  match p with
  | none => some h
  | some q => (SharedPointer.addRef h q).map Prod.snd

/-- The statement `if(p) p->release();` (lines 232-233, 252-253, 279-280). -/
def releaseIfBound (h : Heap) (p : Option Nat) : Option Heap :=
  match p with
  | none => some h
  | some q => (SharedPointer.release h q).map Prod.snd

/-- The copy constructor (lines 133-148); returns the heap and the new stream. -/
def copy (h : Heap) (s : MemoryStream) : Option (Heap × MemoryStream) := do
  let h1 ← addRefIfBound h s.mpSharedPointer
  pure (h1,
    { mpSharedPointer := s.mpSharedPointer, mnSize := s.mnSize, mnCapacity := s.mnSize,
      mnPosition := s.mnPosition, mbResizeEnabled := s.mbResizeEnabled,
      mfResizeFactor := s.mfResizeFactor, mnResizeIncrement := s.mnResizeIncrement,
      mnResizeMax := none })

/-- The method `setOption` (lines 180-215). -/
def setOption (s : MemoryStream) (option : Options) (fValue : ℚ) : Option MemoryStream :=
  match option with
  | .kOptionResizeEnabled => some { s with mbResizeEnabled := decide (fValue ≠ 0) }
  | .kOptionResizeFactor =>
    some { s with mfResizeFactor := if fValue < 1 then 1 else fValue }
  | .kOptionResizeIncrement =>
    (floatToInt (if fValue < 0 then 0 else fValue)).map fun i => { s with mnResizeIncrement := i }
  | .kOptionResizeMaximum =>
    (floatToInt fValue).map fun i => { s with mnResizeMax := some i }
  | .kOptionNone => some s

/-- Lines 260-269 of `setData` and 284-289 of its overload: the scalar state after
binding to `p`. -/
def afterBind (s : MemoryStream) (p : Option Nat) (nSize : Nat) : MemoryStream :=
  { s with mpSharedPointer := p, mnCapacity := if p.isSome then nSize else 0,
           mnSize := if p.isSome then nSize else 0, mnPosition := 0 }

/-- Lines 232-247 of `setData`: release the old buffer, wrap the region `q` in a new
`SharedPointer` and fill it; returns the success flag, the heap and the bound pointer. -/
def bindRegion (a : Allocator) (h : Heap) (s : MemoryStream) (pData : Option Nat) (nSize : Nat)
    (bUsePointer bFreePointer : Bool) (q : Nat) : Option (Bool × Heap × Option Nat) := do
  let h2 ← releaseIfBound h s.mpSharedPointer
  if a.canNew then
    let o := h2.newObject { mpData := some q, mnRefCount := 0, mbFreeData := bFreePointer }
    let r ← SharedPointer.addRef o.2 o.1
    let h5 ← if pData.isSome ∧ nSize ≠ 0 ∧ bUsePointer = false
             then r.2.memcpyBlock (some q) pData nSize else some r.2
    pure (true, h5, some o.1)
  else
    let h3 ← if bUsePointer = false then h2.deallocate (some q) else some h2
    pure (false, h3, none)

/-- The method `setData(void*, size_type, bool, bool, Allocator*)` (lines 218-270).
The region `pData` is a heap address (`none` is `NULL`). -/
def setData (a : Allocator) (h : Heap) (s : MemoryStream) (pData : Option Nat) (nSize : Nat)
    (bUsePointer bFreePointer : Bool) : Option (Bool × Heap × MemoryStream) :=
  if pData.isSome ∨ nSize ≠ 0 then
    let r : Option Nat × Heap := if bUsePointer then (pData, h) else h.allocate a nSize
    match r.1 with
    | none => some (false, r.2, afterBind s s.mpSharedPointer nSize)
    | some q => do
      let b ← bindRegion a r.2 s pData nSize bUsePointer bFreePointer q
      pure (b.1, b.2.1, afterBind s b.2.2 nSize)
  else do
    let h1 ← releaseIfBound h s.mpSharedPointer
    pure (true, h1, afterBind s none nSize)

/-- The method `setData(SharedPointer*, size_type)` (lines 273-292). -/
def setDataShared (h : Heap) (s : MemoryStream) (pSharedPointer : Option Nat) (nSize : Nat) :
    Option (Bool × Heap × MemoryStream) := do
  let h2 ← if s.mpSharedPointer ≠ pSharedPointer then
      (addRefIfBound h pSharedPointer).bind fun h1 => releaseIfBound h1 s.mpSharedPointer
    else some h
  pure (pSharedPointer.isSome, h2, afterBind s pSharedPointer nSize)

/-- Lines 361-370 of `reallocBuffer`: copy the old content into the new buffer (when
there is one) and release the old buffer. -/
def moveOld (h : Heap) (s : MemoryStream) (pNewSharedPointer : Option Nat) (nSize : Nat) :
    Option Heap :=
  match s.mpSharedPointer with
  | none => some h
  | some old => do
    let h4 ← match pNewSharedPointer with
      | none => some h
      | some p => do
        let dst ← SharedPointer.getPointer h p
        let src ← SharedPointer.getPointer h old
        h.memcpyBlock dst src (min nSize s.mnCapacity)
    let r ← SharedPointer.release h4 old
    pure r.2

/-- The method `reallocBuffer` (lines 328-376). -/
def reallocBuffer (a : Allocator) (h : Heap) (s : MemoryStream) (nSize : Nat) :
    Option (Bool × Heap × MemoryStream) :=
  if nSize ≠ 0 then
    if a.canNew then do
      -- SharedPointer(nSize, pAllocator, pName): mpData = allocate(nSize), count 0, owning
      let r := h.allocate a nSize
      let o := r.2.newObject { mpData := r.1, mnRefCount := 0, mbFreeData := true }
      let h3 ← SharedPointer.addRef o.2 o.1
      let h5 ← moveOld h3.2 s (some o.1) nSize
      pure (true, h5, { s with mpSharedPointer := some o.1, mnCapacity := nSize })
    else some (false, h, s)
  else do
    let h5 ← moveOld h s none nSize
    pure (true, h5, { s with mpSharedPointer := none, mnCapacity := nSize })

/-- The method `setSize` (lines 295-325). -/
def setSize (a : Allocator) (h : Heap) (s : MemoryStream) (size : Nat) :
    Option (Bool × Heap × MemoryStream) :=
  if size ≠ s.mnSize then
    if s.mbResizeEnabled then
      if size < s.mnSize then
        some (true, h, { s with mnSize := size,
                                mnPosition := if s.mnPosition > size then size else s.mnPosition })
      else do
        let r ← reallocBuffer a h s size
        if r.1 then pure (true, r.2.1, { r.2.2 with mnSize := size })
        else pure (false, r.2.1, r.2.2)
    else some (false, h, s)
  else some (true, h, s)

/-- Lines 406-420 of `setPosition`: the candidate absolute position, in `size_type`
arithmetic. -/
def candidate (w : Nat) (s : MemoryStream) (nPosition : Int) (positionType : PositionType) : Nat :=
  match positionType with
  | .kPositionTypeBegin => toSize w nPosition
  | .kPositionTypeCurrent => (s.mnPosition + toSize w nPosition) % 2 ^ w
  | .kPositionTypeEnd => (s.mnSize + toSize w nPosition) % 2 ^ w

/-- The method `setPosition` (lines 402-452). -/
def setPosition (w : Nat) (a : Allocator) (h : Heap) (s : MemoryStream) (nPosition : Int)
    (positionType : PositionType) : Option (Bool × Heap × MemoryStream) :=
  let nPositionSaved : Int := toOff w s.mnPosition
  let s1 : MemoryStream := { s with mnPosition := candidate w s nPosition positionType }
  if s1.mnPosition > s1.mnSize then
    if s1.mbResizeEnabled then
      if (s1.mnPosition + 1) % 2 ^ w > s1.mnCapacity then do
        let r ← reallocBuffer a h s1 ((s1.mnPosition + 1) % 2 ^ w)
        if r.1 then pure (true, r.2.1, r.2.2)
        else pure (false, r.2.1, { r.2.2 with mnPosition := toSize w nPositionSaved })
      else some (true, h, s1)
    else some (false, h, { s1 with mnPosition := s1.mnSize })
  else some (true, h, s1)

/-- The method `setCapacity` (lines 455-461). -/
def setCapacity (a : Allocator) (h : Heap) (s : MemoryStream) (capacity : Nat) :
    Option (Bool × Heap × MemoryStream) :=
  if capacity > s.mnCapacity then reallocBuffer a h s capacity else some (false, h, s)

/-- The method `read` (lines 464-484); returns the byte count, the bytes stored at the
destination and the new stream state.  The heap is not modified. -/
def read (w : Nat) (h : Heap) (s : MemoryStream) (nSize : Nat) :
    Option (Nat × List Byte × MemoryStream) :=
  if nSize > 0 then
    let nBytesAvailable := (s.mnSize + 2 ^ w - s.mnPosition) % 2 ^ w
    if nBytesAvailable > 0 then
      let n := if nSize > nBytesAvailable then nBytesAvailable else nSize
      match s.mpSharedPointer with
      | none => none
      | some p => do
        let src ← SharedPointer.getPointer h p
        let bytes ← h.memcpyOut src s.mnPosition n
        pure (n, bytes, { s with mnPosition := (s.mnPosition + n) % 2 ^ w })
    else some (0, [], s)
  else some (0, [], s)

/-- Lines 515-522 of `write`: copy `nBytesToWrite` bytes to the current position and
advance. -/
def writeBytes (w : Nat) (h : Heap) (s : MemoryStream) (pData : List Byte)
    (nSize nBytesToWrite : Nat) : Option (Bool × Heap × MemoryStream) :=
  match s.mpSharedPointer with
  | none => none
  | some p => do
    let dst ← SharedPointer.getPointer h p
    let h1 ← h.memcpyIn dst s.mnPosition pData nBytesToWrite
    pure (decide (nBytesToWrite = nSize), h1,
          { s with mnPosition := (s.mnPosition + nBytesToWrite) % 2 ^ w })

/-- Line 499 of `write`: `(size_type)((mnCapacity * mfResizeFactor) + mnResizeIncrement)`.
The usual arithmetic conversions make this `float` arithmetic: `mnCapacity` is converted
to `float`, the product is a `float`, `mnResizeIncrement` is converted to `float`, the
sum is a `float`, and that sum is converted to `size_type`. -/
def grownCapacity (w : Nat) (s : MemoryStream) : Option Nat := do
  let capacity ← intToFloat (s.mnCapacity : Int)
  let product ← floatMul capacity s.mfResizeFactor
  let increment ← intToFloat s.mnResizeIncrement
  let sum ← floatAdd product increment
  floatToSize w sum

/-- The method `write` (lines 487-526).  The source region is the caller's memory
`pData`. -/
def write (w : Nat) (a : Allocator) (h : Heap) (s : MemoryStream) (pData : List Byte)
    (nSize : Nat) : Option (Bool × Heap × MemoryStream) :=
  if nSize > 0 then
    let nRequiredSize := (s.mnPosition + nSize) % 2 ^ w
    if nRequiredSize > s.mnCapacity then
      if s.mbResizeEnabled then do
        let c ← grownCapacity w s
        let r ← reallocBuffer a h s (if c < nRequiredSize then nRequiredSize else c)
        if r.1 then writeBytes w r.2.1 { r.2.2 with mnSize := nRequiredSize } pData nSize nSize
        else pure (false, r.2.1, r.2.2)
      else writeBytes w h s pData nSize ((s.mnSize + 2 ^ w - s.mnPosition) % 2 ^ w)
    else
      writeBytes w h (if s.mnSize < nRequiredSize then { s with mnSize := nRequiredSize } else s)
        pData nSize nSize
  else some (true, h, s)

end MemoryStream

/-! ## Operations as data, reachable states, well-formedness -/

/-- A call of a public operation of `MemoryStream`, with its arguments. -/
inductive Op where
  | setData (pData : Option Nat) (nSize : Nat) (bUsePointer bFreePointer : Bool)
  | setDataShared (pSharedPointer : Option Nat) (nSize : Nat)
  | setSize (size : Nat)
  | setCapacity (capacity : Nat)
  | setPosition (nPosition : Int) (positionType : PositionType)
  | read (nSize : Nat)
  | write (pData : List Byte) (nSize : Nat)
  | setOption (option : Options) (fValue : ℚ)

namespace MemoryStream

/-- Run one public operation.  The flag is the operation's success result; `read` and
`setOption` have no failure result and report `true`. -/
def apply (w : Nat) (a : Allocator) (h : Heap) (s : MemoryStream) :
    Op → Option (Bool × Heap × MemoryStream)
  | .setData pData nSize bUsePointer bFreePointer =>
    setData a h s pData nSize bUsePointer bFreePointer
  | .setDataShared pSharedPointer nSize => setDataShared h s pSharedPointer nSize
  | .setSize size => setSize a h s size
  | .setCapacity capacity => setCapacity a h s capacity
  | .setPosition nPosition positionType => setPosition w a h s nPosition positionType
  | .read nSize => (read w h s nSize).map fun r => (true, h, r.2.2)
  | .write pData nSize => write w a h s pData nSize
  | .setOption option fValue => (setOption s option fValue).map fun t => (true, h, t)

/-- States reachable from a newly constructed empty stream (over any heap) by public
operations and copy construction.  After a copy both the original and the new stream
are reachable. -/
inductive Reachable (w : Nat) : Heap → MemoryStream → Prop where
  | init (h : Heap) : Reachable w h MemoryStream.empty
  | step {h h1 : Heap} {s s1 : MemoryStream} (a : Allocator) (op : Op) (ok : Bool) :
      Reachable w h s → apply w a h s op = some (ok, h1, s1) → Reachable w h1 s1
  | copyNew {h h1 : Heap} {s s1 : MemoryStream} :
      Reachable w h s → copy h s = some (h1, s1) → Reachable w h1 s1
  | copyKeep {h h1 : Heap} {s s1 : MemoryStream} :
      Reachable w h s → copy h s = some (h1, s1) → Reachable w h1 s

/-- The fields of type `size_type` hold `w`-bit values. -/
def Typed (w : Nat) (s : MemoryStream) : Prop :=
  s.mnSize < 2 ^ w ∧ s.mnCapacity < 2 ^ w ∧ s.mnPosition < 2 ^ w

/-- The stream's bookkeeping agrees with the heap: `size ≤ capacity`, an unbound stream
has capacity 0, a bound stream references a live `SharedPointer` whose data pointer is a
live block of at least `capacity` bytes. -/
def WellFormed (h : Heap) (s : MemoryStream) : Prop :=
  s.mnSize ≤ s.mnCapacity ∧
  match s.mpSharedPointer with
  | none => s.mnCapacity = 0
  | some p => ∃ sp q d, h.object p = some sp ∧ sp.mpData = some q ∧ h.block q = some d ∧
      s.mnCapacity ≤ d.length

/-- Content of the block behind the bound `SharedPointer` (empty when there is none). -/
def buffer (h : Heap) (s : MemoryStream) : List Byte :=
  match s.mpSharedPointer with
  | none => []
  | some p =>
    match h.object p with
    | none => []
    | some sp =>
      match sp.mpData with
      | none => []
      | some q => (h.block q).getD []

/-- The candidate absolute position of a seek as the specification words it, over the
integers: `offset` for begin, `position + offset` for current, `size + offset` for end. -/
def specCandidate (s : MemoryStream) (nPosition : Int) : PositionType → Int
  | .kPositionTypeBegin => nPosition
  | .kPositionTypeCurrent => (s.mnPosition : Int) + nPosition
  | .kPositionTypeEnd => (s.mnSize : Int) + nPosition

/-- Modelled from the spec: the growth request `capacity * factor + increment` of a
write, with factor and increment taken as exact rationals and no rounding. -/
def specGrowth (s : MemoryStream) : ℚ :=
  (s.mnCapacity : ℚ) * s.mfResizeFactor + (s.mnResizeIncrement : ℚ)

/-- The calls of `setData(void*, ...)` that return false: there is something to bind
(`pData || nSize`) and either no data region is available, because a null pointer is to
be adopted or because the allocator refuses the copy, or the `SharedPointer` object
cannot be allocated. -/
def setDataFails (a : Allocator) (pData : Option Nat) (nSize : Nat) (bUsePointer : Bool) : Prop :=
  (pData.isSome = true ∨ nSize ≠ 0) ∧
    ((bUsePointer = true ∧ pData = none) ∨
     (bUsePointer = false ∧ a.canAllocate nSize = false) ∨
     a.canNew = false)

/-- The condition asserted at the top of `read` (line 468). -/
def readAssertion (s : MemoryStream) : Prop := s.mnPosition ≤ s.mnSize

end MemoryStream

/-- Every live block fits the `w`-bit address space. -/
def Heap.Fits (w : Nat) (h : Heap) : Prop :=
  ∀ q d, h.block q = some d → d.length < 2 ^ w

/-! ## Concrete data used by the examples -/

/-- An allocator that grants every request, zero-filling fresh blocks. -/
def grantAll : Allocator := { canAllocate := fun _ => true, garbage := fun _ => 0, canNew := true }

/-- The heap without any block or object. -/
def emptyHeap : Heap := { blocks := [], objects := [] }

/-- The empty stream after `setOption(kOptionResizeEnabled, 1)`. -/
def resizable : MemoryStream := { MemoryStream.empty with mbResizeEnabled := true }

/-- The heap after writing ten bytes through `resizable` over the empty heap. -/
def heapTen : Heap :=
  { blocks := [some [1, 2, 3, 4, 5, 6, 7, 8, 9, 10]],
    objects := [some { mpData := some 0, mnRefCount := 1, mbFreeData := true }] }

/-- The stream `resizable` after writing ten bytes. -/
def streamTen : MemoryStream :=
  { resizable with mpSharedPointer := some 0, mnSize := 10, mnCapacity := 10, mnPosition := 10 }

/-- The heap after `setPosition(5, begin)` on `resizable` over the empty heap. -/
def heapSeek : Heap :=
  { blocks := [some [0, 0, 0, 0, 0, 0]],
    objects := [some { mpData := some 0, mnRefCount := 1, mbFreeData := true }] }

/-- The stream `resizable` after `setPosition(5, begin)`. -/
def streamSeek : MemoryStream :=
  { resizable with mpSharedPointer := some 0, mnCapacity := 6, mnPosition := 5 }

/-- A heap holding one caller block of four bytes and its copy owned by a stream. -/
def heapFour : Heap :=
  { blocks := [some [1, 2, 3, 4], some [1, 2, 3, 4]],
    objects := [some { mpData := some 1, mnRefCount := 1, mbFreeData := false }] }

/-- The empty stream after `setData(block 0, 4, copy)`: size 4, capacity 4, resize
disabled. -/
def streamFour : MemoryStream :=
  { MemoryStream.empty with mpSharedPointer := some 0, mnSize := 4, mnCapacity := 4 }

/-- A stream of size 10 with resize disabled, bound to the block of `heapTen`. -/
def fixedTen : MemoryStream := { streamTen with mbResizeEnabled := false }

/-- A copy of `streamSeek`: the copy constructor sets `capacity := size = 0` and keeps
`position = 5`. -/
def copySeek : MemoryStream := { streamSeek with mnCapacity := 0 }

/-- The heap after copying `streamSeek` over `heapSeek`: the reference count is 2. -/
def heapSeekShared : Heap :=
  { blocks := [some [0, 0, 0, 0, 0, 0]],
    objects := [some { mpData := some 0, mnRefCount := 2, mbFreeData := true }] }

/-- The heap after `setCapacity(8)` on `streamFour` over `heapFour`: a new owning block
of eight bytes, the old `SharedPointer` deleted. -/
def heapEight : Heap :=
  { blocks := [some [1, 2, 3, 4], some [1, 2, 3, 4], some [1, 2, 3, 4, 0, 0, 0, 0]],
    objects := [none, some { mpData := some 2, mnRefCount := 1, mbFreeData := true }] }

/-- The stream `streamFour` after `setCapacity(8)`: size 4, capacity 8, position 0,
resize disabled. -/
def streamEight : MemoryStream :=
  { MemoryStream.empty with mpSharedPointer := some 1, mnSize := 4, mnCapacity := 8 }

/-- The heap `heapEight` after the partial write of `streamEight`. -/
def heapEightWritten : Heap :=
  { blocks := [some [1, 2, 3, 4], some [1, 2, 3, 4], some [11, 12, 13, 14, 0, 0, 0, 0]],
    objects := [none, some { mpData := some 2, mnRefCount := 1, mbFreeData := true }] }

/-- The heap `heapEight` after a write of six bytes through `streamEight`. -/
def heapEightSix : Heap :=
  { blocks := [some [1, 2, 3, 4], some [1, 2, 3, 4], some [11, 12, 13, 14, 15, 16, 0, 0]],
    objects := [none, some { mpData := some 2, mnRefCount := 1, mbFreeData := true }] }

/-- The stream `streamTen` after `setSize(2)`: size 2, capacity 10, position 2. -/
def streamTwo : MemoryStream := { streamTen with mnSize := 2, mnPosition := 2 }

/-- The caller heap holding one block of four bytes. -/
def callerHeap : Heap := { blocks := [some [1, 2, 3, 4]], objects := [] }

/-- The heap `heapTen` after copy-constructing from `streamTwo`: the count is 2. -/
def heapTenShared : Heap :=
  { blocks := [some [1, 2, 3, 4, 5, 6, 7, 8, 9, 10]],
    objects := [some { mpData := some 0, mnRefCount := 2, mbFreeData := true }] }

/-- The copy of `streamTwo`: the copy constructor sets `capacity := size = 2`. -/
def copyTwo : MemoryStream := { streamTwo with mnCapacity := 2 }

/-- A heap with one externally created `SharedPointer` (count 1) over three bytes. -/
def heapExternal : Heap :=
  { blocks := [some [7, 8, 9]],
    objects := [some { mpData := some 0, mnRefCount := 1, mbFreeData := true }] }

/-- The heap `heapExternal` after a stream bound itself to its `SharedPointer`. -/
def heapExternalBound : Heap :=
  { blocks := [some [7, 8, 9]],
    objects := [some { mpData := some 0, mnRefCount := 2, mbFreeData := true }] }

/-- The empty stream after `setData(sharedPointer 0, 2^64 - 1)`: size and capacity are
the stated length `2^64 - 1`, resize is disabled. -/
def streamHuge : MemoryStream :=
  { MemoryStream.empty with mpSharedPointer := some 0, mnSize := 2 ^ 64 - 1,
                            mnCapacity := 2 ^ 64 - 1 }

/-- An allocator whose `allocate` always fails while `new SharedPointer` succeeds. -/
def denyData : Allocator := { canAllocate := fun _ => false, garbage := fun _ => 0, canNew := true }

/-- The caller heap holding one block of eight bytes. -/
def callerEight : Heap := { blocks := [some [1, 2, 3, 4, 5, 6, 7, 8]], objects := [] }

/-- The heap after `setData(block 0, 4, copy)` over `callerEight`: the stream owns a
copy of the first four bytes. -/
def heapCopyFour : Heap :=
  { blocks := [some [1, 2, 3, 4, 5, 6, 7, 8], some [1, 2, 3, 4]],
    objects := [some { mpData := some 1, mnRefCount := 1, mbFreeData := false }] }

/-- The stream `streamFour` after a failed `setData(block 0, 8, copy)`: still bound to
the four-byte buffer, with size and capacity 8. -/
def streamOverrun : MemoryStream := { streamFour with mnSize := 8, mnCapacity := 8 }

/-- The binary32 number nearest to 1.3 (the literal `1.3f`), `10905190 * 2 ^ (-23)`. -/
def floatOnePointThree : ℚ := 10905190 / 8388608

/-- The stream `streamTen` after `setOption(kOptionResizeFactor, 1.3f)`. -/
def streamTenSlow : MemoryStream := { streamTen with mfResizeFactor := floatOnePointThree }

/-- The heap after writing one more byte through `streamTenSlow` over `heapTen`: a new
owning block of 13 bytes, the old block and `SharedPointer` released. -/
def heapThirteen : Heap :=
  { blocks := [none, some [1, 2, 3, 4, 5, 6, 7, 8, 9, 10, 11, 0, 0]],
    objects := [none, some { mpData := some 1, mnRefCount := 1, mbFreeData := true }] }

/-- The stream `streamTenSlow` after writing one more byte: size 11, capacity 13. -/
def streamThirteen : MemoryStream :=
  { streamTenSlow with mpSharedPointer := some 1, mnSize := 11, mnCapacity := 13, mnPosition := 11 }

/-- The heap after `setSize(200)` on `resizable` over the empty heap: one owning block
of 200 zero bytes. -/
def heapWide : Heap :=
  { blocks := [some (List.replicate 200 0)],
    objects := [some { mpData := some 0, mnRefCount := 1, mbFreeData := true }] }

/-- The stream `resizable` after `setSize(200)`: size 200, capacity 200, position 0. -/
def streamWide : MemoryStream :=
  { resizable with mpSharedPointer := some 0, mnSize := 200, mnCapacity := 200 }

/-- The stream `streamWide` after `setOption(kOptionResizeEnabled, 0)`. -/
def fixedWide : MemoryStream := { streamWide with mbResizeEnabled := false }

/-! # Theorems -/

/-! ## Lists of optional slots -/

theorem getD_set_self {α : Type} (l : List (Option α)) (q : Nat) (v : Option α)
    (hq : q < l.length) : (l.set q v).getD q none = v := by
  simp [List.getD_eq_getElem?_getD, hq]

theorem getD_set_of_ne {α : Type} (l : List (Option α)) (p q : Nat) (v : Option α)
    (hne : p ≠ q) : (l.set q v).getD p none = l.getD p none := by
  simp [List.getD_eq_getElem?_getD, List.getElem?_set_ne (Ne.symm hne)]

theorem lt_of_getD_eq_some {α : Type} (l : List (Option α)) (q : Nat) (d : α)
    (hd : l.getD q none = some d) : q < l.length := by
  by_contra hlt
  have hnone : l.getD q none = none := by
    simp [List.getD_eq_getElem?_getD, List.getElem?_eq_none (Nat.le_of_not_lt hlt)]
  rw [hnone] at hd
  cases hd

theorem getD_append_last {α : Type} (l : List (Option α)) (v : Option α) :
    (l ++ [v]).getD l.length none = v := by
  simp [List.getD_eq_getElem?_getD]

theorem getD_append_of_lt {α : Type} (l : List (Option α)) (v : Option α) (p : Nat)
    (hp : p < l.length) : (l ++ [v]).getD p none = l.getD p none := by
  simp [List.getD_eq_getElem?_getD, List.getElem?_append_left hp]

/-! ## Effect of each operation on the scalar state -/

namespace MemoryStream

theorem reallocBuffer_stream {a : Allocator} {h : Heap} {s : MemoryStream} {n : Nat}
    {r : Bool × Heap × MemoryStream} (hr : reallocBuffer a h s n = some r) :
    (r.1 = true ∧ r.2.2 = { s with mpSharedPointer := r.2.2.mpSharedPointer, mnCapacity := n }) ∨
    (r.1 = false ∧ r.2.1 = h ∧ r.2.2 = s) := by
  unfold reallocBuffer at hr
  split_ifs at hr with hn hc
  · simp only [Option.bind_eq_bind, Option.bind_eq_some, Option.pure_def, Option.some.injEq] at hr
    obtain ⟨_, _, _, _, rfl⟩ := hr
    exact Or.inl ⟨rfl, rfl⟩
  · cases hr
    exact Or.inr ⟨rfl, rfl, rfl⟩
  · simp only [Option.bind_eq_bind, Option.bind_eq_some, Option.pure_def, Option.some.injEq] at hr
    obtain ⟨_, _, rfl⟩ := hr
    exact Or.inl ⟨rfl, rfl⟩

theorem setSize_stream {a : Allocator} {h : Heap} {s : MemoryStream} {n : Nat}
    {r : Bool × Heap × MemoryStream} (hr : setSize a h s n = some r) :
    (r.2.1 = h ∧ r.2.2 = s) ∨
    (n < s.mnSize ∧ r.1 = true ∧ r.2.1 = h ∧
      r.2.2 = { s with mnSize := n,
                       mnPosition := if s.mnPosition > n then n else s.mnPosition }) ∨
    (s.mnSize < n ∧ r.1 = true ∧
      r.2.2 = { s with mpSharedPointer := r.2.2.mpSharedPointer, mnCapacity := n, mnSize := n }) := by
  unfold setSize at hr
  by_cases h1 : n ≠ s.mnSize
  · rw [if_pos h1] at hr
    by_cases h2 : s.mbResizeEnabled = true
    · rw [if_pos h2] at hr
      by_cases h3 : n < s.mnSize
      · rw [if_pos h3] at hr
        cases hr
        exact Or.inr (Or.inl ⟨h3, rfl, rfl, rfl⟩)
      · rw [if_neg h3] at hr
        simp only [Option.bind_eq_bind, Option.bind_eq_some] at hr
        obtain ⟨r1, hr1, hr⟩ := hr
        rcases reallocBuffer_stream hr1 with ⟨hok, hs1⟩ | ⟨hok, hh1, hs1⟩
        · simp only [hok, if_true, Option.pure_def, Option.some.injEq] at hr
          subst hr
          refine Or.inr (Or.inr ⟨by omega, rfl, ?_⟩)
          rw [hs1]
        · simp only [hok, Bool.false_eq_true, if_false, Option.pure_def, Option.some.injEq] at hr
          subst hr
          exact Or.inl ⟨hh1, hs1⟩
    · rw [if_neg h2] at hr
      cases hr
      exact Or.inl ⟨rfl, rfl⟩
  · rw [if_neg h1] at hr
    cases hr
    exact Or.inl ⟨rfl, rfl⟩

theorem setCapacity_stream {a : Allocator} {h : Heap} {s : MemoryStream} {n : Nat}
    {r : Bool × Heap × MemoryStream} (hr : setCapacity a h s n = some r) :
    (r.1 = false ∧ r.2.1 = h ∧ r.2.2 = s) ∨
    (s.mnCapacity < n ∧ r.1 = true ∧
      r.2.2 = { s with mpSharedPointer := r.2.2.mpSharedPointer, mnCapacity := n }) := by
  unfold setCapacity at hr
  by_cases h1 : n > s.mnCapacity
  · rw [if_pos h1] at hr
    rcases reallocBuffer_stream hr with ⟨hok, hs1⟩ | ⟨hok, hh1, hs1⟩
    · exact Or.inr ⟨h1, hok, hs1⟩
    · exact Or.inl ⟨hok, hh1, hs1⟩
  · rw [if_neg h1] at hr
    cases hr
    exact Or.inl ⟨rfl, rfl, rfl⟩

theorem setPosition_stream {w : Nat} {a : Allocator} {h : Heap} {s : MemoryStream} {off : Int}
    {origin : PositionType} {r : Bool × Heap × MemoryStream}
    (hr : setPosition w a h s off origin = some r) :
    (candidate w s off origin ≤ s.mnSize ∧
      r = (true, h, { s with mnPosition := candidate w s off origin })) ∨
    (s.mnSize < candidate w s off origin ∧ s.mbResizeEnabled = false ∧
      r = (false, h, { s with mnPosition := s.mnSize })) ∨
    (s.mnSize < candidate w s off origin ∧ s.mbResizeEnabled = true ∧
      (candidate w s off origin + 1) % 2 ^ w ≤ s.mnCapacity ∧
      r = (true, h, { s with mnPosition := candidate w s off origin })) ∨
    (s.mnSize < candidate w s off origin ∧ s.mbResizeEnabled = true ∧
      s.mnCapacity < (candidate w s off origin + 1) % 2 ^ w ∧ r.1 = true ∧
      r.2.2 = { s with mnPosition := candidate w s off origin,
                       mpSharedPointer := r.2.2.mpSharedPointer,
                       mnCapacity := (candidate w s off origin + 1) % 2 ^ w }) ∨
    (s.mnSize < candidate w s off origin ∧ s.mbResizeEnabled = true ∧ r.1 = false ∧ r.2.1 = h ∧
      r.2.2 = { s with mnPosition := toSize w (toOff w s.mnPosition) }) := by
  unfold setPosition at hr
  simp only at hr
  by_cases h1 : candidate w s off origin > s.mnSize
  · rw [if_pos h1] at hr
    by_cases h2 : s.mbResizeEnabled = true
    · rw [if_pos h2] at hr
      by_cases h3 : (candidate w s off origin + 1) % 2 ^ w > s.mnCapacity
      · rw [if_pos h3] at hr
        simp only [Option.bind_eq_bind, Option.bind_eq_some] at hr
        obtain ⟨r1, hr1, hr⟩ := hr
        rcases reallocBuffer_stream hr1 with ⟨hok, hs1⟩ | ⟨hok, hh1, hs1⟩
        · simp only [hok, if_true, Option.pure_def, Option.some.injEq] at hr
          subst hr
          refine Or.inr (Or.inr (Or.inr (Or.inl ⟨h1, h2, h3, rfl, ?_⟩)))
          simpa using hs1
        · simp only [hok, Bool.false_eq_true, if_false, Option.pure_def, Option.some.injEq] at hr
          subst hr
          refine Or.inr (Or.inr (Or.inr (Or.inr ⟨h1, h2, rfl, hh1, ?_⟩)))
          simp [hs1]
      · rw [if_neg h3] at hr
        cases hr
        exact Or.inr (Or.inr (Or.inl ⟨h1, h2, by omega, rfl⟩))
    · rw [if_neg h2] at hr
      cases hr
      exact Or.inr (Or.inl ⟨h1, by simpa using h2, rfl⟩)
  · rw [if_neg h1] at hr
    cases hr
    exact Or.inl ⟨by omega, rfl⟩

theorem read_stream {w : Nat} {h : Heap} {s : MemoryStream} {n : Nat}
    {r : Nat × List Byte × MemoryStream} (hr : read w h s n = some r) :
    r = (0, [], s) ∨
    (0 < r.1 ∧ r.1 ≤ n ∧ r.1 ≤ (s.mnSize + 2 ^ w - s.mnPosition) % 2 ^ w ∧
      r.2.2 = { s with mnPosition := (s.mnPosition + r.1) % 2 ^ w }) := by
  unfold read at hr
  by_cases h1 : n > 0
  · rw [if_pos h1] at hr
    simp only at hr
    by_cases h2 : (s.mnSize + 2 ^ w - s.mnPosition) % 2 ^ w > 0
    · rw [if_pos h2] at hr
      cases hp : s.mpSharedPointer with
      | none => simp [hp] at hr
      | some p =>
        simp only [hp, Option.bind_eq_bind, Option.bind_eq_some, Option.pure_def,
          Option.some.injEq] at hr
        obtain ⟨_, _, _, _, rfl⟩ := hr
        generalize (s.mnSize + 2 ^ w - s.mnPosition) % 2 ^ w = avail at h2 ⊢
        refine Or.inr ⟨?_, ?_, ?_, rfl⟩
        · show 0 < (if _ then _ else _)
          split_ifs <;> omega
        · show (if _ then _ else _) ≤ n
          split_ifs <;> omega
        · show (if _ then _ else _) ≤ _
          split_ifs <;> omega
    · rw [if_neg h2] at hr
      cases hr
      exact Or.inl rfl
  · rw [if_neg h1] at hr
    cases hr
    exact Or.inl rfl

theorem writeBytes_stream {w : Nat} {h : Heap} {s : MemoryStream} {pData : List Byte} {n k : Nat}
    {r : Bool × Heap × MemoryStream} (hr : writeBytes w h s pData n k = some r) :
    r.1 = decide (k = n) ∧ r.2.2 = { s with mnPosition := (s.mnPosition + k) % 2 ^ w } := by
  unfold writeBytes at hr
  cases hp : s.mpSharedPointer with
  | none => simp [hp] at hr
  | some p =>
    simp only [hp, Option.bind_eq_bind, Option.bind_eq_some, Option.pure_def,
      Option.some.injEq] at hr
    obtain ⟨_, _, _, _, rfl⟩ := hr
    exact ⟨rfl, rfl⟩

theorem write_stream {w : Nat} {a : Allocator} {h : Heap} {s : MemoryStream} {pData : List Byte}
    {n : Nat} {r : Bool × Heap × MemoryStream} (hr : write w a h s pData n = some r) :
    (n = 0 ∧ r = (true, h, s)) ∨
    (0 < n ∧ s.mnCapacity < (s.mnPosition + n) % 2 ^ w ∧ s.mbResizeEnabled = true ∧
      r = (false, h, s)) ∨
    (0 < n ∧ s.mnCapacity < (s.mnPosition + n) % 2 ^ w ∧ s.mbResizeEnabled = true ∧
      r.1 = true ∧ (s.mnPosition + n) % 2 ^ w ≤ r.2.2.mnCapacity ∧
      (∃ c, grownCapacity w s = some c ∧
        r.2.2.mnCapacity = if c < (s.mnPosition + n) % 2 ^ w then (s.mnPosition + n) % 2 ^ w else c) ∧
      r.2.2 = { s with mpSharedPointer := r.2.2.mpSharedPointer,
                       mnCapacity := r.2.2.mnCapacity,
                       mnSize := (s.mnPosition + n) % 2 ^ w,
                       mnPosition := (s.mnPosition + n) % 2 ^ w }) ∨
    (0 < n ∧ s.mnCapacity < (s.mnPosition + n) % 2 ^ w ∧ s.mbResizeEnabled = false ∧
      r.1 = decide ((s.mnSize + 2 ^ w - s.mnPosition) % 2 ^ w = n) ∧
      r.2.2 = { s with mnPosition :=
        (s.mnPosition + (s.mnSize + 2 ^ w - s.mnPosition) % 2 ^ w) % 2 ^ w }) ∨
    (0 < n ∧ (s.mnPosition + n) % 2 ^ w ≤ s.mnCapacity ∧ r.1 = true ∧
      r.2.2 = { s with mnSize := if s.mnSize < (s.mnPosition + n) % 2 ^ w
                                 then (s.mnPosition + n) % 2 ^ w else s.mnSize,
                       mnPosition := (s.mnPosition + n) % 2 ^ w }) := by
  unfold write at hr
  by_cases h1 : n > 0
  · rw [if_pos h1] at hr
    simp only at hr
    by_cases h2 : (s.mnPosition + n) % 2 ^ w > s.mnCapacity
    · rw [if_pos h2] at hr
      by_cases h3 : s.mbResizeEnabled = true
      · rw [if_pos h3] at hr
        simp only [Option.bind_eq_bind, Option.bind_eq_some] at hr
        obtain ⟨c, hc, r1, hr1, hr⟩ := hr
        rcases reallocBuffer_stream hr1 with ⟨hok, hs1⟩ | ⟨hok, hh1, hs1⟩
        · simp only [hok, if_true] at hr
          obtain ⟨hflag, hs2⟩ := writeBytes_stream hr
          refine Or.inr (Or.inr (Or.inl ⟨h1, h2, h3, ?_, ?_, ?_, ?_⟩))
          · simpa using hflag
          · rw [hs2]
            show _ ≤ r1.2.2.mnCapacity
            rw [hs1]
            show _ ≤ (if _ then _ else _)
            generalize (s.mnPosition + n) % 2 ^ w = req
            split_ifs <;> omega
          · refine ⟨c, hc, ?_⟩
            rw [hs2]
            show r1.2.2.mnCapacity = _
            rw [hs1]
          · rw [hs2]
            show _ = _
            rw [hs1]
        · simp only [hok, Bool.false_eq_true, if_false, Option.pure_def, Option.some.injEq] at hr
          subst hr
          refine Or.inr (Or.inl ⟨h1, h2, h3, ?_⟩)
          rw [← hh1, ← hs1]
      · rw [if_neg h3] at hr
        obtain ⟨hflag, hs2⟩ := writeBytes_stream hr
        exact Or.inr (Or.inr (Or.inr (Or.inl ⟨h1, h2, by simpa using h3, hflag, hs2⟩)))
    · rw [if_neg h2] at hr
      obtain ⟨hflag, hs2⟩ := writeBytes_stream hr
      refine Or.inr (Or.inr (Or.inr (Or.inr ⟨h1, by omega, by simpa using hflag, ?_⟩)))
      rw [hs2]
      split_ifs <;> rfl
  · rw [if_neg h1] at hr
    cases hr
    exact Or.inl ⟨by omega, rfl⟩

theorem setData_stream {a : Allocator} {h : Heap} {s : MemoryStream} {pData : Option Nat}
    {n : Nat} {u f : Bool} {r : Bool × Heap × MemoryStream}
    (hr : setData a h s pData n u f = some r) : ∃ p, r.2.2 = afterBind s p n := by
  unfold setData at hr
  by_cases h1 : pData.isSome ∨ n ≠ 0
  · rw [if_pos h1] at hr
    simp only at hr
    cases hq : (if u = true then (pData, h) else h.allocate a n).1 with
    | none =>
      rw [hq] at hr
      cases hr
      exact ⟨_, rfl⟩
    | some q =>
      rw [hq] at hr
      simp only [Option.bind_eq_bind, Option.bind_eq_some, Option.pure_def,
        Option.some.injEq] at hr
      obtain ⟨b, _, rfl⟩ := hr
      exact ⟨_, rfl⟩
  · rw [if_neg h1] at hr
    simp only [Option.bind_eq_bind, Option.bind_eq_some, Option.pure_def,
      Option.some.injEq] at hr
    obtain ⟨_, _, rfl⟩ := hr
    exact ⟨_, rfl⟩

theorem setDataShared_stream {h : Heap} {s : MemoryStream} {p : Option Nat} {n : Nat}
    {r : Bool × Heap × MemoryStream} (hr : setDataShared h s p n = some r) :
    r.1 = p.isSome ∧ r.2.2 = afterBind s p n := by
  unfold setDataShared at hr
  by_cases h1 : s.mpSharedPointer ≠ p
  · rw [if_pos h1] at hr
    simp only [Option.bind_eq_bind, Option.bind_eq_some, Option.pure_def,
      Option.some.injEq] at hr
    obtain ⟨_, _, rfl⟩ := hr
    exact ⟨rfl, rfl⟩
  · rw [if_neg h1] at hr
    simp only [Option.bind_eq_bind, Option.bind_eq_some, Option.pure_def,
      Option.some.injEq] at hr
    obtain ⟨_, _, rfl⟩ := hr
    exact ⟨rfl, rfl⟩

theorem setOption_stream {s t : MemoryStream} {o : Options} {v : ℚ}
    (hr : setOption s o v = some t) :
    t.mpSharedPointer = s.mpSharedPointer ∧ t.mnSize = s.mnSize ∧
    t.mnCapacity = s.mnCapacity ∧ t.mnPosition = s.mnPosition := by
  unfold setOption at hr
  cases o <;>
    simp only [Option.some.injEq, Option.map_eq_some'] at hr
  · subst hr; simp
  · subst hr; simp
  · subst hr; simp
  · obtain ⟨_, _, rfl⟩ := hr; simp
  · obtain ⟨_, _, rfl⟩ := hr; simp

theorem copy_stream {h h1 : Heap} {s t : MemoryStream} (hr : copy h s = some (h1, t)) :
    t = { s with mnCapacity := s.mnSize, mnResizeMax := none } := by
  unfold copy at hr
  simp only [Option.bind_eq_bind, Option.bind_eq_some, Option.pure_def, Option.some.injEq,
    Prod.mk.injEq] at hr
  obtain ⟨_, _, _, rfl⟩ := hr
  rfl

end MemoryStream

/-! ## Machine arithmetic -/

theorem avail_le (M p sz : Nat) (hp : p ≤ sz) : (sz + M - p) % M ≤ sz - p := by
  have h1 : sz + M - p = (sz - p) + M := by omega
  rw [h1, Nat.add_mod_right]
  exact Nat.mod_le _ _

theorem toSize_natCast (w x : Nat) : toSize w (x : Int) = x % 2 ^ w := by
  unfold toSize
  have : ((x : Int) % (2 ^ w : Int)) = ((x % 2 ^ w : Nat) : Int) := by
    push_cast
    rfl
  rw [this]
  exact Int.toNat_natCast _

theorem toSize_toOff (w x : Nat) : toSize w (toOff w x) = x % 2 ^ w := by
  unfold toOff
  split_ifs with h
  · rw [toSize_natCast, Nat.mod_mod]
  · unfold toSize
    have h2 : (((x % 2 ^ w : Nat) : Int) - 2 ^ w) % (2 ^ w : Int) = ((x % 2 ^ w : Nat) : Int) := by
      rw [Int.sub_emod, Int.emod_self, sub_zero, Int.emod_emod]
      apply Int.emod_eq_of_lt
      · exact Int.natCast_nonneg _
      · have := Nat.mod_lt x (Nat.two_pow_pos w)
        exact_mod_cast this
    rw [h2]
    exact Int.toNat_natCast _

theorem toSize_lt (w : Nat) (x : Int) : toSize w x < 2 ^ w := by
  unfold toSize
  have hpos : (0 : Int) < 2 ^ w := by positivity
  have h1 := Int.emod_lt_of_pos x hpos
  have h2 := Int.emod_nonneg x (ne_of_gt hpos)
  have : ((x % 2 ^ w).toNat : Int) < ((2 ^ w : Nat) : Int) := by
    rw [Int.toNat_of_nonneg h2]
    exact_mod_cast h1
  exact_mod_cast this


theorem toSize_of_range (w : Nat) (x : Int) (h0 : 0 ≤ x) (h1 : x < 2 ^ w) :
    (toSize w x : Int) = x := by
  unfold toSize
  rw [Int.emod_eq_of_lt h0 h1]
  exact Int.toNat_of_nonneg h0

theorem toSize_int_cast (w : Nat) (x : Int) : (toSize w x : Int) = x % 2 ^ w := by
  unfold toSize
  have hpos : (0 : Int) < 2 ^ w := by positivity
  exact Int.toNat_of_nonneg (Int.emod_nonneg x (ne_of_gt hpos))

theorem add_toSize_mod (w p : Nat) (x : Int) (h0 : 0 ≤ (p : Int) + x) (h1 : (p : Int) + x < 2 ^ w) :
    (((p + toSize w x) % 2 ^ w : Nat) : Int) = (p : Int) + x := by
  push_cast
  rw [toSize_int_cast, Int.add_emod, Int.emod_emod, ← Int.add_emod]
  exact Int.emod_eq_of_lt h0 h1

theorem emod_of_neg (x M : Int) (h0 : -M ≤ x) (h1 : x < 0) : x % M = x + M := by
  have h2 : (x + M) % M = x % M := Int.add_emod_self
  rw [← h2]
  exact Int.emod_eq_of_lt (by omega) (by omega)

theorem toSize_of_neg (w : Nat) (x : Int) (h0 : -(2 ^ w : Int) ≤ x) (h1 : x < 0) :
    (toSize w x : Int) = x + 2 ^ w := by
  rw [toSize_int_cast]
  exact emod_of_neg x _ h0 h1

theorem add_toSize_mod_neg (w p : Nat) (x : Int) (h0 : -(2 ^ w : Int) ≤ (p : Int) + x)
    (h1 : (p : Int) + x < 0) :
    (((p + toSize w x) % 2 ^ w : Nat) : Int) = (p : Int) + x + 2 ^ w := by
  push_cast
  rw [toSize_int_cast, Int.add_emod, Int.emod_emod, ← Int.add_emod]
  exact emod_of_neg _ _ h0 h1

/-! ## Binary32 rounding -/

theorem pow2_pos (e : Int) : 0 < pow2 e := by
  unfold pow2
  positivity

theorem roundHalfEven_error (y : ℚ) : |(roundHalfEven y : ℚ) - y| ≤ 1 / 2 := by
  have h1 : ((Rat.floor y : Int) : ℚ) ≤ y := Rat.le_floor.mp (le_refl _)
  have h2 : y < ((Rat.floor y : Int) : ℚ) + 1 := by
    by_contra hcon
    have h3 : Rat.floor y + 1 ≤ Rat.floor y := Rat.le_floor.mpr (by push_cast; linarith)
    omega
  unfold roundHalfEven
  rw [abs_le]
  split_ifs with c1 c2 c3
  · constructor <;> linarith
  · push_cast
    constructor <;> linarith
  · constructor <;> linarith
  · push_cast
    constructor <;> linarith

/-- The value `roundFloat` returns is a multiple of the spacing around `x` and lies
within half that spacing of `x`. -/
theorem roundFloat_error {x r : ℚ} (hr : roundFloat x = some r) :
    (∃ m : Int, r = (m : ℚ) * floatQuantum x) ∧ |r - x| ≤ floatQuantum x / 2 := by
  have hq : 0 < floatQuantum x := pow2_pos _
  unfold roundFloat at hr
  by_cases h0 : x = 0
  · rw [if_pos h0] at hr
    cases hr
    subst h0
    refine ⟨⟨0, by simp⟩, ?_⟩
    simp only [sub_self, abs_zero]
    positivity
  · rw [if_neg h0] at hr
    split_ifs at hr with h1
    cases hr
    refine ⟨⟨_, rfl⟩, ?_⟩
    have he := roundHalfEven_error (x / floatQuantum x)
    have hx : x = x / floatQuantum x * floatQuantum x := by field_simp
    have h2 : (roundHalfEven (x / floatQuantum x) : ℚ) * floatQuantum x - x
        = ((roundHalfEven (x / floatQuantum x) : ℚ) - x / floatQuantum x) * floatQuantum x := by
      rw [sub_mul, ← hx]
    rw [h2, abs_mul, abs_of_pos hq]
    calc |(roundHalfEven (x / floatQuantum x) : ℚ) - x / floatQuantum x| * floatQuantum x
        ≤ 1 / 2 * floatQuantum x := mul_le_mul_of_nonneg_right he (le_of_lt hq)
      _ = floatQuantum x / 2 := by ring

/-- Sample roundings: `1.3` and `0.1` round to the nearest binary32 number, `2^24 + 1`
and `2^24 + 3` are ties and round to the even neighbour, the smallest subnormal spacing
is `2^(-149)`, and `2^128 - 2^103` is the first value that rounds to infinity. -/
theorem roundFloat_samples :
    roundFloat (13 / 10) = some floatOnePointThree ∧
    roundFloat floatOnePointThree = some floatOnePointThree ∧
    roundFloat (1 / 10) = some (13421773 / 134217728) ∧
    roundFloat 16777217 = some 16777216 ∧
    roundFloat 16777219 = some 16777220 ∧
    roundFloat (-16777219) = some (-16777220) ∧
    roundFloat (3 / 2) = some (3 / 2) ∧
    roundFloat (pow2 (-149) * (3 / 2)) = some (pow2 (-149) * 2) ∧
    roundFloat (pow2 (-149) / 2) = some 0 ∧
    roundFloat (2 ^ 128 - 2 ^ 103 - 1) = some (2 ^ 128 - 2 ^ 104) ∧
    roundFloat (2 ^ 128 - 2 ^ 103) = none := by
  refine ⟨?_, ?_, ?_, ?_, ?_, ?_, ?_, ?_, ?_, ?_, ?_⟩ <;> decide!

/-- Sample growth requests of line 499: `10 * 1.3f` is 13 in binary32, and with the
default factor 1.5 the capacities `2^24 - 3` and `2^25 + 1` give 25165820 and 50331648,
where exact arithmetic would give 12, 25165819 and 50331649. -/
theorem grownCapacity_samples :
    MemoryStream.grownCapacity 64 streamTenSlow = some 13 ∧
    MemoryStream.grownCapacity 64 { streamTen with mnCapacity := 16777213 } = some 25165820 ∧
    MemoryStream.grownCapacity 64 { streamTen with mnCapacity := 33554433 } = some 50331648 ∧
    truncate (MemoryStream.specGrowth streamTenSlow) = 12 ∧
    truncate (MemoryStream.specGrowth { streamTen with mnCapacity := 16777213 }) = 25165819 ∧
    truncate (MemoryStream.specGrowth { streamTen with mnCapacity := 33554433 }) = 50331649 := by
  refine ⟨?_, ?_, ?_, ?_, ?_, ?_⟩ <;> decide!
/-! ## Heap primitives -/

namespace Heap

theorem block_setObject (h : Heap) (p q : Nat) (v : Option SharedPointer) :
    (h.setObject p v).block q = h.block q := rfl

theorem object_setBlock (h : Heap) (p q : Nat) (v : Option (List Byte)) :
    (h.setBlock p v).object q = h.object q := rfl

theorem block_lt {h : Heap} {q : Nat} {d : List Byte} (hd : h.block q = some d) :
    q < h.blocks.length := lt_of_getD_eq_some _ _ _ hd

theorem object_lt {h : Heap} {p : Nat} {sp : SharedPointer} (ho : h.object p = some sp) :
    p < h.objects.length := lt_of_getD_eq_some _ _ _ ho

theorem block_setBlock_self {h : Heap} {q : Nat} (v : Option (List Byte))
    (hq : q < h.blocks.length) : (h.setBlock q v).block q = v :=
  getD_set_self _ _ _ hq

theorem block_setBlock_of_ne (h : Heap) {p q : Nat} (v : Option (List Byte)) (hne : p ≠ q) :
    (h.setBlock q v).block p = h.block p :=
  getD_set_of_ne _ _ _ _ hne

theorem object_setObject_self {h : Heap} {p : Nat} (v : Option SharedPointer)
    (hp : p < h.objects.length) : (h.setObject p v).object p = v :=
  getD_set_self _ _ _ hp

theorem object_setObject_of_ne (h : Heap) {p q : Nat} (v : Option SharedPointer) (hne : p ≠ q) :
    (h.setObject q v).object p = h.object p :=
  getD_set_of_ne _ _ _ _ hne

theorem blocks_length_setBlock (h : Heap) (q : Nat) (v : Option (List Byte)) :
    (h.setBlock q v).blocks.length = h.blocks.length := by
  simp [setBlock]

theorem objects_length_setObject (h : Heap) (p : Nat) (v : Option SharedPointer) :
    (h.setObject p v).objects.length = h.objects.length := by
  simp [setObject]

/-- A slot written by `setBlock` holds the new value, or the heap is unchanged. -/
theorem block_setBlock_cases (h : Heap) (p q : Nat) (v : Option (List Byte)) :
    (h.setBlock q v).block p = v ∨ (h.setBlock q v).block p = h.block p := by
  by_cases hne : p = q
  · subst hne
    by_cases hlt : p < h.blocks.length
    · exact Or.inl (block_setBlock_self v hlt)
    · right
      simp [setBlock, block, List.set_eq_of_length_le (Nat.le_of_not_lt hlt)]
  · exact Or.inr (block_setBlock_of_ne h v hne)

theorem fits_setObject {w : Nat} {h : Heap} (hf : h.Fits w) (p : Nat)
    (v : Option SharedPointer) : (h.setObject p v).Fits w := hf

theorem fits_setBlock_none {w : Nat} {h : Heap} (hf : h.Fits w) (q : Nat) :
    (h.setBlock q none).Fits w := by
  intro p d hd
  rcases block_setBlock_cases h p q none with h1 | h1
  · rw [h1] at hd; cases hd
  · rw [h1] at hd; exact hf p d hd

theorem fits_setBlock_some {w : Nat} {h : Heap} (hf : h.Fits w) (q : Nat) (c : List Byte)
    (hc : c.length < 2 ^ w) : (h.setBlock q (some c)).Fits w := by
  intro p d hd
  rcases block_setBlock_cases h p q (some c) with h1 | h1
  · rw [h1] at hd; cases hd; exact hc
  · rw [h1] at hd; exact hf p d hd

theorem fits_deallocate {w : Nat} {h h1 : Heap} {p : Option Nat} (hf : h.Fits w)
    (hd : h.deallocate p = some h1) : h1.Fits w := by
  unfold deallocate at hd
  cases p with
  | none => cases hd; exact hf
  | some q =>
    simp only at hd
    cases hb : h.block q with
    | none => simp [hb] at hd
    | some d =>
      simp only [hb, Option.some.injEq] at hd
      subst hd
      exact fits_setBlock_none hf q

theorem fits_allocate {w : Nat} {h : Heap} (hf : h.Fits w) (a : Allocator) (n : Nat)
    (hn : n < 2 ^ w) : (h.allocate a n).2.Fits w := by
  unfold allocate
  split_ifs with hc
  · intro p d hd
    by_cases hp : p < h.blocks.length
    · have : ({ h with blocks := h.blocks ++ [some ((List.range n).map a.garbage)] } : Heap).block p
          = h.block p := getD_append_of_lt _ _ _ hp
      rw [this] at hd
      exact hf p d hd
    · by_cases hp2 : p = h.blocks.length
      · subst hp2
        have : ({ h with blocks := h.blocks ++ [some ((List.range n).map a.garbage)] } : Heap).block
            h.blocks.length = some ((List.range n).map a.garbage) := getD_append_last _ _
        rw [this] at hd
        cases hd
        simpa using hn
      · have hlt := block_lt hd
        simp at hlt
        omega
  · exact hf

theorem fits_newObject {w : Nat} {h : Heap} (hf : h.Fits w) (sp : SharedPointer) :
    (h.newObject sp).2.Fits w := hf

theorem length_splice (d src : List Byte) (off n : Nat) (h1 : off + n ≤ d.length)
    (h2 : n ≤ src.length) : (d.take off ++ src.take n ++ d.drop (off + n)).length = d.length := by
  simp only [List.length_append, List.length_take, List.length_drop]
  omega

theorem fits_memcpyIn {w : Nat} {h h1 : Heap} {dst : Option Nat} {off n : Nat} {src : List Byte}
    (hf : h.Fits w) (hm : h.memcpyIn dst off src n = some h1) : h1.Fits w := by
  unfold memcpyIn at hm
  by_cases hn : n = 0
  · rw [if_pos hn] at hm; cases hm; exact hf
  · rw [if_neg hn] at hm
    cases dst with
    | none => simp at hm
    | some q =>
      simp only at hm
      cases hb : h.block q with
      | none => simp [hb] at hm
      | some d =>
        simp only [hb] at hm
        by_cases hc : off + n ≤ d.length ∧ n ≤ src.length
        · rw [if_pos hc] at hm
          cases hm
          apply fits_setBlock_some hf
          rw [length_splice d src off n hc.1 hc.2]
          exact hf q d hb
        · rw [if_neg hc] at hm
          cases hm

theorem fits_memcpyBlock {w : Nat} {h h1 : Heap} {dst src : Option Nat} {n : Nat}
    (hf : h.Fits w) (hm : h.memcpyBlock dst src n = some h1) : h1.Fits w := by
  unfold memcpyBlock at hm
  cases ho : h.memcpyOut src 0 n with
  | none => simp [ho] at hm
  | some bytes =>
    simp only [ho] at hm
    exact fits_memcpyIn hf hm

end Heap

namespace SharedPointer

theorem fits_addRef {w : Nat} {h : Heap} {p : Nat} {r : Int × Heap} (hf : h.Fits w)
    (ha : addRef h p = some r) : r.2.Fits w := by
  unfold addRef at ha
  cases ho : h.object p with
  | none => simp [ho] at ha
  | some sp =>
    simp only [ho, Option.some.injEq] at ha
    subst ha
    exact hf

theorem fits_release {w : Nat} {h : Heap} {p : Nat} {r : Int × Heap} (hf : h.Fits w)
    (hr : release h p = some r) : r.2.Fits w := by
  unfold release at hr
  cases ho : h.object p with
  | none => simp [ho] at hr
  | some sp =>
    simp only [ho] at hr
    by_cases hc : sp.mnRefCount > 1
    · rw [if_pos hc] at hr
      cases hr
      exact hf
    · rw [if_neg hc] at hr
      cases hfree : sp.mbFreeData with
      | false =>
        simp only [hfree, Bool.false_eq_true, if_false, Option.some.injEq] at hr
        subst hr
        exact hf
      | true =>
        simp only [hfree, if_true] at hr
        cases hd : h.deallocate sp.mpData with
        | none => simp [hd] at hr
        | some h1 =>
          simp only [hd, Option.some.injEq] at hr
          subst hr
          exact Heap.fits_setObject (Heap.fits_deallocate hf hd) p none

end SharedPointer

namespace MemoryStream

theorem buffer_eq_of_bound {h : Heap} {s : MemoryStream} {p q : Nat} {sp : SharedPointer}
    {d : List Byte} (hp : s.mpSharedPointer = some p) (ho : h.object p = some sp)
    (hq : sp.mpData = some q) (hd : h.block q = some d) : buffer h s = d := by
  simp [buffer, hp, ho, hq, hd]

end MemoryStream

/-! ## `reallocBuffer` and `writeBytes` on the heap -/

theorem take_drop_splice (d b rest : List Byte) (off : Nat) (hoff : off ≤ d.length) :
    ((d.take off ++ b ++ rest).drop off).take b.length = b := by
  have hlen : (d.take off).length = off := by simp [List.length_take, hoff]
  rw [List.append_assoc, List.drop_left' hlen, List.take_left' rfl]

namespace MemoryStream

theorem grownCapacity_spec {w : Nat} {s : MemoryStream} {c : Nat}
    (hc : grownCapacity w s = some c) :
    ∃ f1 f2 f3 f4 : ℚ, intToFloat (s.mnCapacity : Int) = some f1 ∧
      floatMul f1 s.mfResizeFactor = some f2 ∧ intToFloat s.mnResizeIncrement = some f3 ∧
      floatAdd f2 f3 = some f4 ∧ floatToSize w f4 = some c := by
  unfold grownCapacity at hc
  simp only [Option.bind_eq_bind, Option.bind_eq_some] at hc
  obtain ⟨f1, h1, f2, h2, f3, h3, f4, h4, h5⟩ := hc
  exact ⟨f1, f2, f3, f4, h1, h2, h3, h4, h5⟩

theorem floatToSize_spec {w : Nat} {x : ℚ} {c : Nat} (hc : floatToSize w x = some c) :
    0 ≤ truncate x ∧ (c : Int) = truncate x ∧ c < 2 ^ w := by
  unfold floatToSize at hc
  split_ifs at hc with hr
  cases hc
  have h1 : (((truncate x).toNat : Nat) : Int) < ((2 ^ w : Nat) : Int) := by
    rw [Int.toNat_of_nonneg hr.1]
    exact_mod_cast hr.2
  exact ⟨hr.1, Int.toNat_of_nonneg hr.1, by exact_mod_cast h1⟩

theorem grownCapacity_lt {w : Nat} {s : MemoryStream} {c : Nat}
    (hc : grownCapacity w s = some c) : c < 2 ^ w := by
  obtain ⟨f1, f2, f3, f4, -, -, -, -, h5⟩ := grownCapacity_spec hc
  exact (floatToSize_spec h5).2.2

theorem fits_moveOld {w : Nat} {h h1 : Heap} {s : MemoryStream} {pNew : Option Nat} {n : Nat}
    (hf : h.Fits w) (hm : moveOld h s pNew n = some h1) : h1.Fits w := by
  unfold moveOld at hm
  cases hp : s.mpSharedPointer with
  | none =>
    simp only [hp, Option.some.injEq] at hm
    subst hm
    exact hf
  | some old =>
    cases pNew with
    | none =>
      simp only [hp, Option.bind_eq_bind, Option.bind_eq_some, Option.pure_def,
        Option.some.injEq] at hm
      obtain ⟨h4, rfl, r, hr, rfl⟩ := hm
      exact SharedPointer.fits_release hf hr
    | some p =>
      simp only [hp, Option.bind_eq_bind, Option.bind_eq_some, Option.pure_def,
        Option.some.injEq] at hm
      obtain ⟨dst, -, src, -, h4, hcopy, r, hr, rfl⟩ := hm
      exact SharedPointer.fits_release (Heap.fits_memcpyBlock hf hcopy) hr

theorem fits_reallocBuffer {w : Nat} {a : Allocator} {h : Heap} {s : MemoryStream} {n : Nat}
    {r : Bool × Heap × MemoryStream} (hf : h.Fits w) (hn : n < 2 ^ w)
    (hr : reallocBuffer a h s n = some r) : r.2.1.Fits w := by
  unfold reallocBuffer at hr
  by_cases h0 : n ≠ 0
  · rw [if_pos h0] at hr
    by_cases hc : a.canNew = true
    · rw [if_pos hc] at hr
      simp only [Option.bind_eq_bind, Option.bind_eq_some, Option.pure_def,
        Option.some.injEq] at hr
      obtain ⟨h3, hadd, h5, hmove, rfl⟩ := hr
      refine fits_moveOld (SharedPointer.fits_addRef ?_ hadd) hmove
      exact Heap.fits_newObject (Heap.fits_allocate hf a n hn) _
    · rw [if_neg hc] at hr
      cases hr
      exact hf
  · rw [if_neg h0] at hr
    simp only [Option.bind_eq_bind, Option.bind_eq_some, Option.pure_def,
      Option.some.injEq] at hr
    obtain ⟨h5, hmove, rfl⟩ := hr
    exact fits_moveOld hf hmove

/-- A successful `writeBytes` of `k > 0` bytes wrote into a live block behind the bound
`SharedPointer`, inside the block's bounds. -/
theorem writeBytes_inv {w : Nat} {h : Heap} {s : MemoryStream} {pData : List Byte} {n k : Nat}
    {r : Bool × Heap × MemoryStream} (hr : writeBytes w h s pData n k = some r) (hk : k ≠ 0) :
    ∃ p sp q d, s.mpSharedPointer = some p ∧ h.object p = some sp ∧ sp.mpData = some q ∧
      h.block q = some d ∧ s.mnPosition + k ≤ d.length ∧ k ≤ pData.length ∧
      r = (decide (k = n),
           h.setBlock q (some (d.take s.mnPosition ++ pData.take k ++ d.drop (s.mnPosition + k))),
           { s with mnPosition := (s.mnPosition + k) % 2 ^ w }) := by
  unfold writeBytes at hr
  cases hp : s.mpSharedPointer with
  | none => simp [hp] at hr
  | some p =>
    simp only [hp, Option.bind_eq_bind, Option.bind_eq_some, Option.pure_def,
      Option.some.injEq] at hr
    obtain ⟨dst, hdst, h1, hcopy, rfl⟩ := hr
    unfold SharedPointer.getPointer at hdst
    cases ho : h.object p with
    | none => simp [ho] at hdst
    | some sp =>
      simp only [ho, Option.some.injEq] at hdst
      subst hdst
      unfold Heap.memcpyIn at hcopy
      rw [if_neg hk] at hcopy
      cases hq : sp.mpData with
      | none => simp [hq] at hcopy
      | some q =>
        simp only [hq] at hcopy
        cases hb : h.block q with
        | none => simp [hb] at hcopy
        | some d =>
          simp only [hb] at hcopy
          by_cases hc : s.mnPosition + k ≤ d.length ∧ k ≤ pData.length
          · rw [if_pos hc] at hcopy
            cases hcopy
            exact ⟨p, sp, q, d, rfl, ho, hq, hb, hc.1, hc.2, rfl⟩
          · rw [if_neg hc] at hcopy
            cases hcopy

/-- The bytes stored by a full `writeBytes` are read back after seeking to the position
where they were written. -/
theorem read_after_writeBytes {w : Nat} {h : Heap} {s : MemoryStream} {b : List Byte} {n : Nat}
    {r : Bool × Heap × MemoryStream} (a : Allocator)
    (hr : writeBytes w h s b n n = some r) (hn : n ≠ 0) (hb : b.length = n)
    (hsz : s.mnPosition + n ≤ s.mnSize) (hM : s.mnSize < 2 ^ w) :
    r.1 = true ∧
    setPosition w a r.2.1 r.2.2 (toOff w s.mnPosition) .kPositionTypeBegin =
      some (true, r.2.1, { r.2.2 with mnPosition := s.mnPosition }) ∧
    read w r.2.1 { r.2.2 with mnPosition := s.mnPosition } n = some (n, b, r.2.2) := by
  obtain ⟨p, sp, q, d, hp, ho, hq, hd, hlen, hsrc, rfl⟩ := writeBytes_inv hr hn
  have hpos : s.mnPosition % 2 ^ w = s.mnPosition := Nat.mod_eq_of_lt (by omega)
  have hend : (s.mnPosition + n) % 2 ^ w = s.mnPosition + n := Nat.mod_eq_of_lt (by omega)
  refine ⟨by simp, ?_, ?_⟩
  · unfold setPosition
    simp only [candidate, toSize_toOff, hpos]
    rw [if_neg (by omega)]
  · have havail : (s.mnSize + 2 ^ w - s.mnPosition) % 2 ^ w = s.mnSize - s.mnPosition := by
      have h1 : s.mnSize + 2 ^ w - s.mnPosition = (s.mnSize - s.mnPosition) + 2 ^ w := by omega
      rw [h1, Nat.add_mod_right]
      exact Nat.mod_eq_of_lt (by omega)
    have hnew := Heap.block_setBlock_self (h := h)
      (some (d.take s.mnPosition ++ b.take n ++ d.drop (s.mnPosition + n))) (Heap.block_lt hd)
    have hsplice := Heap.length_splice d b s.mnPosition n hlen hsrc
    have htake : b.take n = b := by rw [← hb]; exact List.take_length b
    have hback : ((d.take s.mnPosition ++ b.take n ++ d.drop (s.mnPosition + n)).drop
        s.mnPosition).take n = b := by
      rw [htake]
      have := take_drop_splice d b (d.drop (s.mnPosition + n)) s.mnPosition (by omega)
      rw [hb] at this
      exact this
    unfold read
    rw [if_pos (by omega)]
    simp only
    rw [havail, if_pos (by omega), if_neg (by omega)]
    simp only [hp, SharedPointer.getPointer, Heap.object_setBlock, ho, hq, Heap.memcpyOut, hn,
      hnew, hsplice, hlen, hback, hend, Option.bind_eq_bind, Option.some_bind, Option.pure_def,
      if_true, if_false]

end MemoryStream

/-! ## Frame lemmas: what `memcpy`, `release` and `reallocBuffer` leave untouched -/

namespace Heap

theorem memcpyBlock_spec {h : Heap} {dst src : Nat} {d g : List Byte} (m : Nat)
    (hsrc : h.block src = some d) (hdst : h.block dst = some g)
    (hmd : m ≤ d.length) (hmg : m ≤ g.length) :
    ∃ h1, h.memcpyBlock (some dst) (some src) m = some h1 ∧
      h1.block dst = some (d.take m ++ g.drop m) ∧
      (∀ x, x ≠ dst → h1.block x = h.block x) ∧ (∀ x, h1.object x = h.object x) := by
  unfold memcpyBlock memcpyOut memcpyIn
  by_cases hm : m = 0
  · subst hm
    refine ⟨h, by simp, by simpa using hdst, fun _ _ => rfl, fun _ => rfl⟩
  · have hlen : m ≤ (List.take m (List.drop 0 d)).length := by
      simp [List.length_take]
      omega
    simp only [hm, hsrc, hdst, hmd, hmg, hlen, Nat.zero_add, if_true, if_false, and_self]
    refine ⟨_, rfl, ?_, ?_, fun _ => rfl⟩
    · rw [block_setBlock_self _ (block_lt hdst)]
      simp
    · intro x hx
      exact block_setBlock_of_ne h _ hx

end Heap

namespace SharedPointer

theorem release_spec {h : Heap} {p q : Nat} {sp : SharedPointer} {d : List Byte}
    (ho : h.object p = some sp) (hq : sp.mpData = some q) (hd : h.block q = some d) :
    ∃ r, release h p = some r ∧
      (∀ x, x ≠ p → r.2.object x = h.object x) ∧ (∀ x, x ≠ q → r.2.block x = h.block x) := by
  unfold release
  simp only [ho]
  by_cases hc : sp.mnRefCount > 1
  · rw [if_pos hc]
    exact ⟨_, rfl, fun x hx => Heap.object_setObject_of_ne h _ hx, fun _ _ => rfl⟩
  · rw [if_neg hc]
    cases hfree : sp.mbFreeData with
    | false =>
      simp only [Bool.false_eq_true, if_false]
      exact ⟨_, rfl, fun x hx => Heap.object_setObject_of_ne h _ hx, fun _ _ => rfl⟩
    | true =>
      simp only [if_true, Heap.deallocate, hq, hd]
      refine ⟨_, rfl, fun x hx => ?_, fun x hx => ?_⟩
      · exact Heap.object_setObject_of_ne _ _ hx
      · exact Heap.block_setBlock_of_ne h _ hx

end SharedPointer

namespace MemoryStream

/-- The block of `n` indeterminate bytes handed out by the allocator. -/
theorem length_fresh (a : Allocator) (n : Nat) : ((List.range n).map a.garbage).length = n := by
  simp

/-- Forward behaviour of `reallocBuffer` for a non-zero size when both allocations
succeed: the stream is bound to a new owning `SharedPointer` with count 1 whose block
has `nSize` bytes and starts with the first `min nSize capacity` bytes of the old
buffer. -/
theorem reallocBuffer_grows {a : Allocator} {h : Heap} {s : MemoryStream} {n : Nat}
    (hwf : WellFormed h s) (hn : n ≠ 0) (hnew : a.canNew = true)
    (halloc : a.canAllocate n = true) :
    ∃ h1, reallocBuffer a h s n =
        some (true, h1, { s with mpSharedPointer := some h.objects.length, mnCapacity := n }) ∧
      h1.object h.objects.length
        = some { mpData := some h.blocks.length, mnRefCount := 1, mbFreeData := true } ∧
      h1.block h.blocks.length
        = some ((buffer h s).take (min n s.mnCapacity) ++
                ((List.range n).map a.garbage).drop (min n s.mnCapacity)) := by
  obtain ⟨-, hbound⟩ := hwf
  unfold reallocBuffer
  rw [if_pos hn, if_pos hnew]
  simp only [Heap.allocate, halloc, if_true, Heap.newObject]
  -- the heap after allocation, construction and `addRef`
  obtain ⟨hc, hobj, hcO, hcL, hcobj, hcblk⟩ : ∃ hc : Heap,
      SharedPointer.addRef
        { blocks := h.blocks ++ [some ((List.range n).map a.garbage)],
          objects := h.objects ++ [some { mpData := some h.blocks.length, mnRefCount := 0,
                                          mbFreeData := true }] } h.objects.length
        = some (1, hc) ∧
      hc.object h.objects.length
        = some { mpData := some h.blocks.length, mnRefCount := 1, mbFreeData := true } ∧
      hc.block h.blocks.length = some ((List.range n).map a.garbage) ∧
      (∀ x, x < h.objects.length → hc.object x = h.object x) ∧
      (∀ x, x < h.blocks.length → hc.block x = h.block x) := by
    refine ⟨{ blocks := h.blocks ++ [some ((List.range n).map a.garbage)],
              objects := h.objects ++ [some { mpData := some h.blocks.length, mnRefCount := 1,
                                              mbFreeData := true }] }, ?_, ?_, ?_, ?_, ?_⟩
    · simp [SharedPointer.addRef, Heap.object, Heap.setObject, List.getD_eq_getElem?_getD]
    · exact getD_append_last _ _
    · exact getD_append_last _ _
    · intro x hx
      exact getD_append_of_lt _ _ _ hx
    · intro x hx
      exact getD_append_of_lt _ _ _ hx
  rw [hobj]
  simp only [Option.bind_eq_bind, Option.some_bind, Option.pure_def]
  unfold moveOld
  cases hp : s.mpSharedPointer with
  | none =>
    rw [hp] at hbound
    simp only at hbound
    refine ⟨hc, by simp, hcO, ?_⟩
    simp [buffer, hp, hbound, hcL]
  | some old =>
    rw [hp] at hbound
    obtain ⟨sp, q, d, ho, hq, hd, hlen⟩ := hbound
    have hold : old < h.objects.length := Heap.object_lt ho
    have hql : q < h.blocks.length := Heap.block_lt hd
    have hmd : min n s.mnCapacity ≤ d.length := by omega
    have hmg : min n s.mnCapacity ≤ ((List.range n).map a.garbage).length := by
      rw [length_fresh]; omega
    obtain ⟨h4, hcopy, h4L, h4blk, h4obj⟩ :=
      Heap.memcpyBlock_spec (min n s.mnCapacity) ((hcblk q hql).trans hd) hcL hmd hmg
    have h4old : h4.object old = some sp := by rw [h4obj, hcobj old hold, ho]
    have h4q : h4.block q = some d := by
      rw [h4blk q (by omega), hcblk q hql, hd]
    obtain ⟨r, hrel, robj, rblk⟩ := SharedPointer.release_spec h4old hq h4q
    simp only [SharedPointer.getPointer, hcO, hcobj old hold, ho, hq, Option.bind_eq_bind,
      Option.some_bind, hcopy, hrel, Option.pure_def]
    refine ⟨r.2, rfl, ?_, ?_⟩
    · rw [robj _ (by omega), h4obj, hcO]
    · rw [rblk _ (by omega), h4L, buffer_eq_of_bound hp ho hq hd]

end MemoryStream

/-! ## Forward behaviour of `writeBytes` and of a growing `write` -/

theorem truncate_le_of_nonneg (x : ℚ) (h0 : 0 ≤ x) : ((truncate x : Int) : ℚ) ≤ x := by
  unfold truncate
  rw [if_pos h0]
  exact Rat.le_floor.mp (le_refl _)

theorem le_truncate_of_le (x : ℚ) (z : Int) (h0 : 0 ≤ x) (hz : (z : ℚ) ≤ x) : z ≤ truncate x := by
  unfold truncate
  rw [if_pos h0]
  exact Rat.le_floor.mpr hz

theorem truncate_nonpos_of_neg (x : ℚ) (h0 : ¬ 0 ≤ x) : truncate x ≤ 0 := by
  unfold truncate
  rw [if_neg h0]
  have h1 : (0 : Int) ≤ Rat.floor (-x) := Rat.le_floor.mpr (by push_cast; linarith)
  omega

namespace MemoryStream

theorem wellFormed_buffer_length {h : Heap} {s : MemoryStream} (hwf : WellFormed h s) :
    s.mnCapacity ≤ (buffer h s).length := by
  obtain ⟨-, hbound⟩ := hwf
  cases hp : s.mpSharedPointer with
  | none =>
    rw [hp] at hbound
    simp only at hbound
    omega
  | some p =>
    rw [hp] at hbound
    obtain ⟨sp, q, d, ho, hq, hd, hlen⟩ := hbound
    rw [buffer_eq_of_bound hp ho hq hd]
    exact hlen

theorem wellFormed_bound {h : Heap} {s : MemoryStream} (hwf : WellFormed h s)
    (hcap : 0 < s.mnCapacity) :
    ∃ p sp q d, s.mpSharedPointer = some p ∧ h.object p = some sp ∧ sp.mpData = some q ∧
      h.block q = some d ∧ s.mnCapacity ≤ d.length := by
  obtain ⟨-, hbound⟩ := hwf
  cases hp : s.mpSharedPointer with
  | none =>
    rw [hp] at hbound
    simp only at hbound
    omega
  | some p =>
    rw [hp] at hbound
    obtain ⟨sp, q, d, ho, hq, hd, hlen⟩ := hbound
    exact ⟨p, sp, q, d, rfl, ho, hq, hd, hlen⟩

theorem writeBytes_ok {w : Nat} {h : Heap} {s : MemoryStream} {p q : Nat} {sp : SharedPointer}
    {d : List Byte} (pData : List Byte) (n k : Nat) (hp : s.mpSharedPointer = some p)
    (ho : h.object p = some sp) (hq : sp.mpData = some q) (hd : h.block q = some d)
    (hlen : s.mnPosition + k ≤ d.length) (hsrc : k ≤ pData.length) (hk : k ≠ 0) :
    writeBytes w h s pData n k =
      some (decide (k = n),
            h.setBlock q (some (d.take s.mnPosition ++ pData.take k ++ d.drop (s.mnPosition + k))),
            { s with mnPosition := (s.mnPosition + k) % 2 ^ w }) := by
  unfold writeBytes
  simp only [hp, SharedPointer.getPointer, ho, hq, Heap.memcpyIn, hk, hd, hlen, hsrc,
    Option.bind_eq_bind, Option.some_bind, Option.pure_def, if_true, if_false, and_self]

/-- A full `writeBytes` into a live block that is large enough returns true, advances
the position and leaves the source bytes in the bound buffer at the old position. -/
theorem writeBytes_full {w : Nat} {h : Heap} {s : MemoryStream} {p q : Nat} {sp : SharedPointer}
    {d : List Byte} (b : List Byte) (hp : s.mpSharedPointer = some p)
    (ho : h.object p = some sp) (hq : sp.mpData = some q) (hd : h.block q = some d)
    (hlen : s.mnPosition + b.length ≤ d.length) (hk : b.length ≠ 0)
    (hov : s.mnPosition + b.length < 2 ^ w) :
    ∃ h1, writeBytes w h s b b.length b.length =
        some (true, h1, { s with mnPosition := s.mnPosition + b.length }) ∧
      ((buffer h1 { s with mnPosition := s.mnPosition + b.length }).drop s.mnPosition).take
        b.length = b := by
  refine ⟨h.setBlock q (some (d.take s.mnPosition ++ b.take b.length ++
    d.drop (s.mnPosition + b.length))), ?_, ?_⟩
  · rw [writeBytes_ok b b.length b.length hp ho hq hd hlen (Nat.le_refl _) hk,
      Nat.mod_eq_of_lt hov]
    simp
  · have hnew := Heap.block_setBlock_self (h := h)
      (some (d.take s.mnPosition ++ b.take b.length ++ d.drop (s.mnPosition + b.length)))
      (Heap.block_lt hd)
    rw [buffer_eq_of_bound (s := { s with mnPosition := s.mnPosition + b.length }) hp
      (by rw [Heap.object_setBlock]; exact ho) hq hnew, List.take_length]
    exact take_drop_splice d b _ s.mnPosition (by omega)

/-- A write that has to grow the buffer, with resize enabled, a representable growth
request and a granting allocator: it returns true, the capacity becomes
`max c required`, the size and the position become `required` and the source bytes are
in the new buffer. -/
theorem write_grows {w : Nat} {a : Allocator} {h : Heap} {s : MemoryStream} {b : List Byte}
    {n c : Nat} (hwf : WellFormed h s) (hen : s.mbResizeEnabled = true)
    (hn : 0 < n) (hb : b.length = n) (hov : s.mnPosition + n < 2 ^ w)
    (hreq : s.mnCapacity < s.mnPosition + n) (hnew : a.canNew = true)
    (halloc : ∀ m, a.canAllocate m = true) (hc : grownCapacity w s = some c) :
    ∃ h1 p, write w a h s b n =
        some (true, h1, { s with mpSharedPointer := some p,
                                 mnCapacity := if c < s.mnPosition + n then s.mnPosition + n else c,
                                 mnSize := s.mnPosition + n,
                                 mnPosition := s.mnPosition + n }) ∧
      ((buffer h1 { s with mpSharedPointer := some p,
                           mnCapacity := if c < s.mnPosition + n then s.mnPosition + n else c,
                           mnSize := s.mnPosition + n,
                           mnPosition := s.mnPosition + n }).drop s.mnPosition).take n = b := by
  have hmod : (s.mnPosition + n) % 2 ^ w = s.mnPosition + n := Nat.mod_eq_of_lt hov
  generalize hcap : (if c < s.mnPosition + n then s.mnPosition + n else c) = cap
  have hcapge : s.mnPosition + n ≤ cap := by
    rw [← hcap]; split_ifs <;> omega
  obtain ⟨h1, hrealloc, hobj, hblk⟩ :=
    reallocBuffer_grows (a := a) (n := cap) hwf (by omega) hnew (halloc cap)
  have hbuf := wellFormed_buffer_length hwf
  have hdlen : s.mnPosition + n ≤ ((buffer h s).take (min cap s.mnCapacity) ++
      ((List.range cap).map a.garbage).drop (min cap s.mnCapacity)).length := by
    simp only [List.length_append, List.length_take, List.length_drop, List.length_map,
      List.length_range]
    omega
  subst hb
  obtain ⟨h2, hwrite, hback⟩ := writeBytes_full (w := w)
    (s := { s with mpSharedPointer := some h.objects.length, mnCapacity := cap,
                   mnSize := s.mnPosition + b.length })
    b rfl hobj rfl hblk hdlen (by omega) hov
  refine ⟨h2, h.objects.length, ?_, hback⟩
  unfold write
  rw [if_pos hn]
  simp only [hmod]
  rw [if_pos hreq, if_pos hen, hc]
  simp only [Option.bind_eq_bind, Option.some_bind, hcap, hrealloc, if_true]
  exact hwrite

/-- A write that fits the current capacity: it returns true, extends the size to
`required` when needed and stores the source bytes at the old position. -/
theorem write_fits {w : Nat} {a : Allocator} {h : Heap} {s : MemoryStream} {b : List Byte}
    {n : Nat} (hwf : WellFormed h s) (hn : 0 < n) (hb : b.length = n)
    (hov : s.mnPosition + n < 2 ^ w) (hreq : s.mnPosition + n ≤ s.mnCapacity) :
    ∃ h1, write w a h s b n =
        some (true, h1, { s with mnSize := max s.mnSize (s.mnPosition + n),
                                 mnPosition := s.mnPosition + n }) ∧
      ((buffer h1 { s with mnSize := max s.mnSize (s.mnPosition + n),
                           mnPosition := s.mnPosition + n }).drop s.mnPosition).take n = b := by
  have hmod : (s.mnPosition + n) % 2 ^ w = s.mnPosition + n := Nat.mod_eq_of_lt hov
  obtain ⟨p, sp, q, d, hp, ho, hq, hd, hlen⟩ := wellFormed_bound hwf (by omega)
  subst hb
  have hmax : (if s.mnSize < s.mnPosition + b.length
      then { s with mnSize := s.mnPosition + b.length } else s)
      = { s with mnSize := max s.mnSize (s.mnPosition + b.length) } := by
    split_ifs with hlt
    · rw [Nat.max_eq_right (by omega)]
    · rw [Nat.max_eq_left (by omega)]
  obtain ⟨h2, hwrite, hback⟩ := writeBytes_full (w := w)
    (s := { s with mnSize := max s.mnSize (s.mnPosition + b.length) })
    b hp ho hq hd (by show s.mnPosition + b.length ≤ d.length; omega) (by omega) hov
  refine ⟨h2, ?_, hback⟩
  unfold write
  rw [if_pos hn]
  simp only [hmod]
  rw [if_neg (by omega), hmax]
  exact hwrite

end MemoryStream

/-! ## A completed write never wraps the position -/

namespace MemoryStream

/-- In a heap whose blocks fit the address space, a write of `n > 0` bytes that returns
true has `position + n` representable: the bytes went into a live block. -/
theorem write_true_no_overflow {w : Nat} {a : Allocator} {h : Heap} {s : MemoryStream}
    {b : List Byte} {n : Nat} {r : Bool × Heap × MemoryStream} (hf : h.Fits w) (hn : 0 < n)
    (hw : write w a h s b n = some r) (hok : r.1 = true) : s.mnPosition + n < 2 ^ w := by
  have hn0 : n ≠ 0 := by omega
  unfold write at hw
  rw [if_pos hn] at hw
  simp only at hw
  by_cases h2 : (s.mnPosition + n) % 2 ^ w > s.mnCapacity
  · rw [if_pos h2] at hw
    by_cases h3 : s.mbResizeEnabled = true
    · rw [if_pos h3] at hw
      simp only [Option.bind_eq_bind, Option.bind_eq_some] at hw
      obtain ⟨c, hc, r1, hr1, hw⟩ := hw
      have hcap : (if c < (s.mnPosition + n) % 2 ^ w then (s.mnPosition + n) % 2 ^ w else c)
          < 2 ^ w := by
        have h5 := grownCapacity_lt hc
        have h6 := Nat.mod_lt (s.mnPosition + n) (Nat.two_pow_pos w)
        split_ifs <;> assumption
      have hf1 := fits_reallocBuffer hf hcap hr1
      rcases reallocBuffer_stream hr1 with ⟨hok1, hs1⟩ | ⟨hok1, -, -⟩
      · simp only [hok1, if_true] at hw
        have hp1 : r1.2.2.mnPosition = s.mnPosition := by rw [hs1]
        obtain ⟨p, sp, q, d, -, -, -, hd, hlen, -, -⟩ := writeBytes_inv hw hn0
        have hdlen := hf1 q d hd
        have hlen2 : r1.2.2.mnPosition + n ≤ d.length := hlen
        omega
      · simp only [hok1, Bool.false_eq_true, if_false, Option.pure_def, Option.some.injEq] at hw
        subst hw
        cases hok
    · rw [if_neg h3] at hw
      have hflag := (writeBytes_stream hw).1
      rw [hok] at hflag
      have hk : (s.mnSize + 2 ^ w - s.mnPosition) % 2 ^ w = n := by simpa using hflag.symm
      rw [hk] at hw
      obtain ⟨p, sp, q, d, -, -, -, hd, hlen, -, -⟩ := writeBytes_inv hw hn0
      have hdlen := hf q d hd
      omega
  · rw [if_neg h2] at hw
    obtain ⟨p, sp, q, d, -, -, -, hd, hlen, -, -⟩ := writeBytes_inv hw hn0
    have hdlen := hf q d hd
    have hsame : (if s.mnSize < (s.mnPosition + n) % 2 ^ w
        then { s with mnSize := (s.mnPosition + n) % 2 ^ w } else s).mnPosition
        = s.mnPosition := by split_ifs <;> rfl
    rw [hsame] at hlen
    omega

end MemoryStream

/-! ## Facts about the concrete data -/

theorem fits_emptyHeap (w : Nat) : emptyHeap.Fits w := by
  intro q d hd
  simp [Heap.block, emptyHeap] at hd

theorem fits_heapTen : heapTen.Fits 8 := by
  intro q d hd
  have hq : q < heapTen.blocks.length := Heap.block_lt hd
  have hq1 : q < 1 := hq
  have hq0 : q = 0 := by omega
  subst hq0
  have hd1 : d = [1, 2, 3, 4, 5, 6, 7, 8, 9, 10] := by
    have h2 : heapTen.block 0 = some [1, 2, 3, 4, 5, 6, 7, 8, 9, 10] := rfl
    rw [h2] at hd
    exact (Option.some.inj hd).symm
  subst hd1
  decide

theorem wellFormed_resizable : MemoryStream.WellFormed emptyHeap resizable :=
  ⟨Nat.le_refl _, rfl⟩

/-- The state `heapTen`, `streamTen` is well formed. -/
theorem wellFormed_streamTen : MemoryStream.WellFormed heapTen streamTen :=
  ⟨by decide, ⟨{ mpData := some 0, mnRefCount := 1, mbFreeData := true }, 0,
    [1, 2, 3, 4, 5, 6, 7, 8, 9, 10], rfl, rfl, rfl, by decide⟩⟩

theorem reachable_resizable : MemoryStream.Reachable 8 emptyHeap resizable :=
  MemoryStream.Reachable.step grantAll (.setOption .kOptionResizeEnabled 1) true
    (MemoryStream.Reachable.init emptyHeap) (by decide!)

theorem reachable_streamTen : MemoryStream.Reachable 8 heapTen streamTen :=
  MemoryStream.Reachable.step grantAll (.write [1, 2, 3, 4, 5, 6, 7, 8, 9, 10] 10) true
    reachable_resizable (by decide!)

theorem reachable_streamSeek : MemoryStream.Reachable 8 heapSeek streamSeek :=
  MemoryStream.Reachable.step grantAll (.setPosition 5 .kPositionTypeBegin) true
    reachable_resizable (by decide!)

theorem reachable_streamTwo : MemoryStream.Reachable 8 heapTen streamTwo :=
  MemoryStream.Reachable.step grantAll (.setSize 2) true reachable_streamTen (by decide!)

theorem reachable_streamFour : MemoryStream.Reachable 8 heapFour streamFour :=
  MemoryStream.Reachable.step grantAll (.setData (some 0) 4 false false) true
    (MemoryStream.Reachable.init callerHeap) (by decide!)

theorem reachable_streamEight : MemoryStream.Reachable 8 heapEight streamEight :=
  MemoryStream.Reachable.step grantAll (.setCapacity 8) true reachable_streamFour (by decide!)

theorem reachable_streamWide : MemoryStream.Reachable 8 heapWide streamWide :=
  MemoryStream.Reachable.step grantAll (.setSize 200) true reachable_resizable (by decide!)

theorem reachable_fixedWide : MemoryStream.Reachable 8 heapWide fixedWide :=
  MemoryStream.Reachable.step grantAll (.setOption .kOptionResizeEnabled 0) true
    reachable_streamWide (by decide!)

theorem wellFormed_fixedWide : MemoryStream.WellFormed heapWide fixedWide :=
  ⟨by decide, ⟨{ mpData := some 0, mnRefCount := 1, mbFreeData := true }, 0,
    List.replicate 200 0, rfl, rfl, rfl, by rw [List.length_replicate]; decide⟩⟩

theorem reachable_streamHuge : MemoryStream.Reachable 64 heapExternalBound streamHuge :=
  MemoryStream.Reachable.step grantAll (.setDataShared (some 0) (2 ^ 64 - 1)) true
    (MemoryStream.Reachable.init heapExternal) (by decide!)
/-! ## Reading from a bound block; inverse lemmas for `release` and `memcpy` -/

namespace MemoryStream

/-- The result of `read` on a stream bound to a live block that holds at least `size`
bytes. -/
theorem read_of_bound {w : Nat} {h : Heap} {s : MemoryStream} {p q : Nat} {sp : SharedPointer}
    {d : List Byte} (n : Nat) (hp : s.mpSharedPointer = some p) (ho : h.object p = some sp)
    (hq : sp.mpData = some q) (hd : h.block q = some d) (hlen : s.mnSize ≤ d.length)
    (hsz : s.mnSize < 2 ^ w) (hpos : s.mnPosition ≤ s.mnSize) :
    read w h s n =
      some (min n (s.mnSize - s.mnPosition),
            (d.drop s.mnPosition).take (min n (s.mnSize - s.mnPosition)),
            { s with mnPosition := s.mnPosition + min n (s.mnSize - s.mnPosition) }) := by
  have havail : (s.mnSize + 2 ^ w - s.mnPosition) % 2 ^ w = s.mnSize - s.mnPosition := by
    have h1 : s.mnSize + 2 ^ w - s.mnPosition = (s.mnSize - s.mnPosition) + 2 ^ w := by omega
    rw [h1, Nat.add_mod_right]
    exact Nat.mod_eq_of_lt (by omega)
  by_cases h0 : n = 0 ∨ s.mnPosition = s.mnSize
  · have hk : min n (s.mnSize - s.mnPosition) = 0 := by
      rcases h0 with h0 | h0 <;> simp [h0]
    rw [hk]
    unfold read
    by_cases h1 : n > 0
    · rw [if_pos h1]
      simp only
      rw [havail, if_neg (by omega)]
      simp
    · rw [if_neg h1]
      simp
  · have hn : n > 0 := by omega
    unfold read
    rw [if_pos hn]
    simp only
    rw [havail, if_pos (by omega)]
    have hk : (if n > s.mnSize - s.mnPosition then s.mnSize - s.mnPosition else n)
        = min n (s.mnSize - s.mnPosition) := by
      split_ifs <;> omega
    rw [hk]
    have hk0 : min n (s.mnSize - s.mnPosition) ≠ 0 := by omega
    have hfit : s.mnPosition + min n (s.mnSize - s.mnPosition) ≤ d.length := by omega
    have hmod : (s.mnPosition + min n (s.mnSize - s.mnPosition)) % 2 ^ w
        = s.mnPosition + min n (s.mnSize - s.mnPosition) := Nat.mod_eq_of_lt (by omega)
    simp only [hp, SharedPointer.getPointer, ho, hq, Heap.memcpyOut, hd, hk0, hfit, hmod,
      Option.bind_eq_bind, Option.some_bind, Option.pure_def, if_true, if_false]

theorem releaseIfBound_block_mono {h h1 : Heap} {p : Option Nat} {x : Nat} {d : List Byte}
    (hr : releaseIfBound h p = some h1) (hx : h1.block x = some d) : h.block x = some d := by
  unfold releaseIfBound at hr
  cases p with
  | none =>
    simp only [Option.some.injEq] at hr
    subst hr
    exact hx
  | some q =>
    simp only [Option.map_eq_some'] at hr
    obtain ⟨r, hrel, rfl⟩ := hr
    unfold SharedPointer.release at hrel
    cases ho : h.object q with
    | none => simp [ho] at hrel
    | some sp =>
      simp only [ho] at hrel
      by_cases hc : sp.mnRefCount > 1
      · rw [if_pos hc] at hrel
        cases hrel
        exact hx
      · rw [if_neg hc] at hrel
        cases hfree : sp.mbFreeData with
        | false =>
          simp only [hfree, Bool.false_eq_true, if_false, Option.some.injEq] at hrel
          subst hrel
          exact hx
        | true =>
          simp only [hfree, if_true] at hrel
          cases hdl : h.deallocate sp.mpData with
          | none => simp [hdl] at hrel
          | some h2 =>
            simp only [hdl, Option.some.injEq] at hrel
            subst hrel
            have hx2 : h2.block x = some d := hx
            unfold Heap.deallocate at hdl
            cases hq : sp.mpData with
            | none =>
              simp only [hq, Option.some.injEq] at hdl
              subst hdl
              exact hx2
            | some q0 =>
              simp only [hq] at hdl
              cases hb : h.block q0 with
              | none => simp [hb] at hdl
              | some d0 =>
                simp only [hb, Option.some.injEq] at hdl
                subst hdl
                rcases Heap.block_setBlock_cases h x q0 none with h3 | h3
                · rw [h3] at hx2
                  cases hx2
                · rw [h3] at hx2
                  exact hx2

end MemoryStream

namespace Heap

/-- A `memcpy` of `n > 0` bytes between blocks that completed read a live source and
overwrote the first `n` bytes of a live destination. -/
theorem memcpyBlock_inv {h h1 : Heap} {dst src : Option Nat} {n : Nat} (hn : n ≠ 0)
    (hm : h.memcpyBlock dst src n = some h1) :
    ∃ q x d g, dst = some q ∧ src = some x ∧ h.block x = some d ∧ n ≤ d.length ∧
      h.block q = some g ∧ n ≤ g.length ∧ h1 = h.setBlock q (some (d.take n ++ g.drop n)) := by
  unfold memcpyBlock memcpyOut at hm
  rw [if_neg hn] at hm
  cases src with
  | none => simp at hm
  | some x =>
    simp only at hm
    cases hx : h.block x with
    | none => simp [hx] at hm
    | some d =>
      simp only [hx, Nat.zero_add] at hm
      by_cases hlen : n ≤ d.length
      · rw [if_pos hlen] at hm
        simp only at hm
        unfold memcpyIn at hm
        rw [if_neg hn] at hm
        cases dst with
        | none => simp at hm
        | some q =>
          simp only at hm
          cases hq : h.block q with
          | none => simp [hq] at hm
          | some g =>
            simp only [hq, Nat.zero_add] at hm
            by_cases hc : n ≤ g.length ∧ n ≤ (List.take n (List.drop 0 d)).length
            · rw [if_pos hc] at hm
              simp only [Option.some.injEq] at hm
              refine ⟨q, x, d, g, rfl, rfl, hx, hlen, hq, hc.1, ?_⟩
              rw [← hm]
              simp [List.take_take]
            · rw [if_neg hc] at hm
              cases hm
      · rw [if_neg hlen] at hm
        cases hm

end Heap

/-! ## C1: `size ≤ capacity` in every reachable state -/

namespace MemoryStream

theorem apply_size_le_capacity {w : Nat} {a : Allocator} {h : Heap} {s : MemoryStream} {op : Op}
    {r : Bool × Heap × MemoryStream} (hr : apply w a h s op = some r)
    (hs : s.mnSize ≤ s.mnCapacity) : r.2.2.mnSize ≤ r.2.2.mnCapacity := by
  cases op with
  | setData pData nSize u f =>
    obtain ⟨p, hp⟩ := setData_stream hr
    rw [hp]
    exact Nat.le_refl _
  | setDataShared p nSize =>
    rw [(setDataShared_stream hr).2]
    exact Nat.le_refl _
  | setSize n =>
    rcases setSize_stream hr with ⟨-, h2⟩ | ⟨hlt, -, -, h2⟩ | ⟨-, -, h2⟩
    · rw [h2]; exact hs
    · rw [h2]; show n ≤ s.mnCapacity; omega
    · rw [h2]
  | setCapacity n =>
    rcases setCapacity_stream hr with ⟨-, -, h2⟩ | ⟨hlt, -, h2⟩
    · rw [h2]; exact hs
    · rw [h2]; show s.mnSize ≤ n; omega
  | setPosition off origin =>
    rcases setPosition_stream hr with ⟨-, h2⟩ | ⟨-, -, h2⟩ | ⟨-, -, -, h2⟩ | ⟨hlt, -, hcap, -, h2⟩ |
      ⟨-, -, -, -, h2⟩
    · rw [h2]; exact hs
    · rw [h2]; exact hs
    · rw [h2]; exact hs
    · rw [h2]
      show s.mnSize ≤ (candidate w s off origin + 1) % 2 ^ w
      generalize (candidate w s off origin + 1) % 2 ^ w = c1 at hcap
      omega
    · rw [h2]; exact hs
  | read n =>
    simp only [apply, Option.map_eq_some'] at hr
    obtain ⟨r1, hr1, rfl⟩ := hr
    rcases read_stream hr1 with h2 | ⟨-, -, -, h2⟩
    · rw [h2]; exact hs
    · show r1.2.2.mnSize ≤ r1.2.2.mnCapacity
      rw [h2]; exact hs
  | write pData n =>
    rcases write_stream hr with ⟨-, h2⟩ | ⟨-, -, -, h2⟩ | ⟨-, -, -, -, hcap, -, h2⟩ |
      ⟨-, -, -, -, h2⟩ | ⟨-, hcap, -, h2⟩
    · rw [h2]; exact hs
    · rw [h2]; exact hs
    · rw [h2]; exact hcap
    · rw [h2]; exact hs
    · rw [h2]
      show (if _ then _ else _) ≤ s.mnCapacity
      split_ifs
      · exact hcap
      · exact hs
  | setOption o v =>
    simp only [apply, Option.map_eq_some'] at hr
    obtain ⟨t, ht, rfl⟩ := hr
    obtain ⟨-, h2, h3, -⟩ := setOption_stream ht
    show t.mnSize ≤ t.mnCapacity
    omega

/-- C1: in every state reachable from a newly constructed empty stream by any sequence
of `setData` (both overloads), `setSize`, `setCapacity`, `setPosition`, `read`, `write`,
`setOption` and copy construction, `size ≤ capacity`. -/
theorem size_le_capacity_of_reachable (w : Nat) (h : Heap) (s : MemoryStream)
    (hreach : Reachable w h s) : s.mnSize ≤ s.mnCapacity := by
  induction hreach with
  | init h => exact Nat.le_refl _
  | step a op ok _ hstep ih => exact apply_size_le_capacity hstep ih
  | copyNew _ hcopy _ =>
    rw [copy_stream hcopy]
  | copyKeep _ _ ih => exact ih

end MemoryStream

theorem size_le_capacity_of_reachable_witness :
    MemoryStream.Reachable 8 heapTen streamTen ∧ streamTen.mnSize ≤ streamTen.mnCapacity :=
  ⟨reachable_streamTen,
    MemoryStream.size_le_capacity_of_reachable 8 heapTen streamTen reachable_streamTen⟩

/-! ## C2: `position ≤ size` after an operation -/

namespace MemoryStream

/-- C2 (as amended): from a state with `position ≤ size`, every public operation whose
call is defined leaves `position ≤ size`, with exactly one exception: a successful
`setPosition` with resize enabled whose candidate exceeds `size`, after which
`position = candidate > size`. -/
theorem position_le_size_or_grow_seek (w : Nat) (a : Allocator) (h : Heap) (s : MemoryStream)
    (op : Op) (r : Bool × Heap × MemoryStream) (hr : apply w a h s op = some r)
    (hs : s.mnPosition ≤ s.mnSize) :
    r.2.2.mnPosition ≤ r.2.2.mnSize ∨
    ∃ off origin, op = .setPosition off origin ∧ s.mbResizeEnabled = true ∧ r.1 = true ∧
      s.mnSize < candidate w s off origin ∧ r.2.2.mnPosition = candidate w s off origin ∧
      r.2.2.mnSize = s.mnSize := by
  cases op with
  | setData pData nSize u f =>
    obtain ⟨p, hp⟩ := setData_stream hr
    left
    rw [hp]
    exact Nat.zero_le _
  | setDataShared p nSize =>
    left
    rw [(setDataShared_stream hr).2]
    exact Nat.zero_le _
  | setSize n =>
    left
    rcases setSize_stream hr with ⟨-, h2⟩ | ⟨hlt, -, -, h2⟩ | ⟨hlt, -, h2⟩
    · rw [h2]; exact hs
    · rw [h2]
      show (if _ then _ else _) ≤ n
      split_ifs <;> omega
    · rw [h2]; show s.mnPosition ≤ n; omega
  | setCapacity n =>
    left
    rcases setCapacity_stream hr with ⟨-, -, h2⟩ | ⟨-, -, h2⟩
    · rw [h2]; exact hs
    · rw [h2]; exact hs
  | setPosition off origin =>
    rcases setPosition_stream hr with ⟨hle, h2⟩ | ⟨-, -, h2⟩ | ⟨hlt, hen, -, h2⟩ |
      ⟨hlt, hen, -, hok, h2⟩ | ⟨-, -, -, -, h2⟩
    · left; rw [h2]; exact hle
    · left; rw [h2]
    · right
      exact ⟨off, origin, rfl, hen, by rw [h2], hlt, by rw [h2], by rw [h2]⟩
    · right
      exact ⟨off, origin, rfl, hen, hok, hlt, by rw [h2], by rw [h2]⟩
    · left
      rw [h2]
      show toSize w (toOff w s.mnPosition) ≤ s.mnSize
      rw [toSize_toOff]
      exact Nat.le_trans (Nat.mod_le _ _) hs
  | read n =>
    left
    simp only [apply, Option.map_eq_some'] at hr
    obtain ⟨r1, hr1, rfl⟩ := hr
    rcases read_stream hr1 with h2 | ⟨-, -, hk, h2⟩
    · rw [h2]; exact hs
    · show r1.2.2.mnPosition ≤ r1.2.2.mnSize
      rw [h2]
      show (s.mnPosition + r1.1) % 2 ^ w ≤ s.mnSize
      have h3 := avail_le (2 ^ w) s.mnPosition s.mnSize hs
      have h4 := Nat.mod_le (s.mnPosition + r1.1) (2 ^ w)
      omega
  | write pData n =>
    left
    rcases write_stream hr with ⟨-, h2⟩ | ⟨-, -, -, h2⟩ | ⟨-, -, -, -, -, -, h2⟩ |
      ⟨-, -, -, -, h2⟩ | ⟨-, -, -, h2⟩
    · rw [h2]; exact hs
    · rw [h2]; exact hs
    · rw [h2]
    · rw [h2]
      show (s.mnPosition + (s.mnSize + 2 ^ w - s.mnPosition) % 2 ^ w) % 2 ^ w ≤ s.mnSize
      have h3 := avail_le (2 ^ w) s.mnPosition s.mnSize hs
      have h4 := Nat.mod_le (s.mnPosition + (s.mnSize + 2 ^ w - s.mnPosition) % 2 ^ w) (2 ^ w)
      omega
    · rw [h2]
      show (s.mnPosition + n) % 2 ^ w ≤ (if _ then _ else _)
      generalize (s.mnPosition + n) % 2 ^ w = req
      split_ifs <;> omega
  | setOption o v =>
    left
    simp only [apply, Option.map_eq_some'] at hr
    obtain ⟨t, ht, rfl⟩ := hr
    obtain ⟨-, h2, -, h3⟩ := setOption_stream ht
    show t.mnPosition ≤ t.mnSize
    omega

end MemoryStream

theorem position_le_size_or_grow_seek_witness :
    MemoryStream.apply 8 grantAll heapTen streamTen (.setPosition 3 .kPositionTypeBegin)
        = some (true, heapTen, { streamTen with mnPosition := 3 }) ∧
      streamTen.mnPosition ≤ streamTen.mnSize ∧
      ((3 : Nat) ≤ 10 ∨
        ∃ off origin, Op.setPosition 3 .kPositionTypeBegin = .setPosition off origin ∧
          streamTen.mbResizeEnabled = true ∧ true = true ∧
          streamTen.mnSize < MemoryStream.candidate 8 streamTen off origin ∧
          (3 : Nat) = MemoryStream.candidate 8 streamTen off origin ∧ (10 : Nat) = streamTen.mnSize) :=
  ⟨by decide!, by decide,
    MemoryStream.position_le_size_or_grow_seek 8 grantAll heapTen streamTen
      (.setPosition 3 .kPositionTypeBegin) (true, heapTen, { streamTen with mnPosition := 3 })
      (by decide!) (by decide)⟩

/-- C2 (counterexample): `resizable` is reachable; `setPosition(5, begin)` on it returns
true and leaves `position = 5 > size = 0`; the resulting state is reachable and violates
the condition asserted by `read`. -/
theorem position_exceeds_size_after_seek :
    MemoryStream.Reachable 8 emptyHeap resizable ∧
    resizable.mbResizeEnabled = true ∧
    MemoryStream.setPosition 8 grantAll emptyHeap resizable 5 .kPositionTypeBegin
      = some (true, heapSeek, streamSeek) ∧
    MemoryStream.Reachable 8 heapSeek streamSeek ∧
    ¬ streamSeek.mnPosition ≤ streamSeek.mnSize ∧
    ¬ MemoryStream.readAssertion streamSeek :=
  ⟨reachable_resizable, rfl, by decide!, reachable_streamSeek, by decide,
    by unfold MemoryStream.readAssertion; decide⟩

/-! ## C3: write / read round trip -/

namespace MemoryStream

/-- C3: in a state with `position = p ≤ size` whose heap fits the address space, if
`write(b, n)` with `b` of length `n` returns true, then `setPosition(p, begin)` returns
true and the following `read(dst, n)` returns `n` and stores exactly `b`. -/
theorem write_read_roundtrip (w : Nat) (a a2 : Allocator) (h h1 : Heap) (s s1 : MemoryStream)
    (b : List Byte) (n : Nat) (ht : Typed w s) (hf : h.Fits w) (hp : s.mnPosition ≤ s.mnSize)
    (hb : b.length = n) (hw : write w a h s b n = some (true, h1, s1)) :
    ∃ s2 s3, setPosition w a2 h1 s1 (toOff w s.mnPosition) .kPositionTypeBegin
        = some (true, h1, s2) ∧
      read w h1 s2 n = some (n, b, s3) := by
  obtain ⟨hsz, -, hpos⟩ := ht
  by_cases hn : n > 0
  · have hn0 : n ≠ 0 := by omega
    unfold write at hw
    rw [if_pos hn] at hw
    simp only at hw
    by_cases h2 : (s.mnPosition + n) % 2 ^ w > s.mnCapacity
    · rw [if_pos h2] at hw
      by_cases h3 : s.mbResizeEnabled = true
      · rw [if_pos h3] at hw
        simp only [Option.bind_eq_bind, Option.bind_eq_some] at hw
        obtain ⟨c, hc, r1, hr1, hw⟩ := hw
        have hcap : (if c < (s.mnPosition + n) % 2 ^ w then (s.mnPosition + n) % 2 ^ w else c)
            < 2 ^ w := by
          have h5 := grownCapacity_lt hc
          have h6 := Nat.mod_lt (s.mnPosition + n) (Nat.two_pow_pos w)
          split_ifs <;> assumption
        have hf1 := fits_reallocBuffer hf hcap hr1
        rcases reallocBuffer_stream hr1 with ⟨hok, hs1⟩ | ⟨hok, -, -⟩
        · simp only [hok, if_true] at hw
          have hp1 : r1.2.2.mnPosition = s.mnPosition := by rw [hs1]
          obtain ⟨p, sp, q, d, -, -, -, hd, hlen, -, -⟩ := writeBytes_inv hw hn0
          have hdlen := hf1 q d hd
          have hlen2 : s.mnPosition + n ≤ d.length := by
            have : r1.2.2.mnPosition + n ≤ d.length := hlen
            omega
          have hreq : (s.mnPosition + n) % 2 ^ w = s.mnPosition + n :=
            Nat.mod_eq_of_lt (by omega)
          obtain ⟨-, hseek, hread⟩ := read_after_writeBytes a2 hw hn0 hb
            (by show r1.2.2.mnPosition + n ≤ (s.mnPosition + n) % 2 ^ w; omega)
            (by show (s.mnPosition + n) % 2 ^ w < 2 ^ w; omega)
          refine ⟨_, _, ?_, hread⟩
          rw [← hp1]
          exact hseek
        · simp [hok] at hw
      · rw [if_neg h3] at hw
        have havail : (s.mnSize + 2 ^ w - s.mnPosition) % 2 ^ w = s.mnSize - s.mnPosition := by
          have h1 : s.mnSize + 2 ^ w - s.mnPosition = (s.mnSize - s.mnPosition) + 2 ^ w := by
            omega
          rw [h1, Nat.add_mod_right]
          exact Nat.mod_eq_of_lt (by omega)
        rw [havail] at hw
        have hflag := (writeBytes_stream hw).1
        have hk : s.mnSize - s.mnPosition = n := by simpa using hflag.symm
        rw [hk] at hw
        obtain ⟨-, hseek, hread⟩ := read_after_writeBytes a2 hw hn0 hb (by omega) hsz
        exact ⟨_, _, hseek, hread⟩
    · rw [if_neg h2] at hw
      obtain ⟨p, sp, q, d, -, -, -, hd, hlen, -, -⟩ := writeBytes_inv hw hn0
      have hdlen := hf q d hd
      have hlen2 : s.mnPosition + n ≤ d.length := by
        have hsame : (if s.mnSize < (s.mnPosition + n) % 2 ^ w
            then { s with mnSize := (s.mnPosition + n) % 2 ^ w } else s).mnPosition
            = s.mnPosition := by split_ifs <;> rfl
        rw [hsame] at hlen
        exact hlen
      have hreq : (s.mnPosition + n) % 2 ^ w = s.mnPosition + n := Nat.mod_eq_of_lt (by omega)
      rw [hreq] at hw
      by_cases h4 : s.mnSize < s.mnPosition + n
      · rw [if_pos h4] at hw
        obtain ⟨-, hseek, hread⟩ := read_after_writeBytes a2 hw hn0 hb
          (by show s.mnPosition + n ≤ s.mnPosition + n; omega)
          (by show s.mnPosition + n < 2 ^ w; omega)
        exact ⟨_, _, hseek, hread⟩
      · rw [if_neg h4] at hw
        obtain ⟨-, hseek, hread⟩ := read_after_writeBytes a2 hw hn0 hb (by omega) hsz
        exact ⟨_, _, hseek, hread⟩
  · have hn0 : n = 0 := by omega
    subst hn0
    unfold write at hw
    rw [if_neg (by omega)] at hw
    cases hw
    have hb0 : b = [] := List.length_eq_zero.mp hb
    subst hb0
    refine ⟨{ s with mnPosition := s.mnPosition }, s, ?_, ?_⟩
    · unfold setPosition
      simp only [candidate, toSize_toOff, Nat.mod_eq_of_lt hpos]
      rw [if_neg (by omega)]
    · unfold read
      rw [if_neg (by omega)]

end MemoryStream

theorem write_read_roundtrip_witness :
    ∃ s2 s3, MemoryStream.setPosition 8 grantAll heapTen streamTen
        (toOff 8 resizable.mnPosition) .kPositionTypeBegin = some (true, heapTen, s2) ∧
      MemoryStream.read 8 heapTen s2 10 = some (10, [1, 2, 3, 4, 5, 6, 7, 8, 9, 10], s3) :=
  MemoryStream.write_read_roundtrip 8 grantAll grantAll emptyHeap heapTen resizable streamTen
    [1, 2, 3, 4, 5, 6, 7, 8, 9, 10] 10 ⟨by decide, by decide, by decide⟩ (fits_emptyHeap 8)
    (by decide) rfl (by decide!)

/-! ## C4: partial write with resize disabled -/

/-- C4 (the code at the failing input): the state `streamEight` (resize disabled,
capacity 8, size 4, position 0) is reachable by `setData` and `setCapacity`; a write of
10 bytes returns false, but copies only `size - position = 4` bytes and advances the
position to 4, not the `capacity - position = 8` bytes the specification states.  On the same
state a write of 6 bytes is complete and extends the size to 6: the sibling branch does
use the room up to the capacity. -/
theorem write_partial_stops_at_size :
    MemoryStream.Reachable 8 heapEight streamEight ∧
    streamEight.mbResizeEnabled = false ∧ streamEight.mnCapacity = 8 ∧
    streamEight.mnSize = 4 ∧ streamEight.mnPosition = 0 ∧
    MemoryStream.write 8 grantAll heapEight streamEight
        [11, 12, 13, 14, 15, 16, 17, 18, 19, 20] 10
      = some (false, heapEightWritten, { streamEight with mnPosition := 4 }) ∧
    MemoryStream.buffer heapEightWritten { streamEight with mnPosition := 4 }
      = [11, 12, 13, 14, 0, 0, 0, 0] ∧
    MemoryStream.write 8 grantAll heapEight streamEight [11, 12, 13, 14, 15, 16] 6
      = some (true, heapEightSix, { streamEight with mnSize := 6, mnPosition := 6 }) :=
  ⟨reachable_streamEight, rfl, rfl, rfl, rfl, by decide!, by decide, by decide!⟩

/-! ## C5: full write with resize enabled -/

namespace MemoryStream

/-- C5: on a well-formed stream with resize enabled, a write of `n > 0` bytes at
position `p` with `p + n` not overflowing, the allocator granting every request and the
growth request `(size_type)(capacity * factor + increment)` representable, returns true;
the position becomes `p + n`, the size `max size (p + n)`, the capacity is at least
`p + n` and the `n` source bytes occupy offsets `p .. p+n-1` of the bound buffer. -/
theorem write_full_when_resizable (w : Nat) (a : Allocator) (h : Heap) (s : MemoryStream)
    (b : List Byte) (n : Nat) (hwf : WellFormed h s) (hen : s.mbResizeEnabled = true)
    (hn : 0 < n) (hb : b.length = n) (hov : s.mnPosition + n < 2 ^ w)
    (hnew : a.canNew = true) (halloc : ∀ m, a.canAllocate m = true)
    (hconv : s.mnCapacity < s.mnPosition + n → (grownCapacity w s).isSome = true) :
    ∃ h1 s1, write w a h s b n = some (true, h1, s1) ∧
      s1.mnPosition = s.mnPosition + n ∧
      s1.mnSize = max s.mnSize (s.mnPosition + n) ∧
      s.mnPosition + n ≤ s1.mnCapacity ∧
      ((buffer h1 s1).drop s.mnPosition).take n = b := by
  by_cases hreq : s.mnCapacity < s.mnPosition + n
  · obtain ⟨c, hc⟩ := Option.isSome_iff_exists.mp (hconv hreq)
    obtain ⟨h1, p, hwrite, hback⟩ := write_grows hwf hen hn hb hov hreq hnew halloc hc
    refine ⟨h1, _, hwrite, rfl, ?_, ?_, hback⟩
    · show s.mnPosition + n = max s.mnSize (s.mnPosition + n)
      have := hwf.1
      omega
    · show s.mnPosition + n ≤ (if c < s.mnPosition + n then s.mnPosition + n else c)
      split_ifs <;> omega
  · obtain ⟨h1, hwrite, hback⟩ := write_fits (a := a) hwf hn hb hov (by omega)
    exact ⟨h1, _, hwrite, rfl, rfl, by show s.mnPosition + n ≤ s.mnCapacity; omega, hback⟩

end MemoryStream

theorem write_full_when_resizable_witness :
    ∃ h1 s1, MemoryStream.write 8 grantAll emptyHeap resizable [1, 2, 3, 4, 5, 6, 7, 8, 9, 10] 10
        = some (true, h1, s1) ∧
      s1.mnPosition = 10 ∧ s1.mnSize = 10 ∧ 10 ≤ s1.mnCapacity ∧
      ((MemoryStream.buffer h1 s1).drop 0).take 10 = [1, 2, 3, 4, 5, 6, 7, 8, 9, 10] :=
  MemoryStream.write_full_when_resizable 8 grantAll emptyHeap resizable
    [1, 2, 3, 4, 5, 6, 7, 8, 9, 10] 10 wellFormed_resizable rfl (by decide) rfl (by decide)
    rfl (fun _ => rfl) (fun _ => by decide!)

/-! ## C6: growth policy of `write` -/

namespace MemoryStream

theorem grownCapacity_eq {w : Nat} {s : MemoryStream} {c : Nat}
    (hc : grownCapacity w s = some c) :
    ∃ f1 f2 f3 f4 : ℚ, roundFloat (s.mnCapacity : ℚ) = some f1 ∧
      roundFloat (f1 * s.mfResizeFactor) = some f2 ∧
      roundFloat (s.mnResizeIncrement : ℚ) = some f3 ∧
      roundFloat (f2 + f3) = some f4 ∧
      0 ≤ truncate f4 ∧ (c : Int) = truncate f4 := by
  obtain ⟨f1, f2, f3, f4, h1, h2, h3, h4, h5⟩ := grownCapacity_spec hc
  unfold intToFloat at h1 h3
  unfold floatMul at h2
  unfold floatAdd at h4
  rw [Int.cast_natCast] at h1
  have h6 := floatToSize_spec h5
  exact ⟨f1, f2, f3, f4, h1, h2, h3, h4, h6.1, h6.2.1⟩

/-- C6 (as amended): with resize enabled and `required = position + n > capacity`, in a
heap whose blocks fit the address space.  A write of 0 bytes returns true and changes
nothing, the capacity included.  A write of `n > 0` bytes, whenever the call completes,
either returns false and changes nothing (the allocation failed) or returns true with
the new capacity `max (trunc g) required`, where `g` is the growth request computed in
binary32: `capacity` rounded to a float `f1`, the product `f1 * factor` rounded to `f2`,
`increment` rounded to `f3`, and `g` the rounded sum `f2 + f3`; so the new capacity is
exactly `required` when `required > g` and `trunc g` otherwise.  When none of the four
roundings changes its value, `g` is the exact `capacity * factor + increment` and the
new capacity is `max (trunc (capacity * factor + increment)) required`.  On a
well-formed stream, with `position + n` representable, a granting allocator and a
representable growth request, the call does complete and returns true. -/
theorem write_growth_policy (w : Nat) (a : Allocator) (h : Heap) (s : MemoryStream)
    (b : List Byte) (n : Nat) (hen : s.mbResizeEnabled = true)
    (hreq : s.mnCapacity < s.mnPosition + n) (hf : h.Fits w) :
    (n = 0 → write w a h s b n = some (true, h, s)) ∧
    (0 < n →
      (∀ r, write w a h s b n = some r →
        r = (false, h, s) ∨
        (r.1 = true ∧
          (∃ f1 f2 f3 g : ℚ, roundFloat (s.mnCapacity : ℚ) = some f1 ∧
            roundFloat (f1 * s.mfResizeFactor) = some f2 ∧
            roundFloat (s.mnResizeIncrement : ℚ) = some f3 ∧
            roundFloat (f2 + f3) = some g ∧
            r.2.2.mnCapacity = max (truncate g).toNat (s.mnPosition + n) ∧
            (g < ((s.mnPosition + n : Nat) : ℚ) → r.2.2.mnCapacity = s.mnPosition + n) ∧
            (¬ g < ((s.mnPosition + n : Nat) : ℚ) → (r.2.2.mnCapacity : Int) = truncate g)) ∧
          (roundFloat (s.mnCapacity : ℚ) = some (s.mnCapacity : ℚ) →
            roundFloat ((s.mnCapacity : ℚ) * s.mfResizeFactor)
              = some ((s.mnCapacity : ℚ) * s.mfResizeFactor) →
            roundFloat (s.mnResizeIncrement : ℚ) = some (s.mnResizeIncrement : ℚ) →
            roundFloat (specGrowth s) = some (specGrowth s) →
            r.2.2.mnCapacity = max (truncate (specGrowth s)).toNat (s.mnPosition + n)))) ∧
      (WellFormed h s → b.length = n → s.mnPosition + n < 2 ^ w → a.canNew = true →
        (∀ m, a.canAllocate m = true) → (grownCapacity w s).isSome = true →
        ∃ r, write w a h s b n = some r ∧ r.1 = true)) := by
  refine ⟨?_, ?_⟩
  · intro h0
    subst h0
    unfold write
    rw [if_neg (by omega)]
  intro hn
  constructor
  · intro r hr
    rcases write_stream hr with ⟨h0, -⟩ | ⟨-, -, -, h2⟩ | ⟨-, -, -, hok, -, ⟨c, hc, hcap⟩, -⟩ |
      ⟨-, -, hdis, -⟩ | ⟨-, hle, hok, -⟩
    · omega
    · exact Or.inl h2
    · right
      have hov := write_true_no_overflow hf hn hr hok
      rw [Nat.mod_eq_of_lt hov] at hcap
      obtain ⟨f1, f2, f3, x, hf1, hf2, hf3, hf4, h0, hceq⟩ := grownCapacity_eq hc
      have hcnat : (truncate x).toNat = c := by omega
      have hmax : r.2.2.mnCapacity = max (truncate x).toNat (s.mnPosition + n) := by
        rw [hcap, hcnat]
        split_ifs <;> omega
      refine ⟨hok, ⟨f1, f2, f3, x, hf1, hf2, hf3, hf4, hmax, ?_, ?_⟩, ?_⟩
      · intro hx
        have hlt : c < s.mnPosition + n := by
          by_cases hx0 : 0 ≤ x
          · have h1 := truncate_le_of_nonneg x hx0
            rw [← hceq] at h1
            have h2 : ((c : Int) : ℚ) < ((s.mnPosition + n : Nat) : ℚ) := lt_of_le_of_lt h1 hx
            have h3 : ((c : Nat) : ℚ) < ((s.mnPosition + n : Nat) : ℚ) := by simpa using h2
            exact_mod_cast h3
          · have h1 := truncate_nonpos_of_neg x hx0
            omega
        rw [hcap, if_pos hlt]
      · intro hx
        have hx' : ((s.mnPosition + n : Nat) : ℚ) ≤ x := not_lt.mp hx
        have hx0 : 0 ≤ x := le_trans (by positivity) hx'
        have h1 : ((s.mnPosition + n : Nat) : Int) ≤ truncate x :=
          le_truncate_of_le x _ hx0 (by simpa using hx')
        have hge : ¬ c < s.mnPosition + n := by omega
        rw [hcap, if_neg hge]
        exact hceq
      · intro e1 e2 e3 e4
        rw [e1] at hf1
        cases hf1
        rw [e2] at hf2
        cases hf2
        rw [e3] at hf3
        cases hf3
        unfold specGrowth at e4 ⊢
        rw [e4] at hf4
        cases hf4
        exact hmax
    · rw [hen] at hdis
      cases hdis
    · have hov := write_true_no_overflow hf hn hr hok
      rw [Nat.mod_eq_of_lt hov] at hle
      omega
  · intro hwf hb hov hnew halloc hconv
    obtain ⟨c, hc⟩ := Option.isSome_iff_exists.mp hconv
    obtain ⟨h1, p, hwrite, -⟩ := write_grows hwf hen hn hb hov hreq hnew halloc hc
    exact ⟨_, hwrite, rfl⟩

end MemoryStream

theorem write_growth_policy_witness :
    streamTenSlow.mbResizeEnabled = true ∧
    streamTenSlow.mnCapacity < streamTenSlow.mnPosition + 1 ∧
    ∃ r, MemoryStream.write 8 grantAll heapTen streamTenSlow [11] 1 = some r ∧ r.1 = true :=
  ⟨rfl, by decide,
    ((MemoryStream.write_growth_policy 8 grantAll heapTen streamTenSlow [11] 1 rfl (by decide)
      fits_heapTen).2 (by decide)).2
      wellFormed_streamTen rfl (by decide) rfl (fun _ => rfl) (by decide!)⟩

theorem reachable_streamTenSlow : MemoryStream.Reachable 8 heapTen streamTenSlow :=
  MemoryStream.Reachable.step grantAll (.setOption .kOptionResizeFactor floatOnePointThree) true
    reachable_streamTen (by decide!)

/-- C6 (counterexample): `streamTenSlow` is reachable (ten bytes written, then
`setOption(kOptionResizeFactor, 1.3f)`), has resize enabled, capacity 10 and position
10.  Writing one byte has `required = 11 > 10` and returns true with capacity 13: in
binary32 the product `10 * 1.3f` rounds to exactly 13.  With factor and increment taken
as exact rationals `capacity * factor + increment` is `12.9999995...`, so the stated
capacity `max (trunc (capacity * factor + increment)) required` is 12. -/
theorem write_growth_rounds_in_binary32 :
    MemoryStream.Reachable 8 heapTen streamTenSlow ∧
    streamTenSlow.mbResizeEnabled = true ∧
    streamTenSlow.mnCapacity < streamTenSlow.mnPosition + 1 ∧
    MemoryStream.write 8 grantAll heapTen streamTenSlow [11] 1
      = some (true, heapThirteen, streamThirteen) ∧
    streamThirteen.mnCapacity = 13 ∧
    MemoryStream.specGrowth streamTenSlow = 109051900 / 8388608 ∧
    max (truncate (MemoryStream.specGrowth streamTenSlow)).toNat (streamTenSlow.mnPosition + 1)
      = 12 :=
  ⟨reachable_streamTenSlow, rfl, by decide, by decide!, rfl, by decide!, by decide!⟩

/-- A write of 0 bytes (C6): the copy `copySeek` of a stream that was positioned past its
end is reachable, has resize enabled, capacity 0 and position 5; a write of 0 bytes has
`required = 5 > capacity` but returns true without touching the capacity, which stays 0
and not `max (trunc (0 * 3/2 + 0)) 5 = 5`. -/
theorem write_of_zero_bytes_keeps_capacity :
    MemoryStream.Reachable 8 heapSeekShared copySeek ∧
    copySeek.mbResizeEnabled = true ∧
    copySeek.mnCapacity < copySeek.mnPosition + 0 ∧
    MemoryStream.write 8 grantAll heapSeekShared copySeek [] 0
      = some (true, heapSeekShared, copySeek) ∧
    copySeek.mnCapacity ≠
      max (truncate (MemoryStream.specGrowth copySeek)).toNat (copySeek.mnPosition + 0) :=
  ⟨MemoryStream.Reachable.copyNew reachable_streamSeek (by decide!), rfl, by decide, rfl,
    by decide!⟩
/-! ## C7: `read` -/

namespace MemoryStream

/-- C7: in a well-formed state with `position = p ≤ size`, `read` of `n` bytes returns
`k = min n (size - p)`, stores at the destination exactly the `k` bytes of the bound
buffer at offsets `p .. p+k-1`, and advances the position to `p + k`; size and capacity
are unchanged (the heap is not touched by `read`).  With `n = 0` or `p = size` it returns
0 and changes nothing. -/
theorem read_returns_available_bytes (w : Nat) (h : Heap) (s : MemoryStream) (n : Nat)
    (ht : Typed w s) (hwf : WellFormed h s) (hp : s.mnPosition ≤ s.mnSize) :
    read w h s n =
      some (min n (s.mnSize - s.mnPosition),
            ((buffer h s).drop s.mnPosition).take (min n (s.mnSize - s.mnPosition)),
            { s with mnPosition := s.mnPosition + min n (s.mnSize - s.mnPosition) }) ∧
    (n = 0 ∨ s.mnPosition = s.mnSize → read w h s n = some (0, [], s)) := by
  obtain ⟨hsz, -, -⟩ := ht
  obtain ⟨hcap, hbound⟩ := hwf
  have havail : (s.mnSize + 2 ^ w - s.mnPosition) % 2 ^ w = s.mnSize - s.mnPosition := by
    have h1 : s.mnSize + 2 ^ w - s.mnPosition = (s.mnSize - s.mnPosition) + 2 ^ w := by omega
    rw [h1, Nat.add_mod_right]
    exact Nat.mod_eq_of_lt (by omega)
  have hnone : n = 0 ∨ s.mnPosition = s.mnSize → read w h s n = some (0, [], s) := by
    intro h0
    unfold read
    by_cases h1 : n > 0
    · rw [if_pos h1]
      simp only
      rw [havail, if_neg (by omega)]
    · rw [if_neg h1]
  refine ⟨?_, hnone⟩
  by_cases h0 : n = 0 ∨ s.mnPosition = s.mnSize
  · rw [hnone h0]
    have hk : min n (s.mnSize - s.mnPosition) = 0 := by
      rcases h0 with h0 | h0 <;> simp [h0]
    rw [hk]
    simp
  · have hn : n > 0 := by omega
    have hlt : s.mnPosition < s.mnSize := by omega
    unfold read
    rw [if_pos hn]
    simp only
    rw [havail, if_pos (by omega)]
    have hk : (if n > s.mnSize - s.mnPosition then s.mnSize - s.mnPosition else n)
        = min n (s.mnSize - s.mnPosition) := by
      split_ifs <;> omega
    rw [hk]
    cases hptr : s.mpSharedPointer with
    | none =>
      rw [hptr] at hbound
      simp only at hbound
      omega
    | some p =>
      rw [hptr] at hbound
      obtain ⟨sp, q, d, ho, hq, hd, hlen⟩ := hbound
      have hk0 : min n (s.mnSize - s.mnPosition) ≠ 0 := by omega
      have hfit : s.mnPosition + min n (s.mnSize - s.mnPosition) ≤ d.length := by omega
      have hmod : (s.mnPosition + min n (s.mnSize - s.mnPosition)) % 2 ^ w
          = s.mnPosition + min n (s.mnSize - s.mnPosition) := Nat.mod_eq_of_lt (by omega)
      simp only [SharedPointer.getPointer, ho, hq, Heap.memcpyOut, hd, hk0, hfit, hmod,
        Option.bind_eq_bind, Option.some_bind, Option.pure_def, if_true, if_false]
      rw [buffer_eq_of_bound hptr ho hq hd]

end MemoryStream

theorem read_returns_available_bytes_witness :
    MemoryStream.read 8 heapTen { streamTen with mnPosition := 4 } 100 =
      some (6, [5, 6, 7, 8, 9, 10], streamTen) :=
  (MemoryStream.read_returns_available_bytes 8 heapTen { streamTen with mnPosition := 4 } 100
    ⟨by decide, by decide, by decide⟩
    ⟨by decide, ⟨{ mpData := some 0, mnRefCount := 1, mbFreeData := true }, 0,
      [1, 2, 3, 4, 5, 6, 7, 8, 9, 10], rfl, rfl, rfl, by decide⟩⟩
    (by decide)).1

/-! ## C8: seek past the end with resize disabled -/

namespace MemoryStream

/-- The candidate computed by `setPosition` is the specification's candidate whenever
the latter is representable in `size_type`. -/
theorem candidate_eq_specCandidate (w : Nat) (s : MemoryStream) (off : Int)
    (origin : PositionType) (h0 : 0 ≤ specCandidate s off origin)
    (h1 : specCandidate s off origin < 2 ^ w) :
    (candidate w s off origin : Int) = specCandidate s off origin := by
  cases origin with
  | kPositionTypeBegin => exact toSize_of_range w off h0 h1
  | kPositionTypeCurrent => exact add_toSize_mod w s.mnPosition off h0 h1
  | kPositionTypeEnd => exact add_toSize_mod w s.mnSize off h0 h1

/-- C8 (as amended): with resize disabled, a `setPosition(offset, origin)` whose
candidate absolute position exceeds `size` returns false and leaves `position = size`;
size, capacity, the bound pointer and the heap are unchanged.  The candidate is the
value computed in `size_type` arithmetic, or equally the integer `offset` (begin),
`position + offset` (current), `size + offset` (end) when that integer is below
`2 ^ w`. -/
theorem setPosition_clamps_to_size (w : Nat) (a : Allocator) (h : Heap) (s : MemoryStream)
    (off : Int) (origin : PositionType) (hdis : s.mbResizeEnabled = false)
    (hc : s.mnSize < candidate w s off origin ∨
      ((s.mnSize : Int) < specCandidate s off origin ∧ specCandidate s off origin < 2 ^ w)) :
    setPosition w a h s off origin = some (false, h, { s with mnPosition := s.mnSize }) := by
  have hc1 : s.mnSize < candidate w s off origin := by
    rcases hc with hc | ⟨hlo, hhi⟩
    · exact hc
    · have heq := candidate_eq_specCandidate w s off origin (by omega) hhi
      omega
  unfold setPosition
  simp only
  rw [if_pos hc1, if_neg (by simp [hdis])]

end MemoryStream

theorem setPosition_clamps_to_size_witness :
    MemoryStream.setPosition 64 grantAll heapTen { fixedTen with mnPosition := 3 } 100
        .kPositionTypeEnd
      = some (false, heapTen, fixedTen) :=
  MemoryStream.setPosition_clamps_to_size 64 grantAll heapTen { fixedTen with mnPosition := 3 }
    100 .kPositionTypeEnd rfl (Or.inr ⟨by decide, by decide⟩)

/-- C8 (counterexample): with an 8-bit `size_type`, `fixedWide` is reachable and well
formed, has resize disabled, size 200 and position 0.  For `setPosition(100, end)` the
candidate `size + offset` is 300, which exceeds the size, but the code computes it in
`size_type` arithmetic as `300 - 256 = 44`: the call returns true and leaves
`position = 44`, not false with `position = 200`. -/
theorem setPosition_wraps_past_the_end :
    MemoryStream.Reachable 8 heapWide fixedWide ∧
    MemoryStream.WellFormed heapWide fixedWide ∧
    fixedWide.mbResizeEnabled = false ∧
    fixedWide.mnSize = 200 ∧
    MemoryStream.specCandidate fixedWide 100 .kPositionTypeEnd = 300 ∧
    MemoryStream.candidate 8 fixedWide 100 .kPositionTypeEnd = 44 ∧
    MemoryStream.setPosition 8 grantAll heapWide fixedWide 100 .kPositionTypeEnd
      = some (true, heapWide, { fixedWide with mnPosition := 44 }) :=
  ⟨reachable_fixedWide, wellFormed_fixedWide, rfl, rfl, by decide, by decide, by decide!⟩

/-! ## C9: seek past the end with resize enabled -/

namespace MemoryStream

end MemoryStream

namespace MemoryStream

/-- C10 (as amended): for `newSize < size`, with resize enabled `setSize(newSize)`
returns true, sets `size = newSize` and `position = min position newSize` and performs no
reallocation (heap, bound pointer and capacity unchanged); with resize disabled it
returns false and changes nothing. -/
theorem setSize_shrink (a : Allocator) (h : Heap) (s : MemoryStream) (newSize : Nat)
    (hlt : newSize < s.mnSize) :
    (s.mbResizeEnabled = true →
      setSize a h s newSize =
        some (true, h, { s with mnSize := newSize, mnPosition := min s.mnPosition newSize })) ∧
    (s.mbResizeEnabled = false → setSize a h s newSize = some (false, h, s)) := by
  have hne : newSize ≠ s.mnSize := by omega
  constructor
  · intro hen
    unfold setSize
    rw [if_pos hne, if_pos hen, if_pos hlt]
    have hmin : (if s.mnPosition > newSize then newSize else s.mnPosition)
        = min s.mnPosition newSize := by
      split_ifs <;> omega
    rw [hmin]
  · intro hdis
    unfold setSize
    rw [if_pos hne, if_neg (by simp [hdis])]

end MemoryStream

theorem setSize_shrink_witness :
    MemoryStream.setSize grantAll heapTen streamTen 4 =
      some (true, heapTen, { streamTen with mnSize := 4, mnPosition := 4 }) :=
  (MemoryStream.setSize_shrink grantAll heapTen streamTen 4 (by decide)).1 rfl

/-- C10 (counterexample): on a stream of size 4 with resize disabled, `setSize(2)`
returns false and the size stays 4. -/
theorem setSize_shrink_refused_when_fixed :
    streamFour.mbResizeEnabled = false ∧
    MemoryStream.setSize grantAll heapFour streamFour 2 = some (false, heapFour, streamFour) ∧
    streamFour.mnSize = 4 :=
  ⟨rfl, by decide!, rfl⟩

/-! ## C11: growth and the resize flag -/

namespace MemoryStream

/-- C11 (as amended): with the resize flag off, `write`, `setPosition` and `setSize`
never change the capacity and never replace the bound `SharedPointer` (`setPosition` and
`setSize` leave the heap untouched as well); `setCapacity` does not consult the flag: it
either returns false and changes nothing or grows the capacity to the requested larger
value. -/
theorem no_automatic_growth_when_resize_disabled (w : Nat) (a : Allocator) (h : Heap)
    (s : MemoryStream) (hdis : s.mbResizeEnabled = false) :
    (∀ b n r, write w a h s b n = some r →
      r.2.2.mnCapacity = s.mnCapacity ∧ r.2.2.mpSharedPointer = s.mpSharedPointer) ∧
    (∀ off origin r, setPosition w a h s off origin = some r →
      r.2.2.mnCapacity = s.mnCapacity ∧ r.2.2.mpSharedPointer = s.mpSharedPointer ∧
      r.2.1 = h) ∧
    (∀ n r, setSize a h s n = some r → r = (decide (n = s.mnSize), h, s)) ∧
    (∀ n r, setCapacity a h s n = some r →
      r = (false, h, s) ∨ (s.mnCapacity < n ∧ r.1 = true ∧ r.2.2.mnCapacity = n)) := by
  have hne : ¬ s.mbResizeEnabled = true := by simp [hdis]
  refine ⟨?_, ?_, ?_, ?_⟩
  · intro b n r hr
    rcases write_stream hr with ⟨-, h2⟩ | ⟨-, -, hen, -⟩ | ⟨-, -, hen, -⟩ | ⟨-, -, -, -, h2⟩ |
      ⟨-, -, -, h2⟩
    · rw [h2]; exact ⟨rfl, rfl⟩
    · exact absurd hen hne
    · exact absurd hen hne
    · rw [h2]; exact ⟨rfl, rfl⟩
    · rw [h2]; exact ⟨rfl, rfl⟩
  · intro off origin r hr
    rcases setPosition_stream hr with ⟨-, h2⟩ | ⟨-, -, h2⟩ | ⟨-, hen, -⟩ | ⟨-, hen, -⟩ |
      ⟨-, hen, -⟩
    · rw [h2]; exact ⟨rfl, rfl, rfl⟩
    · rw [h2]; exact ⟨rfl, rfl, rfl⟩
    · exact absurd hen hne
    · exact absurd hen hne
    · exact absurd hen hne
  · intro n r hr
    unfold setSize at hr
    by_cases h1 : n ≠ s.mnSize
    · rw [if_pos h1, if_neg hne] at hr
      cases hr
      simp [h1]
    · rw [if_neg h1] at hr
      cases hr
      simp [not_not.mp h1]
  · intro n r hr
    rcases setCapacity_stream hr with ⟨h1, h2, h3⟩ | ⟨hlt, hok, h2⟩
    · left
      obtain ⟨r1, r2, r3⟩ := r
      simp only at h1 h2 h3
      rw [h1, h2, h3]
    · right
      exact ⟨hlt, hok, by rw [h2]⟩

end MemoryStream

theorem no_automatic_growth_when_resize_disabled_witness :
    streamFour.mbResizeEnabled = false ∧
    MemoryStream.setSize grantAll heapFour streamFour 2 = some (false, heapFour, streamFour) ∧
    ((false, heapFour, streamFour) : Bool × Heap × MemoryStream)
      = (decide (2 = streamFour.mnSize), heapFour, streamFour) :=
  ⟨rfl, by decide!,
    (MemoryStream.no_automatic_growth_when_resize_disabled 8 grantAll heapFour streamFour
      rfl).2.2.1 2 (false, heapFour, streamFour) (by decide!)⟩

/-- C11 (counterexample): `streamFour` is reachable and has the resize flag off;
`setCapacity(8)` returns true, raises the capacity from 4 to 8 and replaces the bound
`SharedPointer` (object 0 by the new object 1). -/
theorem setCapacity_grows_with_resize_disabled :
    MemoryStream.Reachable 8 heapFour streamFour ∧
    streamFour.mbResizeEnabled = false ∧
    MemoryStream.setCapacity grantAll heapFour streamFour 8
      = some (true, heapEight, streamEight) ∧
    streamFour.mnCapacity < streamEight.mnCapacity ∧
    streamEight.mpSharedPointer ≠ streamFour.mpSharedPointer ∧
    heapEight.object 0 = none :=
  ⟨reachable_streamFour, rfl, by decide!, by decide, by decide, rfl⟩

/-! ## C12: bind by copy -/

namespace MemoryStream

/-- A successful copying `setData` of `n > 0` bytes: the stream is bound to a new
`SharedPointer` whose block starts with the first `n` bytes of the source region. -/
theorem setData_copy_inv {a : Allocator} {h h1 : Heap} {s s1 : MemoryStream} {src n : Nat}
    {f : Bool} {d : List Byte} (hn : n ≠ 0) (hsrc : h.block src = some d)
    (hset : setData a h s (some src) n false f = some (true, h1, s1)) :
    ∃ p sp q c, s1 = afterBind s (some p) n ∧ h1.object p = some sp ∧ sp.mpData = some q ∧
      h1.block q = some c ∧ n ≤ c.length ∧ n ≤ d.length ∧ c.take n = d.take n := by
  unfold setData at hset
  rw [if_pos (by simp)] at hset
  simp only [Bool.false_eq_true, if_false] at hset
  unfold Heap.allocate at hset
  by_cases hca : a.canAllocate n = true
  · simp only [hca, if_true, Option.bind_eq_bind, Option.bind_eq_some, Option.pure_def,
      Option.some.injEq, Prod.mk.injEq] at hset
    obtain ⟨b, hbind, hb1, hb2, hb3⟩ := hset
    unfold bindRegion at hbind
    simp only [Option.bind_eq_bind, Option.bind_eq_some] at hbind
    obtain ⟨h2, hrel, hbind⟩ := hbind
    by_cases hnew : a.canNew = true
    · rw [if_pos hnew] at hbind
      simp only [Heap.newObject, Option.isSome_some, true_and, ne_eq, hn, not_false_eq_true,
        and_self, if_true, Option.bind_eq_some, Option.pure_def, Option.some.injEq] at hbind
      obtain ⟨r3, hadd, h5, hcopy, rfl⟩ := hbind
      simp only at hb2 hb3
      subst hb2
      -- the heap after `addRef` has the blocks of `h2` and the new object at the end
      unfold SharedPointer.addRef at hadd
      simp only [Heap.object, getD_append_last, Option.some.injEq] at hadd
      subst hadd
      obtain ⟨q, x, dx, g, hq, hx, hbx, hnx, hbq, hng, rfl⟩ := Heap.memcpyBlock_inv hn hcopy
      cases hq
      cases hx
      -- the source block is the caller's block, untouched so far
      have hx2 : h2.block src = some dx := hbx
      have hxA := releaseIfBound_block_mono hrel hx2
      have hlt := Heap.block_lt hsrc
      have hxh : h.block src = some dx := by
        rw [← hxA]
        exact (getD_append_of_lt _ _ _ hlt).symm
      rw [hsrc] at hxh
      cases hxh
      refine ⟨h2.objects.length,
        { mpData := some h.blocks.length, mnRefCount := 0 + 1, mbFreeData := f },
        h.blocks.length, d.take n ++ g.drop n, hb3.symm, ?_, rfl, ?_, ?_, hnx, ?_⟩
      · rw [Heap.object_setBlock]
        exact Heap.object_setObject_self _ (by simp)
      · exact Heap.block_setBlock_self _ (Heap.block_lt hbq)
      · simp only [List.length_append, List.length_take, List.length_drop]
        omega
      · rw [List.take_append_of_le_length (by simp [List.length_take]; omega), List.take_take]
        simp
    · rw [if_neg hnew] at hbind
      simp only [if_true, Option.bind_eq_bind, Option.bind_eq_some, Option.pure_def,
        Option.some.injEq] at hbind
      obtain ⟨h3, -, rfl⟩ := hbind
      simp at hb1
  · simp only [hca, Bool.false_eq_true, if_false, Option.some.injEq, Prod.mk.injEq] at hset
    simp at hset

/-- C12: if `setData(b, n, adoptPointer = false, ...)` with `n > 0` and a live source
region `b` returns true, then `position = 0`, `size = capacity = n` and an immediately
following `read` of `n` bytes returns `n` and yields exactly the first `n` bytes of the
source region, that is all of `b` when its length is `n`. -/
theorem setData_copy_then_read (w : Nat) (a : Allocator) (h h1 : Heap) (s s1 : MemoryStream)
    (src n : Nat) (f : Bool) (d : List Byte) (hn : 0 < n) (hnw : n < 2 ^ w)
    (hsrc : h.block src = some d)
    (hset : setData a h s (some src) n false f = some (true, h1, s1)) :
    s1.mnPosition = 0 ∧ s1.mnSize = n ∧ s1.mnCapacity = n ∧
    read w h1 s1 n = some (n, d.take n, { s1 with mnPosition := n }) ∧
    (d.length = n → read w h1 s1 n = some (n, d, { s1 with mnPosition := n })) := by
  obtain ⟨p, sp, q, c, hs1, ho, hq, hc, hcn, -, htake⟩ :=
    setData_copy_inv (by omega) hsrc hset
  have hpos : s1.mnPosition = 0 := by rw [hs1]; rfl
  have hsize : s1.mnSize = n := by rw [hs1]; rfl
  have hcap : s1.mnCapacity = n := by rw [hs1]; rfl
  have hptr : s1.mpSharedPointer = some p := by rw [hs1]; rfl
  have hread : read w h1 s1 n = some (n, d.take n, { s1 with mnPosition := n }) := by
    rw [read_of_bound n hptr ho hq hc (by omega) (by omega) (by omega)]
    simp only [hpos, hsize, Nat.sub_zero, Nat.min_self, List.drop_zero, Nat.zero_add, htake]
  refine ⟨hpos, hsize, hcap, hread, ?_⟩
  intro hd
  rw [hread, ← hd, List.take_length]

end MemoryStream

theorem setData_copy_then_read_witness :
    streamFour.mnPosition = 0 ∧ streamFour.mnSize = 4 ∧ streamFour.mnCapacity = 4 ∧
    MemoryStream.read 8 heapFour streamFour 4
      = some (4, [1, 2, 3, 4], { streamFour with mnPosition := 4 }) :=
  have hw := MemoryStream.setData_copy_then_read 8 grantAll callerHeap heapFour
    MemoryStream.empty streamFour 0 4 false [1, 2, 3, 4] (by decide) (by decide) rfl
    (by decide!)
  ⟨hw.1, hw.2.1, hw.2.2.1, hw.2.2.2.2 rfl⟩

/-! ## C13: when `setData` fails -/

namespace MemoryStream

theorem bindRegion_flag {a : Allocator} {h : Heap} {s : MemoryStream} {pData : Option Nat}
    {n q : Nat} {u f : Bool} {b : Bool × Heap × Option Nat}
    (hb : bindRegion a h s pData n u f q = some b) : b.1 = a.canNew := by
  unfold bindRegion at hb
  simp only [Option.bind_eq_bind, Option.bind_eq_some] at hb
  obtain ⟨h2, -, hb⟩ := hb
  by_cases hnew : a.canNew = true
  · rw [if_pos hnew] at hb
    simp only [Option.bind_eq_some] at hb
    obtain ⟨r, -, hb⟩ := hb
    split_ifs at hb <;>
      (simp only [Option.bind_eq_some, Option.pure_def, Option.some.injEq] at hb
       obtain ⟨h5, -, rfl⟩ := hb
       exact hnew.symm)
  · rw [if_neg hnew] at hb
    split_ifs at hb <;>
      (simp only [Option.bind_eq_some, Option.pure_def, Option.some.injEq] at hb
       obtain ⟨h3, -, rfl⟩ := hb
       simpa using hnew)

theorem wellFormed_allocate {h : Heap} {s : MemoryStream} (hwf : WellFormed h s)
    (a : Allocator) (n : Nat) : WellFormed (h.allocate a n).2 s := by
  unfold Heap.allocate
  split_ifs with hc
  · obtain ⟨hsz, hbound⟩ := hwf
    refine ⟨hsz, ?_⟩
    cases hp : s.mpSharedPointer with
    | none =>
      rw [hp] at hbound
      exact hbound
    | some p =>
      rw [hp] at hbound
      obtain ⟨sp, q, d, ho, hq, hd, hlen⟩ := hbound
      refine ⟨sp, q, d, ho, hq, ?_, hlen⟩
      rw [← hd]
      exact getD_append_of_lt _ _ _ (Heap.block_lt hd)
  · exact hwf

/-- On a well-formed stream `releaseIfBound` is defined and touches no block other than
the block of the bound buffer. -/
theorem releaseIfBound_of_wellFormed {h : Heap} {s : MemoryStream} (hwf : WellFormed h s) :
    ∃ h2, releaseIfBound h s.mpSharedPointer = some h2 ∧
      ∀ x, (∀ p sp, s.mpSharedPointer = some p → h.object p = some sp → sp.mpData ≠ some x) →
        h2.block x = h.block x := by
  obtain ⟨-, hbound⟩ := hwf
  cases hp : s.mpSharedPointer with
  | none => exact ⟨h, rfl, fun _ _ => rfl⟩
  | some p =>
    rw [hp] at hbound
    obtain ⟨sp, q, d, ho, hq, hd, -⟩ := hbound
    obtain ⟨r, hrel, -, hblk⟩ := SharedPointer.release_spec ho hq hd
    refine ⟨r.2, by simp [releaseIfBound, hrel], ?_⟩
    intro x hx
    apply hblk
    intro hxq
    subst hxq
    exact hx p sp rfl ho hq

/-- On a well-formed stream `bindRegion` is defined, provided a region to be copied is
live, long enough and not the block of the buffer being released, and the region `q` to
be released on failure is live and not that block either. -/
theorem bindRegion_defined {a : Allocator} {h : Heap} {s : MemoryStream} {P : Option Nat}
    {n q : Nat} {u f : Bool} (hwf : WellFormed h s)
    (hq : u = false → ∃ g, h.block q = some g ∧ n ≤ g.length ∧
      ∀ p sp, s.mpSharedPointer = some p → h.object p = some sp → sp.mpData ≠ some q)
    (hsrc : ∀ src, P = some src → u = false → n ≠ 0 →
      (∃ d, h.block src = some d ∧ n ≤ d.length) ∧
      ∀ p sp, s.mpSharedPointer = some p → h.object p = some sp → sp.mpData ≠ some src) :
    ∃ b, bindRegion a h s P n u f q = some b := by
  obtain ⟨h2, hrel, hframe⟩ := releaseIfBound_of_wellFormed hwf
  unfold bindRegion
  simp only [hrel, Option.bind_eq_bind, Option.some_bind]
  by_cases hnew : a.canNew = true
  · rw [if_pos hnew]
    have hadd : SharedPointer.addRef
        (h2.newObject { mpData := some q, mnRefCount := 0, mbFreeData := f }).2
        (h2.newObject { mpData := some q, mnRefCount := 0, mbFreeData := f }).1
        = some (0 + 1, (h2.newObject { mpData := some q, mnRefCount := 0, mbFreeData := f }).2.setObject
            h2.objects.length (some { mpData := some q, mnRefCount := 0 + 1, mbFreeData := f })) := by
      simp only [SharedPointer.addRef, Heap.newObject, Heap.object, getD_append_last]
    rw [hadd]
    simp only [Option.some_bind]
    by_cases hcopy : P.isSome = true ∧ n ≠ 0 ∧ u = false
    · rw [if_pos hcopy]
      obtain ⟨src, hsrc1⟩ := Option.isSome_iff_exists.mp hcopy.1
      obtain ⟨⟨d, hd, hlen⟩, hne⟩ := hsrc src hsrc1 hcopy.2.2 hcopy.2.1
      obtain ⟨g, hg, hglen, hneq⟩ := hq hcopy.2.2
      have hd2 : h2.block src = some d := by rw [hframe src hne, hd]
      have hg2 : h2.block q = some g := by rw [hframe q hneq, hg]
      obtain ⟨h5, hm, -⟩ := Heap.memcpyBlock_spec (h := (h2.newObject
        { mpData := some q, mnRefCount := 0, mbFreeData := f }).2.setObject h2.objects.length
        (some { mpData := some q, mnRefCount := 0 + 1, mbFreeData := f })) n hd2 hg2 hlen hglen
      rw [hsrc1, hm]
      exact ⟨_, rfl⟩
    · rw [if_neg hcopy]
      exact ⟨_, rfl⟩
  · rw [if_neg hnew]
    by_cases hu : u = false
    · rw [if_pos hu]
      obtain ⟨g, hg, -, hneq⟩ := hq hu
      have hg2 : h2.block q = some g := by rw [hframe q hneq, hg]
      simp only [Heap.deallocate, hg2, Option.some_bind]
      exact ⟨_, rfl⟩
    · rw [if_neg hu]
      exact ⟨_, rfl⟩

/-- C13 (as amended): a completed `setData(pointer, length, adoptPointer, freeOnRelease,
allocator)` returns false exactly when there is something to bind and no data region is
available (a copy is required and the allocator fails to provide it, or a null pointer
of non-zero length is to be adopted) or the `SharedPointer` object cannot be allocated;
in every other case it returns true.  On a well-formed stream the call completes,
provided a region to be copied is live, at least `length` bytes long and not the block of
the stream's own buffer. -/
theorem setData_returns_false_iff (a : Allocator) (h : Heap) (s : MemoryStream)
    (pData : Option Nat) (n : Nat) (u f : Bool) :
    (∀ r, setData a h s pData n u f = some r → (r.1 = false ↔ setDataFails a pData n u)) ∧
    (WellFormed h s →
      (∀ src, pData = some src → u = false → n ≠ 0 →
        (∃ d, h.block src = some d ∧ n ≤ d.length) ∧
        ∀ p sp, s.mpSharedPointer = some p → h.object p = some sp → sp.mpData ≠ some src) →
      ∃ r, setData a h s pData n u f = some r) := by
  constructor
  · intro r hr
    unfold setData at hr
    unfold setDataFails
    by_cases h1 : pData.isSome = true ∨ n ≠ 0
    · rw [if_pos h1] at hr
      simp only at hr
      cases hu : u with
      | true =>
        simp only [hu, if_true] at hr
        cases hp : pData with
        | none =>
          simp only [hp, Option.some.injEq] at hr
          subst hr
          simp [hp] at h1 ⊢
          exact h1
        | some q =>
          simp only [hp, Option.bind_eq_bind, Option.bind_eq_some, Option.pure_def,
            Option.some.injEq] at hr
          obtain ⟨b, hb, rfl⟩ := hr
          have hflag := bindRegion_flag hb
          simp [hflag]
      | false =>
        simp only [hu, Bool.false_eq_true, if_false] at hr
        unfold Heap.allocate at hr
        by_cases hca : a.canAllocate n = true
        · simp only [hca, if_true, Option.bind_eq_bind, Option.bind_eq_some, Option.pure_def,
            Option.some.injEq] at hr
          obtain ⟨b, hb, rfl⟩ := hr
          have hflag := bindRegion_flag hb
          simp [hflag, hca, h1]
        · simp only [hca, Bool.false_eq_true, if_false, Option.some.injEq] at hr
          subst hr
          simp [hca, h1]
    · rw [if_neg h1] at hr
      simp only [Option.bind_eq_bind, Option.bind_eq_some, Option.pure_def,
        Option.some.injEq] at hr
      obtain ⟨h2, -, rfl⟩ := hr
      simp [h1]
  · intro hwf hsrc
    unfold setData
    by_cases h1 : pData.isSome = true ∨ n ≠ 0
    · rw [if_pos h1]
      simp only
      cases hu : u with
      | true =>
        simp only [if_true]
        cases hp : pData with
        | none => exact ⟨_, rfl⟩
        | some q =>
          simp only
          obtain ⟨b, hb⟩ := bindRegion_defined (a := a) (P := some q) (n := n) (q := q)
            (u := true) (f := f) hwf (by simp) (by simp)
          rw [hb]
          exact ⟨_, rfl⟩
      | false =>
        simp only [Bool.false_eq_true, if_false]
        by_cases hca : a.canAllocate n = true
        · have hwfA := wellFormed_allocate hwf a n
          have hA : h.allocate a n = (some h.blocks.length,
              { h with blocks := h.blocks ++ [some ((List.range n).map a.garbage)] }) := by
            simp [Heap.allocate, hca]
          rw [hA] at hwfA ⊢
          simp only
          have hnot : ∀ p sp, s.mpSharedPointer = some p → h.object p = some sp →
              sp.mpData ≠ some h.blocks.length := by
            intro p sp hp ho hq
            obtain ⟨-, hbound⟩ := hwf
            rw [hp] at hbound
            obtain ⟨sp1, q1, d1, ho1, hq1, hd1, -⟩ := hbound
            rw [ho] at ho1
            cases ho1
            rw [hq] at hq1
            cases hq1
            have := Heap.block_lt hd1
            omega
          obtain ⟨b, hb⟩ := bindRegion_defined (a := a) (P := pData) (n := n)
            (q := h.blocks.length) (u := false) (f := f) hwfA
            (fun _ => ⟨(List.range n).map a.garbage, getD_append_last _ _, by simp,
              fun p sp hp ho => hnot p sp hp ho⟩)
            (fun src hp hu0 hn0 => by
              obtain ⟨⟨d, hd, hlen⟩, hne⟩ := hsrc src hp (by rw [hu]) hn0
              refine ⟨⟨d, ?_, hlen⟩, fun p sp hp1 ho => hne p sp hp1 ho⟩
              rw [← hd]
              exact getD_append_of_lt _ _ _ (Heap.block_lt hd))
          rw [hb]
          exact ⟨_, rfl⟩
        · have hA : h.allocate a n = (none, h) := by simp [Heap.allocate, hca]
          rw [hA]
          exact ⟨_, rfl⟩
    · rw [if_neg h1]
      obtain ⟨h2, hrel, -⟩ := releaseIfBound_of_wellFormed hwf
      rw [hrel]
      exact ⟨_, rfl⟩

end MemoryStream

theorem setData_returns_false_iff_witness :
    ((true, heapFour, streamFour).1 = false ↔
      MemoryStream.setDataFails grantAll (some 0) 4 false) ∧
    ∃ r, MemoryStream.setData grantAll callerHeap MemoryStream.empty (some 0) 4 false false
      = some r :=
  ⟨(MemoryStream.setData_returns_false_iff grantAll callerHeap MemoryStream.empty (some 0) 4
      false false).1 (true, heapFour, streamFour) (by decide!),
    (MemoryStream.setData_returns_false_iff grantAll callerHeap MemoryStream.empty (some 0) 4
      false false).2 ⟨Nat.le_refl _, rfl⟩
      (fun src hsrc _ _ => by
        cases hsrc
        exact ⟨⟨[1, 2, 3, 4], rfl, by decide⟩, fun p sp hp => by cases hp⟩)⟩

/-- C13 (counterexample): adopting a null pointer of length 4 returns false although
`adoptPointer` is set and nothing was asked of the allocator; and a copying call whose
data allocation succeeds still returns false when the `SharedPointer` object cannot be
allocated. -/
theorem setData_fails_without_data_allocation_failure :
    MemoryStream.setData grantAll emptyHeap MemoryStream.empty none 4 true false
      = some (false, emptyHeap, MemoryStream.empty) ∧
    grantAll.canAllocate 4 = true ∧ ({ grantAll with canNew := false } : Allocator).canAllocate 4 = true ∧
    (MemoryStream.setData { grantAll with canNew := false } callerHeap MemoryStream.empty (some 0)
      4 false false).map (fun r => r.1) = some false :=
  ⟨by decide!, rfl, rfl, by decide!⟩

/-! ## C14: duplication -/

namespace MemoryStream

/-- What the copy constructor does: the copy references the same `SharedPointer`, whose
count is raised by one, and takes size, position and resize policy from the source; its
capacity is the size of the source. -/
theorem copy_shares_buffer {h h1 : Heap} {s t : MemoryStream} (hc : copy h s = some (h1, t)) :
    t.mpSharedPointer = s.mpSharedPointer ∧ t.mnSize = s.mnSize ∧ t.mnCapacity = s.mnSize ∧
    t.mnPosition = s.mnPosition ∧ t.mbResizeEnabled = s.mbResizeEnabled ∧
    t.mfResizeFactor = s.mfResizeFactor ∧ t.mnResizeIncrement = s.mnResizeIncrement ∧
    (s.mpSharedPointer = none → h1 = h) ∧
    (∀ p, s.mpSharedPointer = some p →
      ∃ sp, h.object p = some sp ∧
        h1 = h.setObject p (some { sp with mnRefCount := sp.mnRefCount + 1 })) := by
  have hs := copy_stream hc
  subst hs
  refine ⟨rfl, rfl, rfl, rfl, rfl, rfl, rfl, ?_, ?_⟩
  · intro hnone
    simp [copy, addRefIfBound, hnone] at hc
    exact hc.symm
  · intro p hp
    simp only [copy, addRefIfBound, hp, SharedPointer.addRef, Option.bind_eq_bind,
      Option.bind_eq_some, Option.pure_def, Option.some.injEq, Prod.mk.injEq,
      Option.map_eq_some'] at hc
    obtain ⟨h2, ⟨r, hr, rfl⟩, rfl, -⟩ := hc
    cases ho : h.object p with
    | none => simp [ho] at hr
    | some sp =>
      simp only [ho, Option.some.injEq] at hr
      subst hr
      exact ⟨sp, rfl, rfl⟩

end MemoryStream

/-- C14 (the code at the failing input): `streamTwo` (size 2, capacity 10) is reachable;
its copy references the same `SharedPointer`, whose count goes from 1 to 2, and has the
same size, position and resize policy, but its capacity is 2, the size of the source,
not the source's capacity 10. -/
theorem copy_capacity_is_source_size :
    MemoryStream.Reachable 8 heapTen streamTwo ∧
    MemoryStream.copy heapTen streamTwo = some (heapTenShared, copyTwo) ∧
    copyTwo.mpSharedPointer = streamTwo.mpSharedPointer ∧
    heapTen.object 0 = some { mpData := some 0, mnRefCount := 1, mbFreeData := true } ∧
    heapTenShared.object 0 = some { mpData := some 0, mnRefCount := 2, mbFreeData := true } ∧
    copyTwo.mnSize = streamTwo.mnSize ∧ copyTwo.mnPosition = streamTwo.mnPosition ∧
    streamTwo.mnCapacity = 10 ∧ copyTwo.mnCapacity = 2 ∧
    copyTwo.mnCapacity ≠ streamTwo.mnCapacity :=
  ⟨reachable_streamTwo, by decide!, rfl, rfl, rfl, rfl, rfl, rfl, rfl, by decide⟩

/-! ## C15: aliasing through a copy -/

namespace MemoryStream

/-- A write of `n > 0` bytes that fits the capacity of a stream bound to a live block,
with the resulting heap spelled out. -/
theorem write_fits_explicit {w : Nat} {a : Allocator} {h : Heap} {s : MemoryStream}
    {p q : Nat} {sp : SharedPointer} {d : List Byte} (b : List Byte)
    (hp : s.mpSharedPointer = some p) (ho : h.object p = some sp) (hq : sp.mpData = some q)
    (hd : h.block q = some d) (hcap : s.mnCapacity ≤ d.length) (hn : 0 < b.length)
    (hov : s.mnPosition + b.length < 2 ^ w) (hreq : s.mnPosition + b.length ≤ s.mnCapacity) :
    write w a h s b b.length =
      some (true,
            h.setBlock q (some (d.take s.mnPosition ++ b ++ d.drop (s.mnPosition + b.length))),
            { s with mnSize := max s.mnSize (s.mnPosition + b.length),
                     mnPosition := s.mnPosition + b.length }) := by
  have hmod : (s.mnPosition + b.length) % 2 ^ w = s.mnPosition + b.length :=
    Nat.mod_eq_of_lt hov
  have hmax : (if s.mnSize < s.mnPosition + b.length
      then { s with mnSize := s.mnPosition + b.length } else s)
      = { s with mnSize := max s.mnSize (s.mnPosition + b.length) } := by
    split_ifs with hlt
    · rw [Nat.max_eq_right (by omega)]
    · rw [Nat.max_eq_left (by omega)]
  unfold write
  rw [if_pos hn]
  simp only [hmod]
  rw [if_neg (by omega), hmax,
    writeBytes_ok (s := { s with mnSize := max s.mnSize (s.mnPosition + b.length) })
      b b.length b.length hp ho hq hd (by show s.mnPosition + b.length ≤ d.length; omega)
      (Nat.le_refl _) (by omega)]
  simp [hmod]

/-- Seeking from the beginning to an offset inside the stream. -/
theorem setPosition_begin_within (w : Nat) (a : Allocator) (h : Heap) (s : MemoryStream)
    (k : Nat) (hk : k ≤ s.mnSize) (hkw : k < 2 ^ w) :
    setPosition w a h s (toOff w k) .kPositionTypeBegin
      = some (true, h, { s with mnPosition := k }) := by
  unfold setPosition
  simp only [candidate, toSize_toOff, Nat.mod_eq_of_lt hkw]
  rw [if_neg (by omega)]

/-- The copy constructor is defined on a well-formed stream. -/
theorem copy_defined {h : Heap} {s : MemoryStream} (hwf : WellFormed h s) :
    ∃ h1 c, copy h s = some (h1, c) := by
  by_cases hnone : s.mpSharedPointer = none
  · exact ⟨h, _, by simp only [copy, addRefIfBound, hnone]; rfl⟩
  · obtain ⟨p, hp⟩ := Option.ne_none_iff_exists'.mp hnone
    have hbound := hwf.2
    rw [hp] at hbound
    obtain ⟨sp, q, d, ho, -⟩ := hbound
    exact ⟨_, _, by simp only [copy, addRefIfBound, hp, SharedPointer.addRef, ho]; rfl⟩

/-- C15: let `S` be a well-formed stream and `S'` its copy.  For every `k` and every
byte sequence `b` of length `n` with `k + n ≤ size`, the copy is made (the shared object
gains a reference), seeking `S'` to `k` and writing `b` through it returns true without
detaching `S'` from the shared buffer, and then seeking `S` to `k` and reading `n` bytes
returns `n` and exactly `b`.  The `SharedPointer` contents live in the heap shared by
both streams. -/
theorem copy_write_visible_in_original (w : Nat) (a : Allocator) (h : Heap) (s : MemoryStream)
    (b : List Byte) (n k : Nat) (hwf : WellFormed h s) (ht : Typed w s) (hb : b.length = n)
    (hk : k + n ≤ s.mnSize) :
    ∃ h1 c, copy h s = some (h1, c) ∧
      setPosition w a h1 c (toOff w k) .kPositionTypeBegin
        = some (true, h1, { c with mnPosition := k }) ∧
      ∃ h2 c2, write w a h1 { c with mnPosition := k } b n = some (true, h2, c2) ∧
        c2.mpSharedPointer = s.mpSharedPointer ∧
        setPosition w a h2 s (toOff w k) .kPositionTypeBegin
          = some (true, h2, { s with mnPosition := k }) ∧
        read w h2 { s with mnPosition := k } n = some (n, b, { s with mnPosition := k + n }) := by
  obtain ⟨hsz, -, -⟩ := ht
  subst hb
  by_cases hn : 0 < b.length
  · obtain ⟨p, sp, q, d, hp, ho, hq, hd, hlen⟩ := wellFormed_bound hwf (by have := hwf.1; omega)
    have hcopy : copy h s = some (h.setObject p (some { sp with mnRefCount := sp.mnRefCount + 1 }),
        { s with mnCapacity := s.mnSize, mnResizeMax := none }) := by
      simp [copy, addRefIfBound, hp, SharedPointer.addRef, ho]
    have ho1 : (h.setObject p (some { sp with mnRefCount := sp.mnRefCount + 1 })).object p
        = some { sp with mnRefCount := sp.mnRefCount + 1 } :=
      Heap.object_setObject_self _ (Heap.object_lt ho)
    have hcap := hwf.1
    have hwrite := write_fits_explicit (w := w) (a := a)
      (s := { s with mnCapacity := s.mnSize, mnResizeMax := none, mnPosition := k })
      (h := h.setObject p (some { sp with mnRefCount := sp.mnRefCount + 1 }))
      b hp ho1 hq hd (by show s.mnSize ≤ d.length; omega) hn
      (by show k + b.length < 2 ^ w; omega) (by show k + b.length ≤ s.mnSize; omega)
    have hnew := Heap.block_setBlock_self
      (h := h.setObject p (some { sp with mnRefCount := sp.mnRefCount + 1 }))
      (some (d.take k ++ b ++ d.drop (k + b.length))) (Heap.block_lt hd)
    have hsplice : (d.take k ++ b ++ d.drop (k + b.length)).length = d.length := by
      simp only [List.length_append, List.length_take, List.length_drop]
      omega
    refine ⟨_, _, hcopy, setPosition_begin_within w a _ _ k (by show k ≤ s.mnSize; omega)
      (by omega), _, _, hwrite, rfl, setPosition_begin_within w a _ s k (by omega) (by omega), ?_⟩
    have ho2 : ((h.setObject p (some { sp with mnRefCount := sp.mnRefCount + 1 })).setBlock q
        (some (d.take k ++ b ++ d.drop (k + b.length)))).object p
        = some { sp with mnRefCount := sp.mnRefCount + 1 } := by
      rw [Heap.object_setBlock]
      exact ho1
    rw [read_of_bound (s := { s with mnPosition := k }) b.length hp ho2 hq hnew
      (by show s.mnSize ≤ _; rw [hsplice]; omega) hsz (by show k ≤ s.mnSize; omega)]
    have hmin : min b.length (s.mnSize - k) = b.length := by omega
    simp only [hmin]
    rw [take_drop_splice d b _ k (by omega)]
  · have hb0 : b = [] := List.length_eq_zero.mp (by omega)
    subst hb0
    obtain ⟨h1, c, hcopy⟩ := copy_defined hwf
    have hc := copy_stream hcopy
    refine ⟨h1, c, hcopy, setPosition_begin_within w a _ _ k
      (by rw [hc]; show k ≤ s.mnSize; simpa using hk) (by simp at hk; omega), h1,
      { c with mnPosition := k }, ?_, by rw [hc], setPosition_begin_within w a _ s k
      (by simpa using hk) (by simp at hk; omega), ?_⟩
    · unfold write
      rw [if_neg (by simp)]
    · unfold read
      rw [if_neg (by simp)]
      rfl

end MemoryStream

theorem copy_write_visible_in_original_witness :
    ∃ h1 c, MemoryStream.copy heapTen streamTen = some (h1, c) ∧
      MemoryStream.setPosition 8 grantAll h1 c (toOff 8 2) .kPositionTypeBegin
        = some (true, h1, { c with mnPosition := 2 }) ∧
      ∃ h2 c2, MemoryStream.write 8 grantAll h1 { c with mnPosition := 2 } [21, 22, 23] 3
          = some (true, h2, c2) ∧
        c2.mpSharedPointer = streamTen.mpSharedPointer ∧
        MemoryStream.setPosition 8 grantAll h2 streamTen (toOff 8 2) .kPositionTypeBegin
          = some (true, h2, { streamTen with mnPosition := 2 }) ∧
        MemoryStream.read 8 h2 { streamTen with mnPosition := 2 } 3
          = some (3, [21, 22, 23], { streamTen with mnPosition := 2 + 3 }) :=
  MemoryStream.copy_write_visible_in_original 8 grantAll heapTen streamTen [21, 22, 23] 3 2
    wellFormed_streamTen ⟨by decide, by decide, by decide⟩ rfl (by decide)

/-! ## C16: reference counting -/

namespace SharedPointer

/-- C16: for a live `SharedPointer` with reference count `n ≥ 2`, `release` returns
`n - 1`, keeps the object alive with count `n - 1` and leaves every memory block as it
was; with count 1 it returns 0 and destroys the object, and the underlying block is
freed if the owning flag is set and left untouched if it is not. -/
theorem release_counts (h : Heap) (p : Nat) (sp : SharedPointer) (ho : h.object p = some sp) :
    (2 ≤ sp.mnRefCount →
      ∃ h1, release h p = some (sp.mnRefCount - 1, h1) ∧
        h1.object p = some { sp with mnRefCount := sp.mnRefCount - 1 } ∧
        h1.blocks = h.blocks) ∧
    (sp.mnRefCount = 1 → sp.mbFreeData = false →
      ∃ h1, release h p = some (0, h1) ∧ h1.object p = none ∧ h1.blocks = h.blocks) ∧
    (sp.mnRefCount = 1 → sp.mbFreeData = true →
      ∀ q d, sp.mpData = some q → h.block q = some d →
        ∃ h1, release h p = some (0, h1) ∧ h1.object p = none ∧ h1.block q = none ∧
          ∀ x, x ≠ q → h1.block x = h.block x) := by
  have hp := Heap.object_lt ho
  refine ⟨?_, ?_, ?_⟩
  · intro hn
    refine ⟨h.setObject p (some { sp with mnRefCount := sp.mnRefCount - 1 }), ?_, ?_, rfl⟩
    · unfold release
      simp only [ho]
      rw [if_pos (by omega)]
    · exact Heap.object_setObject_self _ hp
  · intro hn hfree
    refine ⟨h.setObject p none, ?_, Heap.object_setObject_self _ hp, rfl⟩
    unfold release
    simp only [ho]
    rw [if_neg (by omega)]
    simp [hfree]
  · intro hn hfree q d hq hd
    refine ⟨(h.setBlock q none).setObject p none, ?_, ?_, ?_, ?_⟩
    · unfold release
      simp only [ho]
      rw [if_neg (by omega)]
      simp [hfree, hq, Heap.deallocate, hd]
    · exact Heap.object_setObject_self (h := h.setBlock q none) none hp
    · exact Heap.block_setBlock_self none (Heap.block_lt hd)
    · intro x hx
      exact Heap.block_setBlock_of_ne h none hx

end SharedPointer

theorem release_counts_witness :
    (∃ h1, SharedPointer.release heapSeekShared 0 = some (2 - 1, h1) ∧
      h1.object 0 = some { mpData := some 0, mnRefCount := 2 - 1, mbFreeData := true } ∧
      h1.blocks = heapSeekShared.blocks) ∧
    (∃ h1, SharedPointer.release heapSeek 0 = some (0, h1) ∧ h1.object 0 = none ∧
      h1.block 0 = none ∧ ∀ x, x ≠ 0 → h1.block x = heapSeek.block x) :=
  ⟨(SharedPointer.release_counts heapSeekShared 0
      { mpData := some 0, mnRefCount := 2, mbFreeData := true } rfl).1 (by decide),
    (SharedPointer.release_counts heapSeek 0
      { mpData := some 0, mnRefCount := 1, mbFreeData := true } rfl).2.2 rfl rfl 0
      [0, 0, 0, 0, 0, 0] rfl rfl⟩

/-! ## C17 and C19: reallocation keeps the data -/

theorem getElem?_take_append (buf g : List Byte) (m i : Nat) (hm : m ≤ buf.length)
    (hi : i < m) : (buf.take m ++ g)[i]? = buf[i]? := by
  have hlen : i < (buf.take m).length := by
    rw [List.length_take]
    omega
  rw [List.getElem?_append_left hlen, List.getElem?_take, if_pos hi]

namespace MemoryStream

/-- After a successful `reallocBuffer` to `n ≠ 0` bytes the bound buffer has `n` bytes
and agrees with the old buffer below `min n capacity`. -/
theorem reallocBuffer_keeps_prefix {a : Allocator} {h : Heap} {s : MemoryStream} {n : Nat}
    (hwf : WellFormed h s) (hn : n ≠ 0) (hnew : a.canNew = true)
    (halloc : a.canAllocate n = true) :
    ∃ h1 p, reallocBuffer a h s n =
        some (true, h1, { s with mpSharedPointer := some p, mnCapacity := n }) ∧
      (∀ t : MemoryStream, t.mpSharedPointer = some p →
        (buffer h1 t).length = n ∧
        ∀ i, i < min n s.mnCapacity → (buffer h1 t)[i]? = (buffer h s)[i]?) := by
  obtain ⟨h1, hrealloc, hobj, hblk⟩ := reallocBuffer_grows (a := a) (n := n) hwf hn hnew halloc
  have hbuf := wellFormed_buffer_length hwf
  refine ⟨h1, h.objects.length, hrealloc, ?_⟩
  intro t ht
  rw [buffer_eq_of_bound ht hobj rfl hblk]
  constructor
  · simp only [List.length_append, List.length_take, List.length_drop, List.length_map,
      List.length_range]
    omega
  · intro i hi
    exact getElem?_take_append _ _ _ i (by omega) hi

/-- C17: on a well-formed stream with a granting allocator, `setCapacity(newCapacity)`
with `newCapacity > capacity` returns true, sets the capacity to exactly `newCapacity`,
leaves size and position unchanged, and every byte at an offset below the old capacity
has the same value in the new buffer (of `newCapacity` bytes) as in the old one; with
`newCapacity ≤ capacity` it returns false and changes nothing. -/
theorem setCapacity_preserves_data (a : Allocator) (h : Heap) (s : MemoryStream)
    (newCapacity : Nat) (hwf : WellFormed h s) (hnew : a.canNew = true)
    (halloc : ∀ m, a.canAllocate m = true) :
    (s.mnCapacity < newCapacity →
      ∃ h1 s1, setCapacity a h s newCapacity = some (true, h1, s1) ∧
        s1.mnCapacity = newCapacity ∧ s1.mnSize = s.mnSize ∧ s1.mnPosition = s.mnPosition ∧
        (buffer h1 s1).length = newCapacity ∧
        ∀ i, i < s.mnCapacity → (buffer h1 s1)[i]? = (buffer h s)[i]?) ∧
    (newCapacity ≤ s.mnCapacity → setCapacity a h s newCapacity = some (false, h, s)) := by
  constructor
  · intro hlt
    obtain ⟨h1, p, hrealloc, hkeep⟩ :=
      reallocBuffer_keeps_prefix (a := a) (n := newCapacity) hwf (by omega) hnew (halloc _)
    obtain ⟨hlen, hpre⟩ := hkeep { s with mpSharedPointer := some p, mnCapacity := newCapacity } rfl
    refine ⟨h1, { s with mpSharedPointer := some p, mnCapacity := newCapacity }, ?_, rfl, rfl,
      rfl, hlen, ?_⟩
    · unfold setCapacity
      rw [if_pos hlt]
      exact hrealloc
    · intro i hi
      exact hpre i (by omega)
  · intro hle
    unfold setCapacity
    rw [if_neg (by omega)]

/-- C19: on a well-formed stream with resize enabled and a granting allocator,
`setSize(newSize)` with `newSize > size` returns true and leaves
`size = capacity = newSize` (so the capacity shrinks when `newSize` is below the old
capacity); the position is unchanged and every byte at an offset below the old size
keeps its value. -/
theorem setSize_grow_sets_capacity (a : Allocator) (h : Heap) (s : MemoryStream)
    (newSize : Nat) (hwf : WellFormed h s) (hen : s.mbResizeEnabled = true)
    (hgt : s.mnSize < newSize) (hnew : a.canNew = true)
    (halloc : ∀ m, a.canAllocate m = true) :
    ∃ h1 s1, setSize a h s newSize = some (true, h1, s1) ∧
      s1.mnSize = newSize ∧ s1.mnCapacity = newSize ∧ s1.mnPosition = s.mnPosition ∧
      (newSize < s.mnCapacity → s1.mnCapacity < s.mnCapacity) ∧
      (buffer h1 s1).length = newSize ∧
      ∀ i, i < s.mnSize → (buffer h1 s1)[i]? = (buffer h s)[i]? := by
  obtain ⟨h1, p, hrealloc, hkeep⟩ :=
    reallocBuffer_keeps_prefix (a := a) (n := newSize) hwf (by omega) hnew (halloc _)
  obtain ⟨hlen, hpre⟩ :=
    hkeep { s with mpSharedPointer := some p, mnCapacity := newSize, mnSize := newSize } rfl
  have hsz := hwf.1
  refine ⟨h1, { s with mpSharedPointer := some p, mnCapacity := newSize, mnSize := newSize },
    ?_, rfl, rfl, rfl, fun hlt => hlt, hlen, ?_⟩
  · unfold setSize
    rw [if_pos (by omega), if_pos hen, if_neg (by omega), hrealloc]
    rfl
  · intro i hi
    exact hpre i (by omega)

end MemoryStream

theorem setCapacity_preserves_data_witness :
    ∃ h1 s1, MemoryStream.setCapacity grantAll heapFour streamFour 8 = some (true, h1, s1) ∧
      s1.mnCapacity = 8 ∧ s1.mnSize = streamFour.mnSize ∧
      s1.mnPosition = streamFour.mnPosition ∧ (MemoryStream.buffer h1 s1).length = 8 ∧
      ∀ i, i < streamFour.mnCapacity →
        (MemoryStream.buffer h1 s1)[i]? = (MemoryStream.buffer heapFour streamFour)[i]? :=
  (MemoryStream.setCapacity_preserves_data grantAll heapFour streamFour 8
    ⟨by decide, ⟨{ mpData := some 1, mnRefCount := 1, mbFreeData := false }, 1, [1, 2, 3, 4],
      rfl, rfl, rfl, by decide⟩⟩ rfl (fun _ => rfl)).1 (by decide)

theorem setSize_grow_sets_capacity_witness :
    ∃ h1 s1, MemoryStream.setSize grantAll heapTen streamTwo 5 = some (true, h1, s1) ∧
      s1.mnSize = 5 ∧ s1.mnCapacity = 5 ∧ s1.mnPosition = streamTwo.mnPosition ∧
      (5 < streamTwo.mnCapacity → s1.mnCapacity < streamTwo.mnCapacity) ∧
      (MemoryStream.buffer h1 s1).length = 5 ∧
      ∀ i, i < streamTwo.mnSize →
        (MemoryStream.buffer h1 s1)[i]? = (MemoryStream.buffer heapTen streamTwo)[i]? :=
  MemoryStream.setSize_grow_sets_capacity grantAll heapTen streamTwo 5
    ⟨by decide, ⟨{ mpData := some 0, mnRefCount := 1, mbFreeData := true }, 0,
      [1, 2, 3, 4, 5, 6, 7, 8, 9, 10], rfl, rfl, rfl, by decide⟩⟩ rfl (by decide) rfl
    (fun _ => rfl)

/-! ## C18: capacity against the real length of the bound buffer -/

theorem reachable_copyFour : MemoryStream.Reachable 8 heapCopyFour streamFour :=
  MemoryStream.Reachable.step grantAll (.setData (some 0) 4 false false) true
    (MemoryStream.Reachable.init callerEight) (by decide!)

/-- C18 (the code at the failing input): a stream owns a four-byte copy of a caller
region; a second `setData(region, 8, copy)` whose data allocation fails returns false,
keeps the four-byte buffer bound and still sets `size = capacity = 8`.  The resulting
state is reachable, its capacity exceeds the length of the bound buffer, and a read of
8 bytes runs past the end of that buffer. -/
theorem failed_setData_overstates_capacity :
    MemoryStream.Reachable 8 heapCopyFour streamFour ∧
    heapCopyFour.block 0 = some [1, 2, 3, 4, 5, 6, 7, 8] ∧
    MemoryStream.setData denyData heapCopyFour streamFour (some 0) 8 false false
        = some (false, heapCopyFour, streamOverrun) ∧
    MemoryStream.Reachable 8 heapCopyFour streamOverrun ∧
    streamOverrun.mpSharedPointer = streamFour.mpSharedPointer ∧
    streamOverrun.mnCapacity = 8 ∧
    (MemoryStream.buffer heapCopyFour streamOverrun).length = 4 ∧
    ¬ streamOverrun.mnCapacity ≤ (MemoryStream.buffer heapCopyFour streamOverrun).length ∧
    MemoryStream.read 8 heapCopyFour streamOverrun 8 = none :=
  ⟨reachable_copyFour, rfl, by decide!,
    MemoryStream.Reachable.step denyData (.setData (some 0) 8 false false) false
      reachable_copyFour (by decide!),
    rfl, rfl, by decide, by decide, by decide!⟩

/-! ## C20: seek to a negative position with resize disabled -/

namespace MemoryStream

/-- A negative integer candidate wraps to `2 ^ w + candidate` in `size_type`. -/
theorem candidate_of_negative (w : Nat) (s : MemoryStream) (off : Int) (origin : PositionType)
    (hlo : -(2 ^ w : Int) ≤ specCandidate s off origin) (hneg : specCandidate s off origin < 0) :
    (candidate w s off origin : Int) = specCandidate s off origin + 2 ^ w := by
  cases origin with
  | kPositionTypeBegin => exact toSize_of_neg w off hlo hneg
  | kPositionTypeCurrent => exact add_toSize_mod_neg w s.mnPosition off hlo hneg
  | kPositionTypeEnd => exact add_toSize_mod_neg w s.mnSize off hlo hneg

/-- C20 (as amended): with resize disabled and an offset in the range of `off_type`, a
`setPosition` whose integer candidate is negative computes the wrapped candidate
`2 ^ w + candidate`.  Whenever that value exceeds `size` the call returns false and
leaves `position = size` (not 0, not the previous position); this is always the case
for origin end, and for every origin when `size < 2 ^ (w - 1)`.  Whenever the wrapped
value does not exceed `size` the call returns true, leaves `position = 2 ^ w + candidate`
and changes nothing else; for origin current this is the case exactly when
`size - position ≥ 2 ^ w + offset`. -/
theorem setPosition_negative_wraps (w : Nat) (a : Allocator) (h : Heap) (s : MemoryStream)
    (off : Int) (origin : PositionType) (hdis : s.mbResizeEnabled = false)
    (hoff : -(2 ^ w : Int) ≤ 2 * off ∧ 2 * off < 2 ^ w)
    (hneg : specCandidate s off origin < 0) :
    (candidate w s off origin : Int) = specCandidate s off origin + 2 ^ w ∧
    ((s.mnSize : Int) < specCandidate s off origin + 2 ^ w →
      setPosition w a h s off origin = some (false, h, { s with mnPosition := s.mnSize })) ∧
    (origin = .kPositionTypeEnd ∨ 2 * s.mnSize < 2 ^ w →
      setPosition w a h s off origin = some (false, h, { s with mnPosition := s.mnSize })) ∧
    (specCandidate s off origin + 2 ^ w ≤ (s.mnSize : Int) →
      setPosition w a h s off origin
        = some (true, h, { s with mnPosition := (specCandidate s off origin + 2 ^ w).toNat })) ∧
    (origin = .kPositionTypeCurrent →
      ((2 ^ w + off ≤ (s.mnSize : Int) - (s.mnPosition : Int)) ↔
        setPosition w a h s off origin
          = some (true, h, { s with mnPosition := ((s.mnPosition : Int) + off + 2 ^ w).toNat }))) := by
  have hpow : (0 : Int) < 2 ^ w := by positivity
  have hge : off ≤ specCandidate s off origin := by
    cases origin <;> simp only [specCandidate] <;> omega
  have hwrap := candidate_of_negative w s off origin (by omega) hneg
  have hclamp : (s.mnSize : Int) < specCandidate s off origin + 2 ^ w →
      setPosition w a h s off origin = some (false, h, { s with mnPosition := s.mnSize }) := by
    intro hlt
    have hc : s.mnSize < candidate w s off origin := by omega
    unfold setPosition
    simp only
    rw [if_pos hc, if_neg (by simp [hdis])]
  have hkeep : specCandidate s off origin + 2 ^ w ≤ (s.mnSize : Int) →
      setPosition w a h s off origin
        = some (true, h, { s with mnPosition := (specCandidate s off origin + 2 ^ w).toNat }) := by
    intro hle
    have hc : ¬ s.mnSize < candidate w s off origin := by omega
    have hcand : candidate w s off origin = (specCandidate s off origin + 2 ^ w).toNat := by
      omega
    unfold setPosition
    simp only
    rw [if_neg hc, hcand]
  refine ⟨hwrap, hclamp, ?_, hkeep, ?_⟩
  · intro hcase
    apply hclamp
    rcases hcase with hend | hsmall
    · subst hend
      simp only [specCandidate]
      omega
    · have hsmall' : 2 * (s.mnSize : Int) < 2 ^ w := by exact_mod_cast hsmall
      omega
  · intro hcur
    subst hcur
    simp only [specCandidate] at hkeep hclamp hneg
    constructor
    · intro hle
      exact hkeep (by omega)
    · intro htrue
      by_contra hnot
      rw [hclamp (by omega)] at htrue
      simp at htrue

end MemoryStream

theorem setPosition_negative_wraps_witness :
    MemoryStream.setPosition 64 grantAll heapTen { fixedTen with mnPosition := 3 } (-5)
        .kPositionTypeCurrent
      = some (false, heapTen, fixedTen) :=
  (MemoryStream.setPosition_negative_wraps 64 grantAll heapTen { fixedTen with mnPosition := 3 }
    (-5) .kPositionTypeCurrent rfl ⟨by decide, by decide⟩ (by decide)).2.2.1
    (Or.inr (by decide))

/-- C20 (counterexample): with a 64-bit `size_type`, the stream bound by
`setData(sharedPointer, 2^64 - 1)` has resize disabled, position 0 and size `2^64 - 1`;
`setPosition(-2^63, current)` has the negative candidate `-2^63`, which wraps to
`2^63`, not above the size: the call returns true and leaves `position = 2^63`. -/
theorem setPosition_negative_not_clamped :
    MemoryStream.Reachable 64 heapExternalBound streamHuge ∧
    streamHuge.mbResizeEnabled = false ∧
    MemoryStream.specCandidate streamHuge (-(2 ^ 63)) .kPositionTypeCurrent < 0 ∧
    MemoryStream.candidate 64 streamHuge (-(2 ^ 63)) .kPositionTypeCurrent = 2 ^ 63 ∧
    ¬ streamHuge.mnSize < MemoryStream.candidate 64 streamHuge (-(2 ^ 63)) .kPositionTypeCurrent ∧
    MemoryStream.setPosition 64 grantAll heapExternalBound streamHuge (-(2 ^ 63))
        .kPositionTypeCurrent
      = some (true, heapExternalBound, { streamHuge with mnPosition := 2 ^ 63 }) :=
  ⟨reachable_streamHuge, rfl, by decide, by decide, by decide, by decide!⟩

end eaio
